import Mathlib

/-!
Verification of the maze generation core (mazegen/MazeGenerator.py).

The grid is a Python list of rows, each row a list of unsigned integers;
cells are bitfields (bit 0 = top wall, bit 1 = right wall, bits 2-3 the
entry/exit/pattern context, bit 4 the transient visited flag, bits 8+ the
transient DFS depth stamp).  Stateful code is embedded with explicit state
passing; the while loops are embedded as fuel-indexed step functions; the
global random module is embedded as an explicit deterministic stream of
raw draws threaded through the calls.
-/

namespace AMaze

/-! ## Grid model -/

/-- A maze grid: list of rows, each row a list of cell values
(Python list of list of int). -/
abbrev Grid := List (List Nat)

/-- Read cell at row y, column x (0 when out of range), Python maze[y][x]. -/
def gget (g : Grid) (y x : Nat) : Nat := (g.getD y []).getD x 0

/-- Write value v at row y, column x (no-op out of range),
Python maze[y][x] = v. -/
def setCell (g : Grid) (y x v : Nat) : Grid :=
  g.set y ((g.getD y []).set x v)

/-- The grid consists of h rows of w cells each. -/
def Rect (g : Grid) (w h : Nat) : Prop :=
  g.length = h ∧ ∀ r ∈ g, r.length = w

instance (g : Grid) (w h : Nat) : Decidable (Rect g w h) := by
  unfold Rect; infer_instance

theorem Rect.row_len {g : Grid} {w h : Nat} (hr : Rect g w h) {y : Nat}
    (hy : y < h) : (g.getD y []).length = w := by
  rcases hr with ⟨hl, hrow⟩
  have hy' : y < g.length := by omega
  have : g.getD y [] = g[y] := by
    simp [List.getD_eq_getElem?_getD, List.getElem?_eq_getElem hy']
  rw [this]
  exact hrow _ (List.getElem_mem hy')

theorem length_setCell (g : Grid) (y x v : Nat) :
    (setCell g y x v).length = g.length := by
  simp [setCell]

theorem Rect.setCell {g : Grid} {w h : Nat} (hr : Rect g w h) (y x v : Nat) :
    Rect (setCell g y x v) w h := by
  rcases Nat.lt_or_ge y g.length with hy | hy
  · refine ⟨by simp [AMaze.setCell, hr.1], ?_⟩
    intro r hrmem
    rcases hr with ⟨hl, hrow⟩
    rcases List.mem_or_eq_of_mem_set hrmem with hmem | hEq
    · exact hrow _ hmem
    · subst hEq
      have : g.getD y [] = g[y] := by
        simp [List.getD_eq_getElem?_getD, List.getElem?_eq_getElem hy]
      rw [this]
      simpa using hrow _ (List.getElem_mem hy)
  · rw [AMaze.setCell, List.set_eq_of_length_le hy]
    exact hr

/-- Cell read after a write to the same in-range position. -/
theorem gget_setCell_self {g : Grid} {w h : Nat} (hr : Rect g w h)
    {y x : Nat} (hy : y < h) (hx : x < w) (v : Nat) :
    gget (setCell g y x v) y x = v := by
  have hy' : y < g.length := hr.1 ▸ hy
  have hx' : x < (g.getD y []).length := by rw [hr.row_len hy]; exact hx
  have hx'' : x < (g[y]?.getD []).length := by
    rw [← List.getD_eq_getElem?_getD]; exact hx'
  simp only [gget, setCell, List.getD_eq_getElem?_getD]
  rw [List.getElem?_set_self hy', Option.getD_some,
    List.getElem?_set_self hx'', Option.getD_some]

/-- Cell read after a write to a different position. -/
theorem gget_setCell_ne {g : Grid} (y x v y' x' : Nat)
    (hne : y ≠ y' ∨ x ≠ x') :
    gget (setCell g y x v) y' x' = gget g y' x' := by
  rcases hne with hy | hx
  · simp [gget, setCell, List.getD_eq_getElem?_getD, List.getElem?_set_ne hy]
  · by_cases h : y = y'
    · subst h
      rcases Nat.lt_or_ge y g.length with hy | hy
      · simp only [gget, setCell, List.getD_eq_getElem?_getD,
          List.getElem?_set_self hy, Option.getD_some, List.getElem?_set_ne hx]
      · have hnop : setCell g y x v = g := by
          rw [setCell]; exact List.set_eq_of_length_le hy
        rw [hnop]
    · simp [gget, setCell, List.getD_eq_getElem?_getD,
        List.getElem?_set_ne h]

/-! ## Random source -/

/-- The Python global random module, embedded as a deterministic stream of
raw natural-number draws together with a cursor. -/
structure Rng where
  seq : Nat → Nat
  idx : Nat

/-- Take one raw draw from the stream. -/
def Rng.take (r : Rng) : Nat × Rng := (r.seq r.idx, ⟨r.seq, r.idx + 1⟩)

/-- Python random.choice on a non-empty list of naturals: one draw selects
the element. -/
def rchoice (l : List Nat) (r : Rng) : Nat × Rng :=
  let p := r.take
  (l.getD (p.1 % l.length) 0, p.2)

/-- Python "random.random() < 0.01 * pr" for a percentage pr, consuming one
draw; the draw is reduced mod 100 so that the comparison succeeds with
probability pr/100 for a uniform stream. -/
def rbelow (pr : Nat) (r : Rng) : Bool × Rng :=
  let p := r.take
  (decide (p.1 % 100 < pr), p.2)

/-- Python random.seed(s): afterwards the global generator is in a state that
is a function of the seed alone (the particular mixing function is
irrelevant to the claims; only its independence from the prior state is). -/
def seedRng (s : Int) : Rng :=
  ⟨fun n => (s.natAbs + n + 1) * 2654435761 % 4294967296, 0⟩

/-! ## Parameter record (CMazeParams) -/

/-- The validated parameter record, as consumed by the generation pipeline
(cosmetic rendering fields omitted; they are never read by the core). -/
structure CMazeParams where
  width : Nat
  height : Nat
  entry : Nat × Nat
  exit : Nat × Nat
  output_file : String := ""
  perfect : Bool := true
  seed : Option Int := none
  insert_42 : Bool := true
  probability_to_del_dead_end : Nat := 99

/-- Construction-time validation of CMazeParams: the pydantic field bounds
width ≥ 1 and height ≥ 1 followed by params_validator, which rejects
entry = exit and rejects an entry or exit whose x is ≥ width or whose y is
≥ height.  Returns true exactly when construction succeeds (no validation
error raised).  Coordinates are integers: pydantic places no lower bound
on them. -/
def params_validator (width height : Int) (entry exit_ : Int × Int) : Bool :=
  if width < 1 then false
  else if height < 1 then false
  else if entry = exit_ then false
  else if entry.1 ≥ width ∨ entry.2 ≥ height then false
  else if exit_.1 ≥ width ∨ exit_.2 ≥ height then false
  else true

/-- C3, counterexample: the entry (-1, 0) is accepted by the validator for a
2-by-2 grid although it violates 0 ≤ x, refuting the claimed
characterisation of construction success. -/
theorem params_validator_accepts_negative_entry :
    params_validator 2 2 (-1, 0) (0, 0) = true ∧ ¬ (0 ≤ (-1 : Int)) := by
  constructor
  · decide
  · decide

/-- C3 (amended): constructing a CMazeParams record succeeds iff width ≥ 1,
height ≥ 1, entry ≠ exit, and both entry and exit satisfy x < width and
y < height; no lower bound is imposed on the coordinates, so negative
entry or exit coordinates are accepted. -/
theorem params_validator_iff (width height : Int) (entry exit_ : Int × Int) :
    params_validator width height entry exit_ = true ↔
      (1 ≤ width ∧ 1 ≤ height ∧ entry ≠ exit_ ∧
        entry.1 < width ∧ entry.2 < height ∧
        exit_.1 < width ∧ exit_.2 < height) := by
  unfold params_validator
  split_ifs with h1 h2 h3 h4 h5 <;>
    simp_all <;> omega

/-! ## Pattern placer (place_42) -/

/-- The fixed "42" pattern bitmap; entries equal to 15 are the impassable
"on" cells of the footprint. -/
def p_42 : List (List Nat) :=
  [[15, 0, 0, 0, 15, 15, 15],
   [15, 0, 0, 0, 0, 0, 15],
   [15, 15, 15, 0, 15, 15, 15],
   [0, 0, 15, 0, 15, 0, 0],
   [0, 0, 15, 0, 15, 15, 15]]

/-- The inner check of place_42 deciding whether the footprint anchored at
(x, y) is acceptable relative to the entry and exit coordinates; mirrors
the source including the comparison of the exit's y against the
footprint's x-extent in the fourth disjunct. -/
def check_palace (mazeLen : Nat) (in_ out_ : Int × Int)
    (s_42_h s_42_w : Nat) (x y : Nat) : Bool :=
  if ((y : Int) > in_.2 ∧ (y : Int) > out_.2)
      ∨ ((x : Int) > in_.1 ∧ (x : Int) > out_.1)
      ∨ (in_.2 ≥ (y : Int) + (s_42_h : Int) ∧ out_.2 ≥ (y : Int) + (s_42_h : Int))
      ∨ (in_.1 ≥ (x : Int) + (s_42_w : Int) ∧ out_.2 ≥ (x : Int) + (s_42_w : Int))
    then true
  else if (((y : Int) > in_.2 ∨ in_.2 ≥ (y : Int) + (s_42_h : Int)
          ∨ (x : Int) > in_.1 ∨ in_.1 ≥ (x : Int) + (s_42_w : Int))
        ∧ ((y : Int) > out_.2 ∨ out_.2 ≥ (y : Int) + (s_42_h : Int)
          ∨ (x : Int) > out_.1 ∨ out_.1 ≥ (x : Int) + (s_42_w : Int)))
    then decide ((s_42_h : Int) < (mazeLen : Int)
          ∨ ((x : Int) > in_.1 ∧ (x : Int) > out_.1)
          ∨ ((x : Int) < in_.1 ∧ (x : Int) < out_.1))
  else false

/-- The stamping loop of place_42: every "on" cell of the footprint anchored
at (p_42_x, p_42_y) is overwritten with 15. -/
def place_stamp (maze : Grid) (p_42_x p_42_y s_42_h s_42_w : Nat) : Grid :=
  (List.range s_42_h).foldl
    (fun m y =>
      (List.range s_42_w).foldl
        (fun m2 x =>
          if (p_42.getD y []).getD x 0 = 15 then
            setCell m2 (y + p_42_y) (x + p_42_x) 15
          else m2)
        m)
    maze

/-- MazeGenerator.place_42: try to stamp the pattern centered in the grid;
returns the success flag together with the (possibly updated) grid. -/
def place_42 (maze : Grid) (in_ out_ : Int × Int) : Bool × Grid :=
  let s_42_h := p_42.length
  if s_42_h > maze.length then (false, maze)
  else if s_42_h > 0 then
    let s_42_w := (p_42.getD 0 []).length
    if s_42_w > (maze.getD 0 []).length then (false, maze)
    else
      let p_42_x := ((maze.getD 0 []).length - s_42_w) / 2
      let p_42_y := (maze.length - s_42_h) / 2
      if ¬ check_palace maze.length in_ out_ s_42_h s_42_w p_42_x p_42_y then
        (false, maze)
      else
        (true, place_stamp maze p_42_x p_42_y s_42_h s_42_w)
  else (false, maze)

/-- C4: evaluating place_42 at the failing input.  On the 9-wide, 13-tall
grid with entry (8, 0) and exit (3, 8) the placement is accepted (the
fourth same-side disjunct compares the exit's y-coordinate against the
footprint's x-extent and holds, although entry and exit are not on one
side of the pattern), and the exit cell itself is stamped with the
impassable mask 0xF, contradicting the claim that in the success case the
exit remains outside the marked cells. -/
theorem place_42_marks_exit_cell :
    (place_42 (List.replicate 13 (List.replicate 9 3)) (8, 0) (3, 8)).1
        = true ∧
      gget (place_42 (List.replicate 13 (List.replicate 9 3)) (8, 0) (3, 8)).2
        8 3 = 15 ∧
      gget (List.replicate 13 (List.replicate 9 3)) 8 3 = 3 := by
  refine ⟨by decide, by decide, by decide⟩

/-! ## Bitwise toolkit -/

theorem land_land (v a b : Nat) (h : a &&& b = b) : v &&& a &&& b = v &&& b := by
  rw [Nat.and_assoc, h]

theorem land_land_zero (v a b : Nat) (h : a &&& b = 0) : v &&& a &&& b = 0 := by
  rw [Nat.and_assoc, h, Nat.and_zero]

theorem lor_land (v m b : Nat) :
    (v ||| m) &&& b = (v &&& b) ||| (m &&& b) := by
  apply Nat.eq_of_testBit_eq
  intro i
  simp only [Nat.testBit_and, Nat.testBit_or]
  cases v.testBit i <;> cases m.testBit i <;> cases b.testBit i <;> rfl

theorem shiftLeft8_land_ff (i : Nat) : (i <<< 8) &&& 0xff = 0 := by
  apply Nat.eq_of_testBit_eq
  intro j
  simp only [Nat.testBit_and, Nat.testBit_shiftLeft, Nat.zero_testBit]
  have h255 : (0xff : Nat) = 2 ^ 8 - 1 := by norm_num
  rw [h255, Nat.testBit_two_pow_sub_one]
  by_cases hj : 8 ≤ j
  · simp [hj, Nat.not_lt.mpr hj]
  · simp [hj]

/-! ## Counting cells -/

/-- Number of positions (x, y), x < w, y < h, satisfying p. -/
def countGrid (w h : Nat) (p : Nat → Nat → Bool) : Nat :=
  (List.range (w * h)).countP (fun i => p (i % w) (i / w))

theorem countP_range_congr {p q : Nat → Bool} (n : Nat)
    (hsame : ∀ i, i < n → p i = q i) :
    (List.range n).countP p = (List.range n).countP q := by
  apply List.countP_congr
  intro i hi
  rw [hsame i (List.mem_range.mp hi)]

theorem countP_range_flip {p q : Nat → Bool} {n i0 : Nat} (hi : i0 < n)
    (hsame : ∀ i, i < n → i ≠ i0 → p i = q i)
    (hp : p i0 = false) (hq : q i0 = true) :
    (List.range n).countP q = (List.range n).countP p + 1 := by
  induction n with
  | zero => omega
  | succ n ih =>
    rw [List.range_succ, List.countP_append, List.countP_append]
    rcases Nat.lt_or_ge i0 n with hlt | hge
    · have hn : p n = q n := hsame n (Nat.lt_succ_self n) (by omega)
      rw [ih hlt (fun i h1 h2 => hsame i (by omega) h2)]
      simp [List.countP_cons, hn]
      omega
    · have hi0 : i0 = n := by omega
      subst hi0
      have heq : (List.range i0).countP p = (List.range i0).countP q :=
        countP_range_congr i0 (fun i h => hsame i (by omega) (by omega))
      rw [heq]
      simp [List.countP_cons, hp, hq]

theorem countGrid_congr {p q : Nat → Nat → Bool} (w h : Nat)
    (hsame : ∀ x y, x < w → y < h → p x y = q x y) :
    countGrid w h p = countGrid w h q := by
  apply countP_range_congr
  intro i hi
  have hw : 0 < w := by
    rcases Nat.eq_zero_or_pos w with h0 | h0
    · subst h0; simp at hi
    · exact h0
  have hi' : i < h * w := Nat.mul_comm w h ▸ hi
  exact hsame (i % w) (i / w) (Nat.mod_lt _ hw)
    ((Nat.div_lt_iff_lt_mul hw).mpr hi')

theorem countGrid_flip {p q : Nat → Nat → Bool} {w h x0 y0 : Nat}
    (hx : x0 < w) (hy : y0 < h)
    (hsame : ∀ x y, x < w → y < h → ¬(x = x0 ∧ y = y0) → p x y = q x y)
    (hp : p x0 y0 = false) (hq : q x0 y0 = true) :
    countGrid w h q = countGrid w h p + 1 := by
  have hw : 0 < w := by omega
  have hi0 : y0 * w + x0 < w * h := by
    calc y0 * w + x0 < y0 * w + w := by omega
    _ = (y0 + 1) * w := by ring
    _ ≤ h * w := Nat.mul_le_mul_right w (by omega)
    _ = w * h := Nat.mul_comm h w
  have hmod : (y0 * w + x0) % w = x0 := by
    rw [Nat.add_comm, Nat.add_mul_mod_self_right]
    exact Nat.mod_eq_of_lt hx
  have hdiv : (y0 * w + x0) / w = y0 := by
    rw [Nat.add_comm, Nat.add_mul_div_right _ _ hw, Nat.div_eq_of_lt hx]
    omega
  apply countP_range_flip hi0
  · intro i hi hne
    have hi' : i < h * w := Nat.mul_comm w h ▸ hi
    apply hsame (i % w) (i / w) (Nat.mod_lt _ hw)
      ((Nat.div_lt_iff_lt_mul hw).mpr hi')
    rintro ⟨hxeq, hyeq⟩
    apply hne
    have h2 : w * (i / w) + i % w = i := Nat.div_add_mod i w
    rw [hxeq, hyeq] at h2
    rw [← h2]
    ring
  · rw [hmod, hdiv]; exact hp
  · rw [hmod, hdiv]; exact hq

/-- Number of cells carrying the transient visited flag (bit 4). -/
def visitedCount (g : Grid) (w h : Nat) : Nat :=
  countGrid w h (fun x y => gget g y x &&& 0x10 != 0)

/-- Number of open internal edges of the grid: the edge between (x, y) and
(x+1, y) is open when bit 1 of cell (x, y) is clear, the edge between
(x, y) and (x, y+1) is open when bit 0 of cell (x, y+1) is clear. -/
def openEdgeCount (g : Grid) (w h : Nat) : Nat :=
  countGrid (w - 1) h (fun x y => gget g y x &&& 2 == 0) +
    countGrid w (h - 1) (fun x y => gget g (y + 1) x &&& 1 == 0)

/-! ## Derived adjacency and reachability -/

/-- One open move between two grid cells: the cells are grid-adjacent, in
bounds, and the wall owning the edge between them (the right bit of the
left cell for a horizontal move, the top bit of the lower cell for a
vertical move) is clear. -/
def openStep (g : Grid) (w h : Nat) (a b : Nat × Nat) : Prop :=
  a.1 < w ∧ a.2 < h ∧ b.1 < w ∧ b.2 < h ∧
    ((b.1 = a.1 + 1 ∧ b.2 = a.2 ∧ gget g a.2 a.1 &&& 2 = 0) ∨
     (a.1 = b.1 + 1 ∧ a.2 = b.2 ∧ gget g b.2 b.1 &&& 2 = 0) ∨
     (b.2 = a.2 + 1 ∧ b.1 = a.1 ∧ gget g b.2 b.1 &&& 1 = 0) ∨
     (a.2 = b.2 + 1 ∧ a.1 = b.1 ∧ gget g a.2 a.1 &&& 1 = 0))

instance (g : Grid) (w h : Nat) (a b : Nat × Nat) :
    Decidable (openStep g w h a b) := by
  unfold openStep; infer_instance

theorem openStep_symm {g : Grid} {w h : Nat} :
    Symmetric (openStep g w h) := by
  rintro a b ⟨h1, h2, h3, h4, hcase⟩
  exact ⟨h3, h4, h1, h2, by tauto⟩

/-- Reachability along open moves. -/
def Reach (g : Grid) (w h : Nat) (a b : Nat × Nat) : Prop :=
  Relation.ReflTransGen (openStep g w h) a b

theorem Reach.symm {g : Grid} {w h : Nat} {a b : Nat × Nat}
    (hab : Reach g w h a b) : Reach g w h b a :=
  Relation.ReflTransGen.symmetric openStep_symm hab

/-- Wall openness only grows from g to g2 (clearing wall bits never closes
an open move). -/
def OpenLe (g g2 : Grid) : Prop :=
  ∀ y x, (gget g y x &&& 1 = 0 → gget g2 y x &&& 1 = 0) ∧
    (gget g y x &&& 2 = 0 → gget g2 y x &&& 2 = 0)

theorem OpenLe.refl (g : Grid) : OpenLe g g := fun _ _ => ⟨id, id⟩

theorem OpenLe.trans {g1 g2 g3 : Grid} (h12 : OpenLe g1 g2)
    (h23 : OpenLe g2 g3) : OpenLe g1 g3 := by
  intro y x
  exact ⟨fun h => (h23 y x).1 ((h12 y x).1 h), fun h => (h23 y x).2 ((h12 y x).2 h)⟩

theorem openStep_mono {g g2 : Grid} {w h : Nat} (hle : OpenLe g g2)
    {a b : Nat × Nat} (hs : openStep g w h a b) : openStep g2 w h a b := by
  rcases hs with ⟨h1, h2, h3, h4, hcase⟩
  refine ⟨h1, h2, h3, h4, ?_⟩
  rcases hcase with ⟨e1, e2, e3⟩ | ⟨e1, e2, e3⟩ | ⟨e1, e2, e3⟩ | ⟨e1, e2, e3⟩
  · exact Or.inl ⟨e1, e2, (hle _ _).2 e3⟩
  · exact Or.inr (Or.inl ⟨e1, e2, (hle _ _).2 e3⟩)
  · exact Or.inr (Or.inr (Or.inl ⟨e1, e2, (hle _ _).1 e3⟩))
  · exact Or.inr (Or.inr (Or.inr ⟨e1, e2, (hle _ _).1 e3⟩))

theorem Reach_mono {g g2 : Grid} {w h : Nat} (hle : OpenLe g g2)
    {a b : Nat × Nat} (hr : Reach g w h a b) : Reach g2 w h a b :=
  Relation.ReflTransGen.mono (fun _ _ hs => openStep_mono hle hs) hr

/-! ## Maze carver (gen_DFS) -/

/-- A backtracking frame [x, y, q]: position plus the bitmask of directions
still to try (1 top, 2 right, 4 bottom, 8 left). -/
abbrev Frame := Nat × Nat × Nat

/-- State of the carving loop.  The stack holds the frames of m_path with
the top (the last Python list element) at the head. -/
structure GenState where
  maze : Grid
  stack : List Frame
  rng : Rng

/-- Python list comprehension [(1 << i) for i in range(4) if (q >> i) & 1]. -/
def bit_candidates (q : Nat) : List Nat :=
  (List.range 4).filterMap fun i =>
    if (q >>> i) &&& 1 ≠ 0 then some (1 <<< i) else none

/-- Clear the bits of mask at cell (y, x): maze[y][x] = maze[y][x] & mask. -/
def clearBit (g : Grid) (y x mask : Nat) : Grid :=
  setCell g y x (gget g y x &&& mask)

/-- Set the visited flag at cell (y, x): maze[y][x] = maze[y][x] | 0x10. -/
def setVis (g : Grid) (y x : Nat) : Grid :=
  setCell g y x (gget g y x ||| 0x10)

/-- gen_DFS check "if top wall can be opened". -/
def restrict_top (maze : Grid) (x y q : Nat) : Nat :=
  if q &&& 1 ≠ 0 then
    if y = 0 then q &&& 14
    else if gget maze (y - 1) x &&& 0x1c ≥ 0xc then q &&& 14 else q
  else q

/-- gen_DFS check "if right wall can be opened". -/
def restrict_right (maze : Grid) (width x y q : Nat) : Nat :=
  if q &&& 2 ≠ 0 then
    if x = width - 1 then q &&& 13
    else if gget maze y (x + 1) &&& 0x1c ≥ 0xc then q &&& 13 else q
  else q

/-- gen_DFS check "if bottom wall can be opened". -/
def restrict_bottom (maze : Grid) (height x y q : Nat) : Nat :=
  if q &&& 4 ≠ 0 then
    if y = height - 1 then q &&& 11
    else if gget maze (y + 1) x &&& 0x1c ≥ 0xc then q &&& 11 else q
  else q

/-- gen_DFS check "if left wall can be opened". -/
def restrict_left (maze : Grid) (x y q : Nat) : Nat :=
  if q &&& 8 ≠ 0 then
    if x = 0 then q &&& 7
    else if gget maze y (x - 1) &&& 0x1c ≥ 0xc then q &&& 7 else q
  else q

/-- The four wall-availability checks of one gen_DFS iteration in source
order: a direction bit survives only if the move stays inside the grid
and the neighbour is neither a pattern cell nor already visited
((value & 0x1c) >= 0xc). -/
def gen_restrict (maze : Grid) (width height x y q0 : Nat) : Nat :=
  restrict_left maze x y
    (restrict_bottom maze height x y
      (restrict_right maze width x y
        (restrict_top maze x y q0)))

/-- One iteration of the gen_DFS while loop: restrict the top frame's
direction mask, backtrack when it is empty, otherwise carve a uniformly
chosen wall, mark the new neighbour visited and push its frame. -/
def genStep (width height : Nat) (s : GenState) : GenState :=
  match s.stack with
  | [] => s
  | (x, y, q0) :: rest =>
    let q := gen_restrict s.maze width height x y q0
    if q = 0 then { s with stack := rest }
    else
      let c := rchoice (bit_candidates q) s.rng
      match c.1 with
      | 1 => { maze := setVis (clearBit s.maze y x 0xfffe) (y - 1) x,
               stack := (x, y - 1, 0xf) :: (x, y, q &&& 0xe) :: rest,
               rng := c.2 }
      | 2 => { maze := setVis (clearBit s.maze y x 0xfffd) y (x + 1),
               stack := (x + 1, y, 0xf) :: (x, y, q &&& 0xd) :: rest,
               rng := c.2 }
      | 4 => { maze := setVis (clearBit s.maze (y + 1) x 0xfffe) (y + 1) x,
               stack := (x, y + 1, 0xf) :: (x, y, q &&& 0xb) :: rest,
               rng := c.2 }
      | 8 => { maze := setVis (clearBit s.maze y (x - 1) 0xfffd) y (x - 1),
               stack := (x - 1, y, 0xf) :: (x, y, q &&& 0x7) :: rest,
               rng := c.2 }
      | _ => { s with stack := rest, rng := c.2 }

/-- Run the carving loop for at most fuel iterations (the loop exits when
the stack empties; the fuel bound used by gen_DFS is proved sufficient). -/
def genDFSrun (width height : Nat) : Nat → GenState → GenState
  | 0, s => s
  | fuel + 1, s =>
    match s.stack with
    | [] => s
    | _ :: _ => genDFSrun width height fuel (genStep width height s)

/-- Fuel that provably exceeds the loop's decreasing measure. -/
def genFuel (width height : Nat) : Nat := 5 * (width * height) + 6

/-- MazeGenerator.gen_DFS: seed the walk at the exit, mark it visited, and
run the carving loop to completion. -/
def gen_DFS (maze : Grid) (p : CMazeParams) (r : Rng) : GenState :=
  genDFSrun p.width p.height (genFuel p.width p.height)
    ⟨setVis maze p.exit.2 p.exit.1, [(p.exit.1, p.exit.2, 0xf)], r⟩

/-! ## Animated carver (gen_DFS_animated) -/

/-- The redraw rectangle yielded by the animated variants. -/
abbrev Box := Int × Int × Int × Int

/-- One iteration of gen_DFS_animated (with animated = True): the same body
as genStep, followed by yielding the one-cell-margin box around the frame
cell whenever a wall was chosen (every non-backtracking iteration). -/
def gen_DFS_animated_step (width height : Nat) (s : GenState) :
    GenState × Option Box :=
  match s.stack with
  | [] => (s, none)
  | (x, y, q0) :: rest =>
    let q := gen_restrict s.maze width height x y q0
    if q = 0 then ({ s with stack := rest }, none)
    else
      let c := rchoice (bit_candidates q) s.rng
      let box : Box := ((x : Int) - 1, (y : Int) - 1, (x : Int) + 1, (y : Int) + 1)
      match c.1 with
      | 1 => ({ maze := setVis (clearBit s.maze y x 0xfffe) (y - 1) x,
                stack := (x, y - 1, 0xf) :: (x, y, q &&& 0xe) :: rest,
                rng := c.2 }, some box)
      | 2 => ({ maze := setVis (clearBit s.maze y x 0xfffd) y (x + 1),
                stack := (x + 1, y, 0xf) :: (x, y, q &&& 0xd) :: rest,
                rng := c.2 }, some box)
      | 4 => ({ maze := setVis (clearBit s.maze (y + 1) x 0xfffe) (y + 1) x,
                stack := (x, y + 1, 0xf) :: (x, y, q &&& 0xb) :: rest,
                rng := c.2 }, some box)
      | 8 => ({ maze := setVis (clearBit s.maze y (x - 1) 0xfffd) y (x - 1),
                stack := (x - 1, y, 0xf) :: (x, y, q &&& 0x7) :: rest,
                rng := c.2 }, some box)
      | _ => ({ s with stack := rest, rng := c.2 }, some box)

/-- Run gen_DFS_animated for at most fuel iterations, collecting the yielded
boxes in order; the terminal yield None is appended when the loop exits. -/
def gen_DFS_animated_run (width height : Nat) :
    Nat → GenState → GenState × List (Option Box)
  | 0, s => (s, [])
  | fuel + 1, s =>
    match s.stack with
    | [] => (s, [none])
    | _ :: _ =>
      let p := gen_DFS_animated_step width height s
      let r := gen_DFS_animated_run width height fuel p.1
      (r.1, match p.2 with
            | some b => some b :: r.2
            | none => r.2)

/-- Reference trace for the boxes: computed from the plain carver's steps,
one-cell-margin box around the frame cell at every carving iteration. -/
def carve_boxes (width height : Nat) : Nat → GenState → List (Option Box)
  | 0, _ => []
  | fuel + 1, s =>
    match s.stack with
    | [] => [none]
    | (x, y, q0) :: _ =>
      let q := gen_restrict s.maze width height x y q0
      let rest := carve_boxes width height fuel (genStep width height s)
      if q = 0 then rest
      else some ((x : Int) - 1, (y : Int) - 1, (x : Int) + 1, (y : Int) + 1) :: rest

/-! ## Imperfection injector (do_not_prefect) -/

/-- The effective wall set of the scanned cell: its stored top/right bits
plus the derived bottom/left walls and the grid-boundary walls. -/
def dnp_veff (maze : Grid) (y x : Nat) : Nat :=
  let v1 := gget maze y x &&& 3
  let v2 := if y = 0 then v1 ||| 1 else v1
  let v3 := if x = 0 then v2 ||| 8
    else if gget maze y (x - 1) &&& 2 ≠ 0 then v2 ||| 8 else v2
  let v4 := if y = maze.length - 1 then v3 ||| 4
    else if gget maze (y + 1) x &&& 1 ≠ 0 then v3 ||| 4 else v3
  if x = (maze.getD 0 []).length - 1 then v4 ||| 2 else v4

/-- Dead-end removal check "top wall may be deleted". -/
def dnp_filter_top (maze : Grid) (y x w : Nat) : Nat :=
  if w &&& 1 ≠ 0 then
    if y = 0 then w &&& 0xe
    else if gget maze (y - 1) x &&& 0xc = 0xc then w &&& 0xe else w
  else w

/-- Dead-end removal check "right wall may be deleted". -/
def dnp_filter_right (maze : Grid) (y x w : Nat) : Nat :=
  if w &&& 2 ≠ 0 then
    if x = (maze.getD 0 []).length - 1 then w &&& 13
    else if gget maze y (x + 1) &&& 0xc = 0xc then w &&& 13 else w
  else w

/-- Dead-end removal check "bottom wall may be deleted". -/
def dnp_filter_bottom (maze : Grid) (y x w : Nat) : Nat :=
  if w &&& 4 ≠ 0 then
    if y = maze.length - 1 then w &&& 11
    else if gget maze (y + 1) x &&& 0xc = 0xc then w &&& 11 else w
  else w

/-- Dead-end removal check "left wall may be deleted". -/
def dnp_filter_left (maze : Grid) (y x w : Nat) : Nat :=
  if w &&& 8 ≠ 0 then
    if x = 0 then w &&& 7
    else if gget maze y (x - 1) &&& 0xc = 0xc then w &&& 7 else w
  else w

/-- The four deletable-wall checks of do_not_prefect in source order,
starting from the effective wall set. -/
def dnp_w (maze : Grid) (y x : Nat) : Nat :=
  dnp_filter_left maze y x (dnp_filter_bottom maze y x
    (dnp_filter_right maze y x (dnp_filter_top maze y x (dnp_veff maze y x))))

/-- The body of do_not_prefect for one scanned cell (x, y): skip marked
cells, detect a dead end (exactly three effective walls), pass the
probability gate, drop the walls that may not be removed, and clear one
remaining wall chosen uniformly. -/
def dnpCell (maze : Grid) (pr : Nat) (r : Rng) (y x : Nat) : Grid × Rng :=
  if gget maze y x &&& 0xc ≠ 0 then (maze, r)
  else if (bit_candidates (dnp_veff maze y x)).length = 3 then
    let gate := if pr ≥ 100 then (true, r) else rbelow pr r
    if gate.1 then
      let w4 := dnp_w maze y x
      if w4 = 0 then (maze, gate.2)
      else
        let c := rchoice (bit_candidates w4) gate.2
        match c.1 with
        | 1 => (clearBit maze y x 0xfffe, c.2)
        | 2 => (clearBit maze y x 0xfffd, c.2)
        | 4 => (clearBit maze (y + 1) x 0xfffe, c.2)
        | 8 => (clearBit maze y (x - 1) 0xfffd, c.2)
        | _ => (maze, c.2)
    else (maze, gate.2)
  else (maze, r)

/-- MazeGenerator.do_not_prefect: row-major single pass over all cells. -/
def do_not_prefect (maze : Grid) (p : CMazeParams) (r : Rng) : Grid × Rng :=
  let pr := p.probability_to_del_dead_end
  if pr ≤ 0 then (maze, r)
  else
    (List.range maze.length).foldl
      (fun st y =>
        (List.range (maze.getD 0 []).length).foldl
          (fun st2 x => dnpCell st2.1 pr st2.2 y x) st)
      (maze, r)

/-! ## generate -/

/-- The fresh grid of generate: every cell 3 (top and right wall), then the
entry cell overwritten with 7 and the exit cell with 11. -/
def init_grid (p : CMazeParams) : Grid :=
  setCell
    (setCell (List.replicate p.height (List.replicate p.width 3))
      p.entry.2 p.entry.1 7)
    p.exit.2 p.exit.1 11

/-- MazeGenerator.generate: build the fresh grid, optionally stamp the
pattern, reseed the random source when a seed is configured, carve, and
optionally run the imperfection pass. -/
def generate (p : CMazeParams) (r : Rng) : Grid :=
  let maze := init_grid p
  let maze := if p.insert_42 then
      (place_42 maze ((p.entry.1 : Int), (p.entry.2 : Int))
        ((p.exit.1 : Int), (p.exit.2 : Int))).2
    else maze
  let r := match p.seed with
    | some s => seedRng s
    | none => r
  let st := gen_DFS maze p r
  if !p.perfect then (do_not_prefect st.maze p st.rng).1 else st.maze

/-! ## C8: determinism of generate under a fixed seed -/

/-- C8: whenever a seed is configured, generate reseeds the random source
from the seed alone, so two runs with identical parameters produce
bit-identical grids no matter what state the random source was in. -/
theorem claim_C8_generate_deterministic (p : CMazeParams) (s : Int)
    (hseed : p.seed = some s) (r1 r2 : Rng) :
    generate p r1 = generate p r2 := by
  simp only [generate, hseed]

/-- The all-zero draw stream. -/
def rng0 : Rng := ⟨fun _ => 0, 0⟩

/-- A second, distinct draw stream starting at a nonzero cursor. -/
def rng1 : Rng := ⟨fun n => n * 17 + 3, 5⟩

/-- A concrete seeded parameter record. -/
def pSeeded : CMazeParams :=
  { width := 2, height := 2, entry := (0, 0), exit := (1, 1), seed := some 1 }

/-- C8 witness: a concrete seeded parameter record generated from two
different random-source states. -/
theorem claim_C8_witness :
    pSeeded.seed = some 1 ∧ generate pSeeded rng0 = generate pSeeded rng1 :=
  ⟨rfl, claim_C8_generate_deterministic _ 1 rfl _ _⟩

/-! ## C9: the animated carver refines the plain carver -/

theorem anim_step_fst (width height : Nat) (s : GenState) :
    (gen_DFS_animated_step width height s).1 = genStep width height s := by
  obtain ⟨m, st, r⟩ := s
  cases st with
  | nil => rfl
  | cons f rest =>
    obtain ⟨x, y, q0⟩ := f
    simp only [gen_DFS_animated_step, genStep]
    by_cases hq : gen_restrict m width height x y q0 = 0
    · simp [hq]
    · simp only [hq, if_false]
      split <;> rfl

theorem anim_step_snd (width height : Nat) (s : GenState) :
    (gen_DFS_animated_step width height s).2 =
      match s.stack with
      | [] => none
      | (x, y, q0) :: _ =>
        if gen_restrict s.maze width height x y q0 = 0 then none
        else some ((x : Int) - 1, (y : Int) - 1, (x : Int) + 1, (y : Int) + 1) := by
  obtain ⟨m, st, r⟩ := s
  cases st with
  | nil => rfl
  | cons f rest =>
    obtain ⟨x, y, q0⟩ := f
    simp only [gen_DFS_animated_step]
    by_cases hq : gen_restrict m width height x y q0 = 0
    · simp [hq]
    · simp only [hq, if_false]
      split <;> rfl

/-- C9: driven to completion on the same state and consuming the same
random draws, the animated carver produces exactly the plain carver's
run, and its yields are exactly one inclusive one-cell-margin bounding
box around the frame cell at each carving iteration, followed by the
terminal None. -/
theorem claim_C9_animated_refines_gen_DFS (width height fuel : Nat)
    (s : GenState) :
    gen_DFS_animated_run width height fuel s =
      (genDFSrun width height fuel s, carve_boxes width height fuel s) := by
  induction fuel generalizing s with
  | zero => rfl
  | succ fuel ih =>
    obtain ⟨m, st, r⟩ := s
    cases st with
    | nil => rfl
    | cons f rest =>
      obtain ⟨x, y, q0⟩ := f
      simp only [gen_DFS_animated_run, genDFSrun, carve_boxes]
      rw [ih, anim_step_fst, anim_step_snd]
      by_cases hq : gen_restrict m width height x y q0 = 0
      · simp [hq]
      · simp [hq]

/-! ## C6: transient bits and clear_tmp_data -/

/-- The body of the clear_tmp_data double loop for one cell. -/
def ctdCell (y : Nat) (m : Grid) (x : Nat) : Grid :=
  if gget m y x > 0xf then setCell m y x (gget m y x &&& 0xf) else m

/-- MazeGenerator.clear_tmp_data: every cell above 0xf is masked back to its
low nibble. -/
def clear_tmp_data (maze : Grid) : Grid :=
  (List.range maze.length).foldl
    (fun m y => (List.range (maze.getD 0 []).length).foldl (ctdCell y) m)
    maze

theorem ctdCell_eq (y0 : Nat) (m : Grid) (x : Nat) :
    ctdCell y0 m x =
      if gget m y0 x > 0xf then setCell m y0 x (gget m y0 x &&& 0xf) else m :=
  rfl

theorem nibble_eq_self {v : Nat} (hv : v ≤ 0xf) : v &&& 0xf = v := by
  have h15 : (0xf : Nat) = 2 ^ 4 - 1 := by norm_num
  rw [h15, Nat.and_pow_two_sub_one_eq_mod]
  omega

theorem ctd_inner_fold (w h y0 : Nat) (hy0 : y0 < h) :
    ∀ (n : Nat) (m : Grid), Rect m w h → n ≤ w →
      Rect ((List.range n).foldl (ctdCell y0) m) w h ∧
      (∀ y x, gget ((List.range n).foldl (ctdCell y0) m) y x =
        if y = y0 ∧ x < n then gget m y x &&& 0xf else gget m y x) := by
  intro n
  induction n with
  | zero =>
    intro m hm _
    refine ⟨by simpa using hm, fun y x => by simp⟩
  | succ n ih =>
    intro m hm hn
    obtain ⟨ih1, ih2⟩ := ih m hm (by omega)
    rw [List.range_succ, List.foldl_append, List.foldl_cons, List.foldl_nil]
    have hxw : n < w := by omega
    constructor
    · rw [ctdCell_eq]
      split
      · exact ih1.setCell _ _ _
      · exact ih1
    · intro y x
      rw [ctdCell_eq]
      by_cases hat : y = y0 ∧ x = n
      · obtain ⟨hy, hx⟩ := hat
        have hv : gget ((List.range n).foldl (ctdCell y0) m) y0 n = gget m y0 n := by
          rw [ih2]; simp
        rw [hy, hx]
        split
        · rw [gget_setCell_self ih1 hy0 hxw, hv]
          rw [if_pos ⟨rfl, by omega⟩]
        · rename_i hle
          rw [ih2, if_neg (by omega), if_pos ⟨rfl, by omega⟩]
          rw [hv] at hle
          have hb : gget m y0 n ≤ 0xf := by omega
          rw [nibble_eq_self hb]
      · have hne : ¬(y = y0 ∧ x < n + 1) ∨ (y = y0 ∧ x < n) := by
          by_cases hy : y = y0
          · by_cases hx : x < n
            · exact Or.inr ⟨hy, hx⟩
            · left; rintro ⟨_, hlt⟩; exact hat ⟨hy, by omega⟩
          · left; rintro ⟨hy', _⟩; exact hy hy'
        have hstep : ∀ m2 : Grid,
            gget (if gget m2 y0 n > 0xf then
                setCell m2 y0 n (gget m2 y0 n &&& 0xf) else m2) y x =
              gget m2 y x := by
          intro m2
          split
          · apply gget_setCell_ne
            by_cases hy : y0 = y
            · right
              intro hxn
              exact hat ⟨hy.symm, hxn.symm⟩
            · left; exact hy
          · rfl
        rw [hstep]
        rw [ih2]
        rcases hne with hno | ⟨hy, hx⟩
        · rw [if_neg hno]
          have : ¬(y = y0 ∧ x < n) := by
            rintro ⟨hy, hx⟩; exact hno ⟨hy, by omega⟩
          rw [if_neg this]
        · rw [if_pos ⟨hy, hx⟩, if_pos ⟨hy, by omega⟩]

theorem ctd_outer_fold (w h : Nat) :
    ∀ (k : Nat) (m : Grid), Rect m w h → k ≤ h →
      Rect ((List.range k).foldl
        (fun m2 y => (List.range w).foldl (ctdCell y) m2) m) w h ∧
      (∀ y x, x < w →
        gget ((List.range k).foldl
          (fun m2 y => (List.range w).foldl (ctdCell y) m2) m) y x =
          if y < k then gget m y x &&& 0xf else gget m y x) := by
  intro k
  induction k with
  | zero =>
    intro m hm _
    refine ⟨by simpa using hm, fun y x _ => by simp⟩
  | succ k ih =>
    intro m hm hk
    obtain ⟨ih1, ih2⟩ := ih m hm (by omega)
    rw [List.range_succ, List.foldl_append, List.foldl_cons, List.foldl_nil]
    obtain ⟨hrect, hget⟩ := ctd_inner_fold w h k (by omega) w _ ih1 (le_refl w)
    refine ⟨hrect, ?_⟩
    intro y x hx
    rw [hget]
    by_cases hy : y = k
    · subst hy
      rw [if_pos ⟨rfl, hx⟩, ih2 y x hx, if_neg (by omega), if_pos (by omega)]
    · rw [if_neg (by rintro ⟨h1, _⟩; exact hy h1), ih2 y x hx]
      by_cases hlt : y < k
      · rw [if_pos hlt, if_pos (by omega)]
      · rw [if_neg hlt, if_neg (by omega)]

/-- clear_tmp_data masks every in-range cell to its low nibble. -/
theorem clear_tmp_data_gget {g : Grid} {w h : Nat} (hr : Rect g w h)
    {y x : Nat} (hy : y < h) (hx : x < w) :
    gget (clear_tmp_data g) y x = gget g y x &&& 0xf := by
  have hlen : g.length = h := hr.1
  have hrow : (g.getD 0 []).length = w := hr.row_len (by omega)
  unfold clear_tmp_data
  rw [hlen, hrow]
  obtain ⟨_, hget⟩ := ctd_outer_fold w h h g hr (le_refl h)
  rw [hget y x hx, if_pos hy]

/-- A concrete perfect 2-by-2 parameter record without pattern. -/
def pPerfect22 : CMazeParams :=
  { width := 2, height := 2, entry := (0, 0), exit := (1, 1),
    perfect := true, insert_42 := false }

/-- A concrete imperfect 2-by-2 parameter record without pattern, with
unconditional dead-end removal. -/
def pImperfect22 : CMazeParams :=
  { width := 2, height := 2, entry := (0, 0), exit := (1, 1),
    perfect := false, insert_42 := false,
    probability_to_del_dead_end := 100 }

/-- C6, counterexample: generate never clears the transient visited flag,
so the cell at (1, 1) of a freshly generated 2-by-2 maze still carries
bit 0x10 (its value is 0x1a), refuting the claim that no cell retains the
visited flag after generate returns. -/
theorem claim_C6_counterexample :
    gget (generate pPerfect22 rng0) 1 1 &&& 0x10 ≠ 0 := by decide

/-- C6 (amended): generate leaves the transient visited flag in place and
find_path_DFS leaves its depth stamps in place; the separate
clear_tmp_data pass, which the caller runs before reusing the grid,
restores the low-nibble invariant: every cell of the cleared grid equals
the original cell masked to its low nibble, hence fits in 4 bits. -/
theorem claim_C6_clear_tmp_data_restores_nibble (g : Grid) (w h : Nat)
    (hr : Rect g w h) (y x : Nat) (hy : y < h) (hx : x < w) :
    gget (clear_tmp_data g) y x = gget g y x &&& 0xf ∧
      gget (clear_tmp_data g) y x ≤ 0xf := by
  have heq := clear_tmp_data_gget hr hy hx
  exact ⟨heq, heq ▸ Nat.and_le_right⟩

/-- C6 witness: clearing the freshly generated 2-by-2 maze at cell (1, 1). -/
theorem claim_C6_witness :
    gget (clear_tmp_data (generate pPerfect22 rng0)) 1 1 =
        gget (generate pPerfect22 rng0) 1 1 &&& 0xf ∧
      gget (clear_tmp_data (generate pPerfect22 rng0)) 1 1 ≤ 0xf :=
  claim_C6_clear_tmp_data_restores_nibble _ 2 2 (by decide) 1 1
    (by decide) (by decide)

/-- C1, counterexample: the claim quantifies over every parameter record
with width and height at least 2, no pattern and any seed, but does not
require the perfect flag; for the imperfect 2-by-2 record with
unconditional dead-end removal the generated grid has 4 open edges while
a spanning tree of the 4 cells would have 3. -/
theorem claim_C1_counterexample :
    openEdgeCount (generate pImperfect22 rng0) 2 2 ≠ 2 * 2 - 1 := by decide

/-! ## C1 layer A: value-level bit lemmas -/

theorem visited_of_blocked {v : Nat} (hp : v &&& 0xc ≠ 0xc)
    (hb : 0xc ≤ v &&& 0x1c) : v &&& 0x10 ≠ 0 := by
  have key : ∀ t : Nat, t ≤ 28 → t &&& 12 ≠ 12 → 12 ≤ t → t &&& 16 ≠ 0 := by
    intro t ht
    interval_cases t <;> decide
  have h1 := land_land v 0x1c 0xc (by decide)
  have h2 := land_land v 0x1c 0x10 (by decide)
  have := key (v &&& 0x1c) Nat.and_le_right (by rw [h1]; exact hp) hb
  rw [h2] at this
  exact this

theorem unvisited_of_unblocked {v : Nat} (hb : v &&& 0x1c < 0xc) :
    v &&& 0x10 = 0 := by
  have key : ∀ t : Nat, t ≤ 28 → t < 12 → t &&& 16 = 0 := by
    intro t ht
    interval_cases t <;> decide
  have h2 := land_land v 0x1c 0x10 (by decide)
  have := key (v &&& 0x1c) Nat.and_le_right hb
  rw [h2] at this
  exact this

theorem blocked_of_visited {v : Nat} (hv : v &&& 0x10 ≠ 0) :
    0xc ≤ v &&& 0x1c := by
  by_contra hlt
  exact hv (unvisited_of_unblocked (by omega))

theorem getD_mem {l : List Nat} {i : Nat} (hi : i < l.length) :
    l.getD i 0 ∈ l := by
  rw [List.getD_eq_getElem?_getD, List.getElem?_eq_getElem hi, Option.getD_some]
  exact List.getElem_mem hi

theorem shiftRight_and_one_iff (q k : Nat) :
    ((q >>> k) &&& 1 ≠ 0) ↔ q.testBit k := by
  unfold Nat.testBit
  rw [Nat.and_comm]
  exact bne_iff_ne.symm

theorem and_one_shift_iff (q k : Nat) :
    (q &&& (1 <<< k) ≠ 0) ↔ q.testBit k := by
  rw [Nat.shiftLeft_eq, one_mul, Nat.and_two_pow]
  cases h : q.testBit k
  · simp [h]
  · simp [h, pow_ne_zero k (by norm_num : (2 : Nat) ≠ 0)]

theorem bit_candidates_mem {q c : Nat} (hc : c ∈ bit_candidates q) :
    ∃ i, i < 4 ∧ c = 1 <<< i ∧ (q >>> i) &&& 1 ≠ 0 := by
  rw [bit_candidates, List.mem_filterMap] at hc
  obtain ⟨i, hi, hf⟩ := hc
  rw [List.mem_range] at hi
  by_cases h : (q >>> i) &&& 1 ≠ 0
  · rw [if_pos h] at hf
    exact ⟨i, hi, (Option.some_inj.mp hf).symm, h⟩
  · rw [if_neg h] at hf
    cases hf

theorem bit_candidates_cases {q c : Nat} (hc : c ∈ bit_candidates q) :
    (c = 1 ∧ q &&& 1 ≠ 0) ∨ (c = 2 ∧ q &&& 2 ≠ 0) ∨
      (c = 4 ∧ q &&& 4 ≠ 0) ∨ (c = 8 ∧ q &&& 8 ≠ 0) := by
  obtain ⟨i, hi, hcc, hbit⟩ := bit_candidates_mem hc
  have hb := (shiftRight_and_one_iff q i).mp hbit
  subst hcc
  interval_cases i
  · exact Or.inl ⟨by decide, (and_one_shift_iff q 0).mpr hb⟩
  · exact Or.inr (Or.inl ⟨by decide, (and_one_shift_iff q 1).mpr hb⟩)
  · exact Or.inr (Or.inr (Or.inl ⟨by decide, (and_one_shift_iff q 2).mpr hb⟩))
  · exact Or.inr (Or.inr (Or.inr ⟨by decide, (and_one_shift_iff q 3).mpr hb⟩))

theorem bit_candidates_ne_nil {q : Nat} (hq : q ≤ 15) (hne : q ≠ 0) :
    bit_candidates q ≠ [] := by
  revert hne
  interval_cases q <;> decide

theorem rchoice_mem {l : List Nat} (hl : l ≠ []) (r : Rng) :
    (rchoice l r).1 ∈ l := by
  have hlen : 0 < l.length := List.length_pos.mpr hl
  have : (r.take.1) % l.length < l.length := Nat.mod_lt _ hlen
  exact getD_mem this

/-! ## C1 layer A: per-bit characterisation of gen_restrict -/

theorem restrict_top_other (maze : Grid) (x y q b : Nat)
    (hb : 14 &&& b = b) : restrict_top maze x y q &&& b = q &&& b := by
  unfold restrict_top
  split_ifs <;> simp [land_land q 14 b hb]

theorem restrict_right_other (maze : Grid) (width x y q b : Nat)
    (hb : 13 &&& b = b) : restrict_right maze width x y q &&& b = q &&& b := by
  unfold restrict_right
  split_ifs <;> simp [land_land q 13 b hb]

theorem restrict_bottom_other (maze : Grid) (height x y q b : Nat)
    (hb : 11 &&& b = b) : restrict_bottom maze height x y q &&& b = q &&& b := by
  unfold restrict_bottom
  split_ifs <;> simp [land_land q 11 b hb]

theorem restrict_left_other (maze : Grid) (x y q b : Nat)
    (hb : 7 &&& b = b) : restrict_left maze x y q &&& b = q &&& b := by
  unfold restrict_left
  split_ifs <;> simp [land_land q 7 b hb]

theorem restrict_top_bit (maze : Grid) (x y q : Nat) :
    restrict_top maze x y q &&& 1 =
      if y = 0 ∨ gget maze (y - 1) x &&& 0x1c ≥ 0xc then 0 else q &&& 1 := by
  have hz : q &&& 14 &&& 1 = 0 := land_land_zero q 14 1 (by decide)
  unfold restrict_top
  split_ifs <;> omega

theorem restrict_right_bit (maze : Grid) (width x y q : Nat) :
    restrict_right maze width x y q &&& 2 =
      if x = width - 1 ∨ gget maze y (x + 1) &&& 0x1c ≥ 0xc then 0
      else q &&& 2 := by
  have hz : q &&& 13 &&& 2 = 0 := land_land_zero q 13 2 (by decide)
  unfold restrict_right
  split_ifs <;> omega

theorem restrict_bottom_bit (maze : Grid) (height x y q : Nat) :
    restrict_bottom maze height x y q &&& 4 =
      if y = height - 1 ∨ gget maze (y + 1) x &&& 0x1c ≥ 0xc then 0
      else q &&& 4 := by
  have hz : q &&& 11 &&& 4 = 0 := land_land_zero q 11 4 (by decide)
  unfold restrict_bottom
  split_ifs <;> omega

theorem restrict_left_bit (maze : Grid) (x y q : Nat) :
    restrict_left maze x y q &&& 8 =
      if x = 0 ∨ gget maze y (x - 1) &&& 0x1c ≥ 0xc then 0 else q &&& 8 := by
  have hz : q &&& 7 &&& 8 = 0 := land_land_zero q 7 8 (by decide)
  unfold restrict_left
  split_ifs <;> omega

theorem gen_restrict_bit1 (maze : Grid) (width height x y q0 : Nat) :
    gen_restrict maze width height x y q0 &&& 1 =
      if y = 0 ∨ gget maze (y - 1) x &&& 0x1c ≥ 0xc then 0 else q0 &&& 1 := by
  unfold gen_restrict
  rw [restrict_left_other _ _ _ _ 1 (by decide),
    restrict_bottom_other _ _ _ _ _ 1 (by decide),
    restrict_right_other _ _ _ _ _ 1 (by decide), restrict_top_bit]

theorem gen_restrict_bit2 (maze : Grid) (width height x y q0 : Nat) :
    gen_restrict maze width height x y q0 &&& 2 =
      if x = width - 1 ∨ gget maze y (x + 1) &&& 0x1c ≥ 0xc then 0
      else q0 &&& 2 := by
  unfold gen_restrict
  rw [restrict_left_other _ _ _ _ 2 (by decide),
    restrict_bottom_other _ _ _ _ _ 2 (by decide), restrict_right_bit,
    restrict_top_other _ _ _ _ 2 (by decide)]

theorem gen_restrict_bit4 (maze : Grid) (width height x y q0 : Nat) :
    gen_restrict maze width height x y q0 &&& 4 =
      if y = height - 1 ∨ gget maze (y + 1) x &&& 0x1c ≥ 0xc then 0
      else q0 &&& 4 := by
  unfold gen_restrict
  rw [restrict_left_other _ _ _ _ 4 (by decide), restrict_bottom_bit,
    restrict_right_other _ _ _ _ _ 4 (by decide),
    restrict_top_other _ _ _ _ 4 (by decide)]

theorem gen_restrict_bit8 (maze : Grid) (width height x y q0 : Nat) :
    gen_restrict maze width height x y q0 &&& 8 =
      if x = 0 ∨ gget maze y (x - 1) &&& 0x1c ≥ 0xc then 0 else q0 &&& 8 := by
  unfold gen_restrict
  rw [restrict_left_bit, restrict_bottom_other _ _ _ _ _ 8 (by decide),
    restrict_right_other _ _ _ _ _ 8 (by decide),
    restrict_top_other _ _ _ _ 8 (by decide)]

/-! ## C1 layer B: the carving invariant -/

/-- Cell inside the w-by-h grid. -/
def inb (w h : Nat) (c : Nat × Nat) : Prop := c.1 < w ∧ c.2 < h

/-- Cell carries the visited flag. -/
def visitedc (g : Grid) (c : Nat × Nat) : Prop := gget g c.2 c.1 &&& 0x10 ≠ 0

/-- Number of set direction bits of a frame mask. -/
def qcount (q : Nat) : Nat := (bit_candidates q).length

/-- The decreasing measure of the carving loop. -/
def genMeasure (w h : Nat) (maze : Grid) (stack : List Frame) : Nat :=
  5 * (w * h - visitedCount maze w h) +
    ((stack.map (fun f => qcount f.2.2)).sum + stack.length)

/-- The loop invariant of gen_DFS on a pattern-free grid, rooted at the
seed cell (the exit): shape, no pattern marks, stack cells in bounds and
visited with direction masks covering every unvisited neighbour, open
edges only between visited cells and exactly one fewer than the visited
cells, every visited cell reachable from the root, and every visited cell
that has left the stack fully explored. -/
structure GenInv (w h : Nat) (root : Nat × Nat) (maze : Grid)
    (stack : List Frame) : Prop where
  rect : Rect maze w h
  nopat : ∀ y x, gget maze y x &&& 0xc ≠ 0xc
  stack_inb : ∀ f ∈ stack, inb w h (f.1, f.2.1)
  stack_vis : ∀ f ∈ stack, visitedc maze (f.1, f.2.1)
  stack_q_le : ∀ f ∈ stack, f.2.2 ≤ 15
  edge_r : ∀ x y, x + 1 < w → y < h → gget maze y x &&& 2 = 0 →
    visitedc maze (x, y) ∧ visitedc maze (x + 1, y)
  edge_d : ∀ x y, x < w → y + 1 < h → gget maze (y + 1) x &&& 1 = 0 →
    visitedc maze (x, y) ∧ visitedc maze (x, y + 1)
  count : openEdgeCount maze w h + 1 = visitedCount maze w h
  conn : ∀ c, inb w h c → visitedc maze c → Reach maze w h root c
  qbits : ∀ x y q, (x, y, q) ∈ stack →
    (y ≠ 0 → ¬ visitedc maze (x, y - 1) → q &&& 1 ≠ 0) ∧
    (x + 1 < w → ¬ visitedc maze (x + 1, y) → q &&& 2 ≠ 0) ∧
    (y + 1 < h → ¬ visitedc maze (x, y + 1) → q &&& 4 ≠ 0) ∧
    (x ≠ 0 → ¬ visitedc maze (x - 1, y) → q &&& 8 ≠ 0)
  closed : ∀ x y, inb w h (x, y) → visitedc maze (x, y) →
    (∀ q, (x, y, q) ∉ stack) →
    (y ≠ 0 → visitedc maze (x, y - 1)) ∧
    (x + 1 < w → visitedc maze (x + 1, y)) ∧
    (y + 1 < h → visitedc maze (x, y + 1)) ∧
    (x ≠ 0 → visitedc maze (x - 1, y))
  root_vis : visitedc maze root

theorem beq_zero_of_eq {a : Nat} (ha : a = 0) : (a == 0) = true := by
  subst ha; rfl

theorem beq_zero_of_ne {a : Nat} (ha : a ≠ 0) : (a == 0) = false := by
  cases h : a == 0
  · rfl
  · exact absurd (beq_iff_eq.mp h) ha

theorem bne_zero_of_ne {a : Nat} (ha : a ≠ 0) : (a != 0) = true := by
  cases h : a == 0
  · simp [bne, h]
  · exact absurd (beq_iff_eq.mp h) ha

theorem bne_zero_of_eq {a : Nat} (ha : a = 0) : (a != 0) = false := by
  subst ha; rfl

theorem visitedCount_le (g : Grid) (w h : Nat) : visitedCount g w h ≤ w * h := by
  unfold visitedCount countGrid
  calc (List.range (w * h)).countP _ ≤ (List.range (w * h)).length :=
        List.countP_le_length _
  _ = w * h := List.length_range _

theorem visitedCount_congr {g g2 : Grid} {w h : Nat}
    (hsame : ∀ x y, x < w → y < h →
      gget g2 y x &&& 0x10 = gget g y x &&& 0x10) :
    visitedCount g2 w h = visitedCount g w h := by
  unfold visitedCount
  exact countGrid_congr w h (fun x y hx hy => by rw [hsame x y hx hy])

theorem visitedCount_flip {g g2 : Grid} {w h nx ny : Nat}
    (hx : nx < w) (hy : ny < h)
    (hold : gget g ny nx &&& 0x10 = 0) (hnew : gget g2 ny nx &&& 0x10 ≠ 0)
    (hsame : ∀ x y, x < w → y < h → ¬(x = nx ∧ y = ny) →
      gget g2 y x &&& 0x10 = gget g y x &&& 0x10) :
    visitedCount g2 w h = visitedCount g w h + 1 := by
  unfold visitedCount
  apply countGrid_flip hx hy
  · intro x y hxw hyh hne
    rw [hsame x y hxw hyh hne]
  · exact bne_zero_of_eq hold
  · exact bne_zero_of_ne hnew

theorem openEdgeCount_clear0 {g g2 : Grid} {w h cx cy : Nat}
    (hx : cx < w) (hcy1 : 1 ≤ cy) (hcy : cy < h)
    (hold : gget g cy cx &&& 1 ≠ 0) (hnew : gget g2 cy cx &&& 1 = 0)
    (hsame0 : ∀ x y, ¬(x = cx ∧ y = cy) →
      gget g2 y x &&& 1 = gget g y x &&& 1)
    (hsame1 : ∀ x y, gget g2 y x &&& 2 = gget g y x &&& 2) :
    openEdgeCount g2 w h = openEdgeCount g w h + 1 := by
  unfold openEdgeCount
  have h1 : countGrid (w - 1) h (fun x y => gget g2 y x &&& 2 == 0) =
      countGrid (w - 1) h (fun x y => gget g y x &&& 2 == 0) :=
    countGrid_congr _ _ (fun x y _ _ => by rw [hsame1 x y])
  have h2 : countGrid w (h - 1) (fun x y => gget g2 (y + 1) x &&& 1 == 0) =
      countGrid w (h - 1) (fun x y => gget g (y + 1) x &&& 1 == 0) + 1 := by
    apply countGrid_flip hx (show cy - 1 < h - 1 by omega)
    · intro x y hxw hyh hne
      rw [hsame0 x (y + 1) (by rintro ⟨he1, he2⟩; exact hne ⟨he1, by omega⟩)]
    · have hcc : cy - 1 + 1 = cy := by omega
      rw [hcc]
      exact beq_zero_of_ne hold
    · have hcc : cy - 1 + 1 = cy := by omega
      rw [hcc]
      exact beq_zero_of_eq hnew
  omega

theorem openEdgeCount_clear1 {g g2 : Grid} {w h cx cy : Nat}
    (hx1 : cx + 1 < w) (hcy : cy < h)
    (hold : gget g cy cx &&& 2 ≠ 0) (hnew : gget g2 cy cx &&& 2 = 0)
    (hsame1 : ∀ x y, ¬(x = cx ∧ y = cy) →
      gget g2 y x &&& 2 = gget g y x &&& 2)
    (hsame0 : ∀ x y, gget g2 y x &&& 1 = gget g y x &&& 1) :
    openEdgeCount g2 w h = openEdgeCount g w h + 1 := by
  unfold openEdgeCount
  have h2 : countGrid w (h - 1) (fun x y => gget g2 (y + 1) x &&& 1 == 0) =
      countGrid w (h - 1) (fun x y => gget g (y + 1) x &&& 1 == 0) :=
    countGrid_congr _ _ (fun x y _ _ => by rw [hsame0 x (y + 1)])
  have h1 : countGrid (w - 1) h (fun x y => gget g2 y x &&& 2 == 0) =
      countGrid (w - 1) h (fun x y => gget g y x &&& 2 == 0) + 1 := by
    apply countGrid_flip (show cx < w - 1 by omega) hcy
    · intro x y hxw hyh hne
      rw [hsame1 x y hne]
    · exact beq_zero_of_ne hold
    · exact beq_zero_of_eq hnew
  omega

/-! ## C1 layer B: cell-update helper lemmas -/

theorem lor10_and (v b : Nat) (hb : 0x10 &&& b = 0) :
    (v ||| 0x10) &&& b = v &&& b := by
  rw [lor_land, hb, Nat.or_zero]

theorem lor10_vis (v : Nat) : (v ||| 0x10) &&& 0x10 ≠ 0 := by
  intro hzero
  have hbit := congrArg (fun t => t.testBit 4) hzero
  simp only [Nat.testBit_and, Nat.testBit_lor, Nat.zero_testBit,
    (by decide : Nat.testBit 0x10 4 = true), Bool.or_true, Bool.and_true,
    Bool.true_and] at hbit
  exact absurd hbit (by decide)

theorem gget_clearBit_self {g : Grid} {w h y x : Nat} (hr : Rect g w h)
    (hy : y < h) (hx : x < w) (m : Nat) :
    gget (clearBit g y x m) y x = gget g y x &&& m :=
  gget_setCell_self hr hy hx _

theorem gget_clearBit_ne {g : Grid} {y x y' x' : Nat} (m : Nat)
    (hne : y ≠ y' ∨ x ≠ x') :
    gget (clearBit g y x m) y' x' = gget g y' x' :=
  gget_setCell_ne _ _ _ _ _ hne

theorem gget_setVis_self {g : Grid} {w h y x : Nat} (hr : Rect g w h)
    (hy : y < h) (hx : x < w) :
    gget (setVis g y x) y x = gget g y x ||| 0x10 :=
  gget_setCell_self hr hy hx _

theorem gget_setVis_ne {g : Grid} {y x y' x' : Nat}
    (hne : y ≠ y' ∨ x ≠ x') :
    gget (setVis g y x) y' x' = gget g y' x' :=
  gget_setCell_ne _ _ _ _ _ hne

theorem Rect.clearBit {g : Grid} {w h : Nat} (hr : Rect g w h) (y x m : Nat) :
    Rect (clearBit g y x m) w h := Rect.setCell hr _ _ _

theorem Rect.setVis {g : Grid} {w h : Nat} (hr : Rect g w h) (y x : Nat) :
    Rect (setVis g y x) w h := Rect.setCell hr _ _ _

theorem ne_split {a b c d : Nat} (h : ¬(a = c ∧ b = d)) : c ≠ a ∨ d ≠ b := by
  by_cases h1 : a = c
  · right
    intro h2
    exact h ⟨h1, h2.symm⟩
  · left
    exact fun h2 => h1 h2.symm

theorem carve_inv_vert {w h : Nat} {root : Nat × Nat} {maze : Grid}
    {x y q0 : Nat} {rest : List Frame} {q nx ny cx cy qm : Nat}
    (inv : GenInv w h root maze ((x, y, q0) :: rest))
    (hcx : cx < w) (hcy1 : 1 ≤ cy) (hcy : cy < h)
    (hends : ((x, y) = (cx, cy) ∧ (nx, ny) = (cx, cy - 1)) ∨
      ((x, y) = (cx, cy - 1) ∧ (nx, ny) = (cx, cy)))
    (hnvis : ¬ visitedc maze (nx, ny))
    (hq15 : q ≤ 15)
    (hqcov :
      (y ≠ 0 → ¬ visitedc maze (x, y - 1) → q &&& 1 ≠ 0) ∧
      (x + 1 < w → ¬ visitedc maze (x + 1, y) → q &&& 2 ≠ 0) ∧
      (y + 1 < h → ¬ visitedc maze (x, y + 1) → q &&& 4 ≠ 0) ∧
      (x ≠ 0 → ¬ visitedc maze (x - 1, y) → q &&& 8 ≠ 0))
    (hqm1 : (x, y - 1) ≠ (nx, ny) → qm &&& 1 = 1)
    (hqm2 : (x + 1, y) ≠ (nx, ny) → qm &&& 2 = 2)
    (hqm4 : (x, y + 1) ≠ (nx, ny) → qm &&& 4 = 4)
    (hqm8 : (x - 1, y) ≠ (nx, ny) → qm &&& 8 = 8) :
    GenInv w h root (setVis (clearBit maze cy cx 0xfffe) ny nx)
        ((nx, ny, 0xf) :: (x, y, q &&& qm) :: rest) ∧
      visitedCount (setVis (clearBit maze cy cx 0xfffe) ny nx) w h =
        visitedCount maze w h + 1 := by
  have hxeq : x = cx ∧ nx = cx ∧
      ((y = cy ∧ ny = cy - 1) ∨ (y = cy - 1 ∧ ny = cy)) := by
    rcases hends with ⟨h1, h2⟩ | ⟨h1, h2⟩
    · rw [Prod.mk.injEq] at h1 h2
      exact ⟨h1.1, h2.1, Or.inl ⟨h1.2, h2.2⟩⟩
    · rw [Prod.mk.injEq] at h1 h2
      exact ⟨h1.1, h2.1, Or.inr ⟨h1.2, h2.2⟩⟩
  obtain ⟨hx1, hx2, hyy⟩ := hxeq
  subst hx1
  have hx2' : x = nx := hx2.symm
  subst hx2'
  have hne_yny : y ≠ ny := by rcases hyy with ⟨h1, h2⟩ | ⟨h1, h2⟩ <;> omega
  have hinb_xy : x < w ∧ y < h := inv.stack_inb (x, y, q0) (by simp)
  have hinb_ny : ny < h := by rcases hyy with ⟨h1, h2⟩ | ⟨h1, h2⟩ <;> omega
  have hcc : cy - 1 + 1 = cy := by omega
  -- the carved wall was present
  have hwall : gget maze cy x &&& 1 ≠ 0 := by
    intro hz
    have hed := inv.edge_d x (cy - 1) hcx (by omega) (by rw [hcc]; exact hz)
    rw [hcc] at hed
    rcases hyy with ⟨h1, h2⟩ | ⟨h1, h2⟩
    · rw [h2] at hnvis
      exact hnvis hed.1
    · rw [h2] at hnvis
      exact hnvis hed.2
  -- the updated grid
  have hrect1 : Rect (clearBit maze cy x 0xfffe) w h :=
    inv.rect.clearBit _ _ _
  have hrect2 : Rect (setVis (clearBit maze cy x 0xfffe) ny x) w h :=
    hrect1.setVis _ _
  set m2 := setVis (clearBit maze cy x 0xfffe) ny x with hm2def
  have hval_clear : gget (clearBit maze cy x 0xfffe) cy x =
      gget maze cy x &&& 0xfffe := gget_clearBit_self inv.rect hcy hcx _
  have hval_other : ∀ y' x', ¬(y' = cy ∧ x' = x) →
      gget (clearBit maze cy x 0xfffe) y' x' = gget maze y' x' :=
    fun y' x' hne => gget_clearBit_ne _ (ne_split hne)
  have hnew_val : gget m2 ny x = gget (clearBit maze cy x 0xfffe) ny x ||| 0x10 :=
    gget_setVis_self hrect1 hinb_ny hcx
  have hother_val : ∀ y' x', ¬(y' = ny ∧ x' = x) →
      gget m2 y' x' = gget (clearBit maze cy x 0xfffe) y' x' :=
    fun y' x' hne => gget_setVis_ne (ne_split hne)
  -- delta facts
  have hm2_bit0_cleared : gget m2 cy x &&& 1 = 0 := by
    by_cases hnycy : ny = cy
    · rw [← hnycy, hnew_val, hnycy, hval_clear, lor10_and _ _ (by decide)]
      exact land_land_zero _ _ _ (by decide)
    · rw [hother_val cy x (fun hh => hnycy hh.1.symm), hval_clear]
      exact land_land_zero _ _ _ (by decide)
  have hm2_bit2_all : ∀ y' x', gget m2 y' x' &&& 2 = gget maze y' x' &&& 2 := by
    intro y' x'
    by_cases hn : y' = ny ∧ x' = x
    · rw [hn.1, hn.2, hnew_val, lor10_and _ _ (by decide)]
      by_cases hnycy : ny = cy
      · rw [hnycy, hval_clear, land_land _ _ _ (by decide)]
      · rw [hval_other ny x (fun hh => hnycy hh.1)]
    · rw [hother_val y' x' hn]
      by_cases hcc2 : y' = cy ∧ x' = x
      · rw [hcc2.1, hcc2.2, hval_clear, land_land _ _ _ (by decide)]
      · rw [hval_other y' x' hcc2]
  have hm2_bit1_other : ∀ y' x', ¬(y' = cy ∧ x' = x) →
      gget m2 y' x' &&& 1 = gget maze y' x' &&& 1 := by
    intro y' x' hne
    by_cases hn : y' = ny ∧ x' = x
    · rw [hn.1, hn.2] at hne ⊢
      rw [hnew_val, lor10_and _ _ (by decide), hval_other ny x hne]
    · rw [hother_val y' x' hn, hval_other y' x' hne]
  have hm2_bitc_all : ∀ y' x', gget m2 y' x' &&& 0xc = gget maze y' x' &&& 0xc := by
    intro y' x'
    by_cases hn : y' = ny ∧ x' = x
    · rw [hn.1, hn.2, hnew_val, lor10_and _ _ (by decide)]
      by_cases hnycy : ny = cy
      · rw [hnycy, hval_clear, land_land _ _ _ (by decide)]
      · rw [hval_other ny x (fun hh => hnycy hh.1)]
    · rw [hother_val y' x' hn]
      by_cases hcc2 : y' = cy ∧ x' = x
      · rw [hcc2.1, hcc2.2, hval_clear, land_land _ _ _ (by decide)]
      · rw [hval_other y' x' hcc2]
  have hm2_vis_new : gget m2 ny x &&& 0x10 ≠ 0 := by
    rw [hnew_val]
    exact lor10_vis _
  have hm2_vis_other : ∀ y' x', ¬(y' = ny ∧ x' = x) →
      gget m2 y' x' &&& 0x10 = gget maze y' x' &&& 0x10 := by
    intro y' x' hne
    rw [hother_val y' x' hne]
    by_cases hcc2 : y' = cy ∧ x' = x
    · rw [hcc2.1, hcc2.2, hval_clear, land_land _ _ _ (by decide)]
    · rw [hval_other y' x' hcc2]
  have hvis_iff : ∀ c : Nat × Nat,
      visitedc m2 c ↔ (visitedc maze c ∨ c = (x, ny)) := by
    rintro ⟨a, b⟩
    by_cases hcc2 : b = ny ∧ a = x
    · rw [hcc2.1, hcc2.2]
      unfold visitedc
      constructor
      · intro _; exact Or.inr rfl
      · intro _; exact hm2_vis_new
    · unfold visitedc
      rw [show gget m2 (a, b).2 (a, b).1 = gget m2 b a from rfl,
        show gget maze (a, b).2 (a, b).1 = gget maze b a from rfl,
        hm2_vis_other b a hcc2]
      constructor
      · exact Or.inl
      · rintro (hv | he)
        · exact hv
        · rw [Prod.mk.injEq] at he
          exact absurd ⟨he.2, he.1⟩ hcc2
  have hOpenLe : OpenLe maze m2 := by
    intro y' x'
    constructor
    · intro hz
      by_cases hcc2 : y' = cy ∧ x' = x
      · rw [hcc2.1, hcc2.2]
        exact hm2_bit0_cleared
      · rw [hm2_bit1_other y' x' hcc2]
        exact hz
    · intro hz
      rw [hm2_bit2_all y' x']
      exact hz
  -- the new open step
  have hstep : openStep m2 w h (x, y) (x, ny) := by
    refine ⟨hinb_xy.1, hinb_xy.2, hinb_xy.1, hinb_ny, ?_⟩
    rcases hyy with ⟨h1, h2⟩ | ⟨h1, h2⟩
    · refine Or.inr (Or.inr (Or.inr ⟨by simp; omega, by simp, ?_⟩))
      simp only
      rw [h1]
      exact hm2_bit0_cleared
    · refine Or.inr (Or.inr (Or.inl ⟨by simp; omega, by simp, ?_⟩))
      simp only
      rw [h2]
      exact hm2_bit0_cleared
  -- the counting facts
  have hnvis0v : gget maze ny x &&& 0x10 = 0 := by
    unfold visitedc at hnvis
    simp only at hnvis
    omega
  have hvc : visitedCount m2 w h = visitedCount maze w h + 1 := by
    apply visitedCount_flip hcx hinb_ny hnvis0v hm2_vis_new
    intro a b _ _ hne
    exact hm2_vis_other b a (by rintro ⟨e1, e2⟩; exact hne ⟨e2, e1⟩)
  have hec : openEdgeCount m2 w h = openEdgeCount maze w h + 1 := by
    apply openEdgeCount_clear0 hcx hcy1 hcy hwall hm2_bit0_cleared
    · intro a b hne
      exact hm2_bit1_other b a (by rintro ⟨e1, e2⟩; exact hne ⟨e2, e1⟩)
    · intro a b
      exact hm2_bit2_all b a
  -- assemble the invariant
  refine ⟨⟨hrect2, ?_, ?_, ?_, ?_, ?_, ?_, ?_, ?_, ?_, ?_, ?_⟩, hvc⟩
  · -- nopat
    intro y' x'
    rw [hm2_bitc_all]
    exact inv.nopat y' x'
  · -- stack_inb
    intro f hf
    rcases List.mem_cons.mp hf with hf1 | hf2
    · subst hf1
      exact ⟨hcx, hinb_ny⟩
    · rcases List.mem_cons.mp hf2 with hf3 | hf4
      · subst hf3
        exact hinb_xy
      · exact inv.stack_inb f (List.mem_cons_of_mem _ hf4)
  · -- stack_vis
    intro f hf
    rcases List.mem_cons.mp hf with hf1 | hf2
    · subst hf1
      exact hm2_vis_new
    · rcases List.mem_cons.mp hf2 with hf3 | hf4
      · subst hf3
        exact (hvis_iff _).mpr
          (Or.inl (inv.stack_vis (x, y, q0) (by simp)))
      · exact (hvis_iff _).mpr
          (Or.inl (inv.stack_vis f (List.mem_cons_of_mem _ hf4)))
  · -- stack_q_le
    intro f hf
    rcases List.mem_cons.mp hf with hf1 | hf2
    · subst hf1
      exact Nat.le.refl
    · rcases List.mem_cons.mp hf2 with hf3 | hf4
      · subst hf3
        exact le_trans Nat.and_le_left hq15
      · exact inv.stack_q_le f (List.mem_cons_of_mem _ hf4)
  · -- edge_r
    intro a b hab hbh hopen
    rw [hm2_bit2_all] at hopen
    obtain ⟨hv1, hv2⟩ := inv.edge_r a b hab hbh hopen
    exact ⟨(hvis_iff _).mpr (Or.inl hv1), (hvis_iff _).mpr (Or.inl hv2)⟩
  · -- edge_d
    intro a b hab hbh hopen
    by_cases he : b + 1 = cy ∧ a = x
    · obtain ⟨e1, e2⟩ := he
      have hb : b = cy - 1 := by omega
      rw [e2, hb, hcc]
      constructor
      · rcases hyy with ⟨h1, h2⟩ | ⟨h1, h2⟩
        · exact (hvis_iff _).mpr (Or.inr (by rw [h2]))
        · exact (hvis_iff _).mpr
            (Or.inl (by rw [← h1]; exact inv.stack_vis (x, y, q0) (by simp)))
      · rcases hyy with ⟨h1, h2⟩ | ⟨h1, h2⟩
        · exact (hvis_iff _).mpr
            (Or.inl (by rw [← h1]; exact inv.stack_vis (x, y, q0) (by simp)))
        · exact (hvis_iff _).mpr (Or.inr (by rw [h2]))
    · rw [hm2_bit1_other (b + 1) a he] at hopen
      obtain ⟨hv1, hv2⟩ := inv.edge_d a b hab hbh hopen
      exact ⟨(hvis_iff _).mpr (Or.inl hv1), (hvis_iff _).mpr (Or.inl hv2)⟩
  · -- count
    have := inv.count
    omega
  · -- conn
    intro c hcinb hcvis
    rcases (hvis_iff c).mp hcvis with hv | he
    · exact Reach_mono hOpenLe (inv.conn c hcinb hv)
    · subst he
      have hreach := Reach_mono hOpenLe
        (inv.conn (x, y) hinb_xy (inv.stack_vis (x, y, q0) (by simp)))
      exact Relation.ReflTransGen.tail hreach hstep
  · -- qbits
    intro a b qq hmem
    rcases List.mem_cons.mp hmem with hf1 | hf2
    · rw [Prod.mk.injEq, Prod.mk.injEq] at hf1
      obtain ⟨e1, e2, e3⟩ := hf1
      subst e3
      exact ⟨fun _ _ => by decide, fun _ _ => by decide,
        fun _ _ => by decide, fun _ _ => by decide⟩
    · rcases List.mem_cons.mp hf2 with hf3 | hf4
      · rw [Prod.mk.injEq, Prod.mk.injEq] at hf3
        obtain ⟨e1, e2, e3⟩ := hf3
        subst e3
        rw [e1, e2]
        refine ⟨?_, ?_, ?_, ?_⟩
        · intro hb hnv2
          by_cases hnd : (x, y - 1) = (x, ny)
          · exact absurd ((hvis_iff _).mpr (Or.inr hnd)) hnv2
          · have hnv : ¬ visitedc maze (x, y - 1) :=
              fun hv => hnv2 ((hvis_iff _).mpr (Or.inl hv))
            rw [Nat.and_assoc, hqm1 hnd]
            exact hqcov.1 hb hnv
        · intro hb hnv2
          by_cases hnd : (x + 1, y) = (x, ny)
          · exact absurd ((hvis_iff _).mpr (Or.inr hnd)) hnv2
          · have hnv : ¬ visitedc maze (x + 1, y) :=
              fun hv => hnv2 ((hvis_iff _).mpr (Or.inl hv))
            rw [Nat.and_assoc, hqm2 hnd]
            exact hqcov.2.1 hb hnv
        · intro hb hnv2
          by_cases hnd : (x, y + 1) = (x, ny)
          · exact absurd ((hvis_iff _).mpr (Or.inr hnd)) hnv2
          · have hnv : ¬ visitedc maze (x, y + 1) :=
              fun hv => hnv2 ((hvis_iff _).mpr (Or.inl hv))
            rw [Nat.and_assoc, hqm4 hnd]
            exact hqcov.2.2.1 hb hnv
        · intro hb hnv2
          by_cases hnd : (x - 1, y) = (x, ny)
          · exact absurd ((hvis_iff _).mpr (Or.inr hnd)) hnv2
          · have hnv : ¬ visitedc maze (x - 1, y) :=
              fun hv => hnv2 ((hvis_iff _).mpr (Or.inl hv))
            rw [Nat.and_assoc, hqm8 hnd]
            exact hqcov.2.2.2 hb hnv
      · have hold := inv.qbits a b qq (List.mem_cons_of_mem _ hf4)
        refine ⟨?_, ?_, ?_, ?_⟩
        · intro hb hnv2
          exact hold.1 hb (fun hv => hnv2 ((hvis_iff _).mpr (Or.inl hv)))
        · intro hb hnv2
          exact hold.2.1 hb (fun hv => hnv2 ((hvis_iff _).mpr (Or.inl hv)))
        · intro hb hnv2
          exact hold.2.2.1 hb (fun hv => hnv2 ((hvis_iff _).mpr (Or.inl hv)))
        · intro hb hnv2
          exact hold.2.2.2 hb (fun hv => hnv2 ((hvis_iff _).mpr (Or.inl hv)))
  · -- closed
    intro a b hinb2 hvism2 hnotin
    have hnot_new : (a, b) ≠ (x, ny) := by
      intro he
      rw [Prod.mk.injEq] at he
      exact hnotin 0xf (by rw [he.1, he.2]; exact List.mem_cons_self _ _)
    have hvis_maze : visitedc maze (a, b) :=
      ((hvis_iff _).mp hvism2).resolve_right hnot_new
    have hnot_frame : (a, b) ≠ (x, y) := by
      intro he
      rw [Prod.mk.injEq] at he
      exact hnotin (q &&& qm)
        (by rw [he.1, he.2]; exact List.mem_cons_of_mem _ (List.mem_cons_self _ _))
    have hold := inv.closed a b hinb2 hvis_maze (by
      intro qq hmem
      rcases List.mem_cons.mp hmem with hf1 | hf4
      · rw [Prod.mk.injEq, Prod.mk.injEq] at hf1
        exact hnot_frame (by rw [Prod.mk.injEq]; exact ⟨hf1.1, hf1.2.1⟩)
      · exact hnotin qq (List.mem_cons_of_mem _ (List.mem_cons_of_mem _ hf4)))
    refine ⟨?_, ?_, ?_, ?_⟩
    · intro hb
      exact (hvis_iff _).mpr (Or.inl (hold.1 hb))
    · intro hb
      exact (hvis_iff _).mpr (Or.inl (hold.2.1 hb))
    · intro hb
      exact (hvis_iff _).mpr (Or.inl (hold.2.2.1 hb))
    · intro hb
      exact (hvis_iff _).mpr (Or.inl (hold.2.2.2 hb))
  · -- root_vis
    exact (hvis_iff _).mpr (Or.inl inv.root_vis)

theorem carve_inv_hor {w h : Nat} {root : Nat × Nat} {maze : Grid}
    {x y q0 : Nat} {rest : List Frame} {q nx ny cx cy qm : Nat}
    (inv : GenInv w h root maze ((x, y, q0) :: rest))
    (hcx1 : cx + 1 < w) (hcyh : cy < h)
    (hends : ((x, y) = (cx, cy) ∧ (nx, ny) = (cx + 1, cy)) ∨
      ((x, y) = (cx + 1, cy) ∧ (nx, ny) = (cx, cy)))
    (hnvis : ¬ visitedc maze (nx, ny))
    (hq15 : q ≤ 15)
    (hqcov :
      (y ≠ 0 → ¬ visitedc maze (x, y - 1) → q &&& 1 ≠ 0) ∧
      (x + 1 < w → ¬ visitedc maze (x + 1, y) → q &&& 2 ≠ 0) ∧
      (y + 1 < h → ¬ visitedc maze (x, y + 1) → q &&& 4 ≠ 0) ∧
      (x ≠ 0 → ¬ visitedc maze (x - 1, y) → q &&& 8 ≠ 0))
    (hqm1 : (x, y - 1) ≠ (nx, ny) → qm &&& 1 = 1)
    (hqm2 : (x + 1, y) ≠ (nx, ny) → qm &&& 2 = 2)
    (hqm4 : (x, y + 1) ≠ (nx, ny) → qm &&& 4 = 4)
    (hqm8 : (x - 1, y) ≠ (nx, ny) → qm &&& 8 = 8) :
    GenInv w h root (setVis (clearBit maze cy cx 0xfffd) ny nx)
        ((nx, ny, 0xf) :: (x, y, q &&& qm) :: rest) ∧
      visitedCount (setVis (clearBit maze cy cx 0xfffd) ny nx) w h =
        visitedCount maze w h + 1 := by
  have hxeq : y = cy ∧ ny = cy ∧
      ((x = cx ∧ nx = cx + 1) ∨ (x = cx + 1 ∧ nx = cx)) := by
    rcases hends with ⟨h1, h2⟩ | ⟨h1, h2⟩
    · rw [Prod.mk.injEq] at h1 h2
      exact ⟨h1.2, h2.2, Or.inl ⟨h1.1, h2.1⟩⟩
    · rw [Prod.mk.injEq] at h1 h2
      exact ⟨h1.2, h2.2, Or.inr ⟨h1.1, h2.1⟩⟩
  obtain ⟨hy1, hy2, hxx⟩ := hxeq
  subst hy1
  have hy2' : y = ny := hy2.symm
  subst hy2'
  have hne_xnx : x ≠ nx := by rcases hxx with ⟨h1, h2⟩ | ⟨h1, h2⟩ <;> omega
  have hinb_xy : x < w ∧ y < h := inv.stack_inb (x, y, q0) (by simp)
  have hinb_nx : nx < w := by rcases hxx with ⟨h1, h2⟩ | ⟨h1, h2⟩ <;> omega
  -- the carved wall was present
  have hwall : gget maze y cx &&& 2 ≠ 0 := by
    intro hz
    have hed := inv.edge_r cx y hcx1 hinb_xy.2 hz
    rcases hxx with ⟨h1, h2⟩ | ⟨h1, h2⟩
    · rw [h2] at hnvis
      exact hnvis hed.2
    · rw [h2] at hnvis
      exact hnvis hed.1
  -- the updated grid
  have hrect1 : Rect (clearBit maze y cx 0xfffd) w h :=
    inv.rect.clearBit _ _ _
  have hrect2 : Rect (setVis (clearBit maze y cx 0xfffd) y nx) w h :=
    hrect1.setVis _ _
  set m2 := setVis (clearBit maze y cx 0xfffd) y nx with hm2def
  have hval_clear : gget (clearBit maze y cx 0xfffd) y cx =
      gget maze y cx &&& 0xfffd :=
    gget_clearBit_self inv.rect hinb_xy.2 (by omega) _
  have hval_other : ∀ y' x', ¬(y' = y ∧ x' = cx) →
      gget (clearBit maze y cx 0xfffd) y' x' = gget maze y' x' :=
    fun y' x' hne => gget_clearBit_ne _ (ne_split hne)
  have hnew_val : gget m2 y nx = gget (clearBit maze y cx 0xfffd) y nx ||| 0x10 :=
    gget_setVis_self hrect1 hinb_xy.2 hinb_nx
  have hother_val : ∀ y' x', ¬(y' = y ∧ x' = nx) →
      gget m2 y' x' = gget (clearBit maze y cx 0xfffd) y' x' :=
    fun y' x' hne => gget_setVis_ne (ne_split hne)
  -- delta facts
  have hm2_bit1_cleared : gget m2 y cx &&& 2 = 0 := by
    by_cases hnxcx : nx = cx
    · rw [← hnxcx, hnew_val, hnxcx, hval_clear, lor10_and _ _ (by decide)]
      exact land_land_zero _ _ _ (by decide)
    · rw [hother_val y cx (fun hh => hnxcx hh.2.symm), hval_clear]
      exact land_land_zero _ _ _ (by decide)
  have hm2_bit0_all : ∀ y' x', gget m2 y' x' &&& 1 = gget maze y' x' &&& 1 := by
    intro y' x'
    by_cases hn : y' = y ∧ x' = nx
    · rw [hn.1, hn.2, hnew_val, lor10_and _ _ (by decide)]
      by_cases hnxcx : nx = cx
      · rw [hnxcx, hval_clear, land_land _ _ _ (by decide)]
      · rw [hval_other y nx (fun hh => hnxcx hh.2)]
    · rw [hother_val y' x' hn]
      by_cases hcc2 : y' = y ∧ x' = cx
      · rw [hcc2.1, hcc2.2, hval_clear, land_land _ _ _ (by decide)]
      · rw [hval_other y' x' hcc2]
  have hm2_bit2_other : ∀ y' x', ¬(y' = y ∧ x' = cx) →
      gget m2 y' x' &&& 2 = gget maze y' x' &&& 2 := by
    intro y' x' hne
    by_cases hn : y' = y ∧ x' = nx
    · rw [hn.1, hn.2] at hne ⊢
      rw [hnew_val, lor10_and _ _ (by decide), hval_other y nx hne]
    · rw [hother_val y' x' hn, hval_other y' x' hne]
  have hm2_bitc_all : ∀ y' x', gget m2 y' x' &&& 0xc = gget maze y' x' &&& 0xc := by
    intro y' x'
    by_cases hn : y' = y ∧ x' = nx
    · rw [hn.1, hn.2, hnew_val, lor10_and _ _ (by decide)]
      by_cases hnxcx : nx = cx
      · rw [hnxcx, hval_clear, land_land _ _ _ (by decide)]
      · rw [hval_other y nx (fun hh => hnxcx hh.2)]
    · rw [hother_val y' x' hn]
      by_cases hcc2 : y' = y ∧ x' = cx
      · rw [hcc2.1, hcc2.2, hval_clear, land_land _ _ _ (by decide)]
      · rw [hval_other y' x' hcc2]
  have hm2_vis_new : gget m2 y nx &&& 0x10 ≠ 0 := by
    rw [hnew_val]
    exact lor10_vis _
  have hm2_vis_other : ∀ y' x', ¬(y' = y ∧ x' = nx) →
      gget m2 y' x' &&& 0x10 = gget maze y' x' &&& 0x10 := by
    intro y' x' hne
    rw [hother_val y' x' hne]
    by_cases hcc2 : y' = y ∧ x' = cx
    · rw [hcc2.1, hcc2.2, hval_clear, land_land _ _ _ (by decide)]
    · rw [hval_other y' x' hcc2]
  have hvis_iff : ∀ c : Nat × Nat,
      visitedc m2 c ↔ (visitedc maze c ∨ c = (nx, y)) := by
    rintro ⟨a, b⟩
    by_cases hcc2 : b = y ∧ a = nx
    · rw [hcc2.1, hcc2.2]
      unfold visitedc
      constructor
      · intro _; exact Or.inr rfl
      · intro _; exact hm2_vis_new
    · unfold visitedc
      rw [show gget m2 (a, b).2 (a, b).1 = gget m2 b a from rfl,
        show gget maze (a, b).2 (a, b).1 = gget maze b a from rfl,
        hm2_vis_other b a hcc2]
      constructor
      · exact Or.inl
      · rintro (hv | he)
        · exact hv
        · rw [Prod.mk.injEq] at he
          exact absurd ⟨he.2, he.1⟩ hcc2
  have hOpenLe : OpenLe maze m2 := by
    intro y' x'
    constructor
    · intro hz
      rw [hm2_bit0_all y' x']
      exact hz
    · intro hz
      by_cases hcc2 : y' = y ∧ x' = cx
      · rw [hcc2.1, hcc2.2]
        exact hm2_bit1_cleared
      · rw [hm2_bit2_other y' x' hcc2]
        exact hz
  -- the new open step
  have hstep : openStep m2 w h (x, y) (nx, y) := by
    refine ⟨hinb_xy.1, hinb_xy.2, hinb_nx, hinb_xy.2, ?_⟩
    rcases hxx with ⟨h1, h2⟩ | ⟨h1, h2⟩
    · refine Or.inl ⟨by simp; omega, by simp, ?_⟩
      simp only
      rw [h1]
      exact hm2_bit1_cleared
    · refine Or.inr (Or.inl ⟨by simp; omega, by simp, ?_⟩)
      simp only
      rw [h2]
      exact hm2_bit1_cleared
  -- the counting facts
  have hnvis0v : gget maze y nx &&& 0x10 = 0 := by
    unfold visitedc at hnvis
    simp only at hnvis
    omega
  have hvc : visitedCount m2 w h = visitedCount maze w h + 1 := by
    apply visitedCount_flip hinb_nx hinb_xy.2 hnvis0v hm2_vis_new
    intro a b _ _ hne
    exact hm2_vis_other b a (by rintro ⟨e1, e2⟩; exact hne ⟨e2, e1⟩)
  have hec : openEdgeCount m2 w h = openEdgeCount maze w h + 1 := by
    apply openEdgeCount_clear1 hcx1 hcyh
    · rw [← hy2]
      exact hwall
    · rw [← hy2]
      exact hm2_bit1_cleared
    · intro a b hne
      rw [← hy2] at hne
      exact hm2_bit2_other b a (by rintro ⟨e1, e2⟩; exact hne ⟨e2, e1⟩)
    · intro a b
      exact hm2_bit0_all b a
  -- assemble the invariant
  refine ⟨⟨hrect2, ?_, ?_, ?_, ?_, ?_, ?_, ?_, ?_, ?_, ?_, ?_⟩, hvc⟩
  · -- nopat
    intro y' x'
    rw [hm2_bitc_all]
    exact inv.nopat y' x'
  · -- stack_inb
    intro f hf
    rcases List.mem_cons.mp hf with hf1 | hf2
    · subst hf1
      exact ⟨hinb_nx, hinb_xy.2⟩
    · rcases List.mem_cons.mp hf2 with hf3 | hf4
      · subst hf3
        exact hinb_xy
      · exact inv.stack_inb f (List.mem_cons_of_mem _ hf4)
  · -- stack_vis
    intro f hf
    rcases List.mem_cons.mp hf with hf1 | hf2
    · subst hf1
      exact hm2_vis_new
    · rcases List.mem_cons.mp hf2 with hf3 | hf4
      · subst hf3
        exact (hvis_iff _).mpr
          (Or.inl (inv.stack_vis (x, y, q0) (by simp)))
      · exact (hvis_iff _).mpr
          (Or.inl (inv.stack_vis f (List.mem_cons_of_mem _ hf4)))
  · -- stack_q_le
    intro f hf
    rcases List.mem_cons.mp hf with hf1 | hf2
    · subst hf1
      exact Nat.le.refl
    · rcases List.mem_cons.mp hf2 with hf3 | hf4
      · subst hf3
        exact le_trans Nat.and_le_left hq15
      · exact inv.stack_q_le f (List.mem_cons_of_mem _ hf4)
  · -- edge_r
    intro a b hab hbh hopen
    by_cases he : b = y ∧ a = cx
    · obtain ⟨e1, e2⟩ := he
      rw [e1, e2]
      constructor
      · rcases hxx with ⟨h1, h2⟩ | ⟨h1, h2⟩
        · exact (hvis_iff _).mpr
            (Or.inl (by rw [← h1]; exact inv.stack_vis (x, y, q0) (by simp)))
        · exact (hvis_iff _).mpr (Or.inr (by rw [h2]))
      · rcases hxx with ⟨h1, h2⟩ | ⟨h1, h2⟩
        · exact (hvis_iff _).mpr (Or.inr (by rw [h2]))
        · exact (hvis_iff _).mpr
            (Or.inl (by rw [← h1]; exact inv.stack_vis (x, y, q0) (by simp)))
    · rw [hm2_bit2_other b a (by rintro ⟨f1, f2⟩; exact he ⟨f1, f2⟩)] at hopen
      obtain ⟨hv1, hv2⟩ := inv.edge_r a b hab hbh hopen
      exact ⟨(hvis_iff _).mpr (Or.inl hv1), (hvis_iff _).mpr (Or.inl hv2)⟩
  · -- edge_d
    intro a b hab hbh hopen
    rw [hm2_bit0_all] at hopen
    obtain ⟨hv1, hv2⟩ := inv.edge_d a b hab hbh hopen
    exact ⟨(hvis_iff _).mpr (Or.inl hv1), (hvis_iff _).mpr (Or.inl hv2)⟩
  · -- count
    have := inv.count
    omega
  · -- conn
    intro c hcinb hcvis
    rcases (hvis_iff c).mp hcvis with hv | he
    · exact Reach_mono hOpenLe (inv.conn c hcinb hv)
    · subst he
      have hreach := Reach_mono hOpenLe
        (inv.conn (x, y) hinb_xy (inv.stack_vis (x, y, q0) (by simp)))
      exact Relation.ReflTransGen.tail hreach hstep
  · -- qbits
    intro a b qq hmem
    rcases List.mem_cons.mp hmem with hf1 | hf2
    · rw [Prod.mk.injEq, Prod.mk.injEq] at hf1
      obtain ⟨e1, e2, e3⟩ := hf1
      subst e3
      exact ⟨fun _ _ => by decide, fun _ _ => by decide,
        fun _ _ => by decide, fun _ _ => by decide⟩
    · rcases List.mem_cons.mp hf2 with hf3 | hf4
      · rw [Prod.mk.injEq, Prod.mk.injEq] at hf3
        obtain ⟨e1, e2, e3⟩ := hf3
        subst e3
        rw [e1, e2]
        refine ⟨?_, ?_, ?_, ?_⟩
        · intro hb hnv2
          by_cases hnd : (x, y - 1) = (nx, y)
          · exact absurd ((hvis_iff _).mpr (Or.inr hnd)) hnv2
          · have hnv : ¬ visitedc maze (x, y - 1) :=
              fun hv => hnv2 ((hvis_iff _).mpr (Or.inl hv))
            rw [Nat.and_assoc, hqm1 hnd]
            exact hqcov.1 hb hnv
        · intro hb hnv2
          by_cases hnd : (x + 1, y) = (nx, y)
          · exact absurd ((hvis_iff _).mpr (Or.inr hnd)) hnv2
          · have hnv : ¬ visitedc maze (x + 1, y) :=
              fun hv => hnv2 ((hvis_iff _).mpr (Or.inl hv))
            rw [Nat.and_assoc, hqm2 hnd]
            exact hqcov.2.1 hb hnv
        · intro hb hnv2
          by_cases hnd : (x, y + 1) = (nx, y)
          · exact absurd ((hvis_iff _).mpr (Or.inr hnd)) hnv2
          · have hnv : ¬ visitedc maze (x, y + 1) :=
              fun hv => hnv2 ((hvis_iff _).mpr (Or.inl hv))
            rw [Nat.and_assoc, hqm4 hnd]
            exact hqcov.2.2.1 hb hnv
        · intro hb hnv2
          by_cases hnd : (x - 1, y) = (nx, y)
          · exact absurd ((hvis_iff _).mpr (Or.inr hnd)) hnv2
          · have hnv : ¬ visitedc maze (x - 1, y) :=
              fun hv => hnv2 ((hvis_iff _).mpr (Or.inl hv))
            rw [Nat.and_assoc, hqm8 hnd]
            exact hqcov.2.2.2 hb hnv
      · have hold := inv.qbits a b qq (List.mem_cons_of_mem _ hf4)
        refine ⟨?_, ?_, ?_, ?_⟩
        · intro hb hnv2
          exact hold.1 hb (fun hv => hnv2 ((hvis_iff _).mpr (Or.inl hv)))
        · intro hb hnv2
          exact hold.2.1 hb (fun hv => hnv2 ((hvis_iff _).mpr (Or.inl hv)))
        · intro hb hnv2
          exact hold.2.2.1 hb (fun hv => hnv2 ((hvis_iff _).mpr (Or.inl hv)))
        · intro hb hnv2
          exact hold.2.2.2 hb (fun hv => hnv2 ((hvis_iff _).mpr (Or.inl hv)))
  · -- closed
    intro a b hinb2 hvism2 hnotin
    have hnot_new : (a, b) ≠ (nx, y) := by
      intro he
      rw [Prod.mk.injEq] at he
      exact hnotin 0xf (by rw [he.1, he.2]; exact List.mem_cons_self _ _)
    have hvis_maze : visitedc maze (a, b) :=
      ((hvis_iff _).mp hvism2).resolve_right hnot_new
    have hnot_frame : (a, b) ≠ (x, y) := by
      intro he
      rw [Prod.mk.injEq] at he
      exact hnotin (q &&& qm)
        (by rw [he.1, he.2]; exact List.mem_cons_of_mem _ (List.mem_cons_self _ _))
    have hold := inv.closed a b hinb2 hvis_maze (by
      intro qq hmem
      rcases List.mem_cons.mp hmem with hf1 | hf4
      · rw [Prod.mk.injEq, Prod.mk.injEq] at hf1
        exact hnot_frame (by rw [Prod.mk.injEq]; exact ⟨hf1.1, hf1.2.1⟩)
      · exact hnotin qq (List.mem_cons_of_mem _ (List.mem_cons_of_mem _ hf4)))
    refine ⟨?_, ?_, ?_, ?_⟩
    · intro hb
      exact (hvis_iff _).mpr (Or.inl (hold.1 hb))
    · intro hb
      exact (hvis_iff _).mpr (Or.inl (hold.2.1 hb))
    · intro hb
      exact (hvis_iff _).mpr (Or.inl (hold.2.2.1 hb))
    · intro hb
      exact (hvis_iff _).mpr (Or.inl (hold.2.2.2 hb))
  · -- root_vis
    exact (hvis_iff _).mpr (Or.inl inv.root_vis)

theorem land_left_self (q m : Nat) : q &&& m &&& q = q &&& m := by
  apply Nat.eq_of_testBit_eq
  intro i
  simp only [Nat.testBit_and]
  cases q.testBit i <;> cases m.testBit i <;> rfl

theorem restrict_top_sub (maze : Grid) (x y q : Nat) :
    restrict_top maze x y q &&& q = restrict_top maze x y q := by
  unfold restrict_top
  split_ifs <;> first | exact land_left_self q _ | exact Nat.and_self q

theorem restrict_right_sub (maze : Grid) (width x y q : Nat) :
    restrict_right maze width x y q &&& q = restrict_right maze width x y q := by
  unfold restrict_right
  split_ifs <;> first | exact land_left_self q _ | exact Nat.and_self q

theorem restrict_bottom_sub (maze : Grid) (height x y q : Nat) :
    restrict_bottom maze height x y q &&& q = restrict_bottom maze height x y q := by
  unfold restrict_bottom
  split_ifs <;> first | exact land_left_self q _ | exact Nat.and_self q

theorem restrict_left_sub (maze : Grid) (x y q : Nat) :
    restrict_left maze x y q &&& q = restrict_left maze x y q := by
  unfold restrict_left
  split_ifs <;> first | exact land_left_self q _ | exact Nat.and_self q

theorem sub_trans {a b c : Nat} (hab : a &&& b = a) (hbc : b &&& c = b) :
    a &&& c = a := by
  calc a &&& c = a &&& b &&& c := by rw [hab]
  _ = a &&& (b &&& c) := Nat.and_assoc a b c
  _ = a &&& b := by rw [hbc]
  _ = a := hab

theorem gen_restrict_sub (maze : Grid) (width height x y q0 : Nat) :
    gen_restrict maze width height x y q0 &&& q0 =
      gen_restrict maze width height x y q0 := by
  unfold gen_restrict
  exact sub_trans (restrict_left_sub _ _ _ _)
    (sub_trans (restrict_bottom_sub _ _ _ _ _)
      (sub_trans (restrict_right_sub _ _ _ _ _) (restrict_top_sub _ _ _ _)))

theorem sub_le_of_sub {a b : Nat} (hab : a &&& b = a) : a ≤ b :=
  hab ▸ Nat.and_le_right

theorem qcount_le_of_sub : ∀ q' < 16, ∀ q < 16, q' &&& q = q' →
    qcount q' ≤ qcount q := by decide

theorem qcount_remove1 : ∀ q < 16, q &&& 1 ≠ 0 →
    qcount (q &&& 0xe) + 1 = qcount q := by decide

theorem qcount_remove2 : ∀ q < 16, q &&& 2 ≠ 0 →
    qcount (q &&& 0xd) + 1 = qcount q := by decide

theorem qcount_remove4 : ∀ q < 16, q &&& 4 ≠ 0 →
    qcount (q &&& 0xb) + 1 = qcount q := by decide

theorem qcount_remove8 : ∀ q < 16, q &&& 8 ≠ 0 →
    qcount (q &&& 0x7) + 1 = qcount q := by decide

theorem qcount_le4 : ∀ q < 16, qcount q ≤ 4 := by decide

/-- The restricted mask still covers every unvisited in-bounds neighbour, on
a pattern-free grid. -/
theorem gen_restrict_covers {maze : Grid} {w h x y q0 : Nat}
    (hnopat : ∀ yy xx, gget maze yy xx &&& 0xc ≠ 0xc)
    (hcov0 :
      (y ≠ 0 → ¬ visitedc maze (x, y - 1) → q0 &&& 1 ≠ 0) ∧
      (x + 1 < w → ¬ visitedc maze (x + 1, y) → q0 &&& 2 ≠ 0) ∧
      (y + 1 < h → ¬ visitedc maze (x, y + 1) → q0 &&& 4 ≠ 0) ∧
      (x ≠ 0 → ¬ visitedc maze (x - 1, y) → q0 &&& 8 ≠ 0)) :
    (y ≠ 0 → ¬ visitedc maze (x, y - 1) →
      gen_restrict maze w h x y q0 &&& 1 ≠ 0) ∧
    (x + 1 < w → ¬ visitedc maze (x + 1, y) →
      gen_restrict maze w h x y q0 &&& 2 ≠ 0) ∧
    (y + 1 < h → ¬ visitedc maze (x, y + 1) →
      gen_restrict maze w h x y q0 &&& 4 ≠ 0) ∧
    (x ≠ 0 → ¬ visitedc maze (x - 1, y) →
      gen_restrict maze w h x y q0 &&& 8 ≠ 0) := by
  refine ⟨?_, ?_, ?_, ?_⟩
  · intro hy0 hnv
    rw [gen_restrict_bit1]
    have hcond : ¬(y = 0 ∨ gget maze (y - 1) x &&& 0x1c ≥ 0xc) := by
      rintro (hz | hb)
      · exact hy0 hz
      · exact hnv (visited_of_blocked (hnopat (y - 1) x) hb)
    rw [if_neg hcond]
    exact hcov0.1 hy0 hnv
  · intro hxb hnv
    rw [gen_restrict_bit2]
    have hcond : ¬(x = w - 1 ∨ gget maze y (x + 1) &&& 0x1c ≥ 0xc) := by
      rintro (hz | hb)
      · omega
      · exact hnv (visited_of_blocked (hnopat y (x + 1)) hb)
    rw [if_neg hcond]
    exact hcov0.2.1 hxb hnv
  · intro hyb hnv
    rw [gen_restrict_bit4]
    have hcond : ¬(y = h - 1 ∨ gget maze (y + 1) x &&& 0x1c ≥ 0xc) := by
      rintro (hz | hb)
      · omega
      · exact hnv (visited_of_blocked (hnopat (y + 1) x) hb)
    rw [if_neg hcond]
    exact hcov0.2.2.1 hyb hnv
  · intro hx0 hnv
    rw [gen_restrict_bit8]
    have hcond : ¬(x = 0 ∨ gget maze y (x - 1) &&& 0x1c ≥ 0xc) := by
      rintro (hz | hb)
      · exact hx0 hz
      · exact hnv (visited_of_blocked (hnopat y (x - 1)) hb)
    rw [if_neg hcond]
    exact hcov0.2.2.2 hx0 hnv

theorem genStep_eq_pop {w h : Nat} {maze : Grid} {x y q0 : Nat}
    {rest : List Frame} {r : Rng}
    (hq : gen_restrict maze w h x y q0 = 0) :
    genStep w h ⟨maze, (x, y, q0) :: rest, r⟩ = ⟨maze, rest, r⟩ := by
  simp only [genStep]
  rw [if_pos hq]

theorem genStep_eq_carve1 {w h : Nat} {maze : Grid} {x y q0 : Nat}
    {rest : List Frame} {r : Rng}
    (hq : ¬ gen_restrict maze w h x y q0 = 0)
    (hc : (rchoice (bit_candidates (gen_restrict maze w h x y q0)) r).1 = 1) :
    genStep w h ⟨maze, (x, y, q0) :: rest, r⟩ =
      ⟨setVis (clearBit maze y x 0xfffe) (y - 1) x,
        (x, y - 1, 0xf) :: (x, y, gen_restrict maze w h x y q0 &&& 0xe) :: rest,
        (rchoice (bit_candidates (gen_restrict maze w h x y q0)) r).2⟩ := by
  simp only [genStep]
  rw [if_neg hq, hc]

theorem genStep_eq_carve2 {w h : Nat} {maze : Grid} {x y q0 : Nat}
    {rest : List Frame} {r : Rng}
    (hq : ¬ gen_restrict maze w h x y q0 = 0)
    (hc : (rchoice (bit_candidates (gen_restrict maze w h x y q0)) r).1 = 2) :
    genStep w h ⟨maze, (x, y, q0) :: rest, r⟩ =
      ⟨setVis (clearBit maze y x 0xfffd) y (x + 1),
        (x + 1, y, 0xf) :: (x, y, gen_restrict maze w h x y q0 &&& 0xd) :: rest,
        (rchoice (bit_candidates (gen_restrict maze w h x y q0)) r).2⟩ := by
  simp only [genStep]
  rw [if_neg hq, hc]

theorem genStep_eq_carve4 {w h : Nat} {maze : Grid} {x y q0 : Nat}
    {rest : List Frame} {r : Rng}
    (hq : ¬ gen_restrict maze w h x y q0 = 0)
    (hc : (rchoice (bit_candidates (gen_restrict maze w h x y q0)) r).1 = 4) :
    genStep w h ⟨maze, (x, y, q0) :: rest, r⟩ =
      ⟨setVis (clearBit maze (y + 1) x 0xfffe) (y + 1) x,
        (x, y + 1, 0xf) :: (x, y, gen_restrict maze w h x y q0 &&& 0xb) :: rest,
        (rchoice (bit_candidates (gen_restrict maze w h x y q0)) r).2⟩ := by
  simp only [genStep]
  rw [if_neg hq, hc]

theorem genStep_eq_carve8 {w h : Nat} {maze : Grid} {x y q0 : Nat}
    {rest : List Frame} {r : Rng}
    (hq : ¬ gen_restrict maze w h x y q0 = 0)
    (hc : (rchoice (bit_candidates (gen_restrict maze w h x y q0)) r).1 = 8) :
    genStep w h ⟨maze, (x, y, q0) :: rest, r⟩ =
      ⟨setVis (clearBit maze y (x - 1) 0xfffd) y (x - 1),
        (x - 1, y, 0xf) :: (x, y, gen_restrict maze w h x y q0 &&& 0x7) :: rest,
        (rchoice (bit_candidates (gen_restrict maze w h x y q0)) r).2⟩ := by
  simp only [genStep]
  rw [if_neg hq, hc]

theorem genMeasure_pop_lt (w h : Nat) (maze : Grid) (x y q0 : Nat)
    (rest : List Frame) :
    genMeasure w h maze rest < genMeasure w h maze ((x, y, q0) :: rest) := by
  simp only [genMeasure, List.map_cons, List.sum_cons, List.length_cons]
  omega

theorem genMeasure_carve_lt {w h : Nat} {m2 maze : Grid} (x y q0 qn nx ny : Nat)
    (rest : List Frame)
    (hvc : visitedCount m2 w h = visitedCount maze w h + 1)
    (hle : visitedCount m2 w h ≤ w * h)
    (hqn : qcount qn < qcount q0) :
    genMeasure w h m2 ((nx, ny, 0xf) :: (x, y, qn) :: rest) <
      genMeasure w h maze ((x, y, q0) :: rest) := by
  have h15 : qcount 0xf = 4 := by decide
  simp only [genMeasure, List.map_cons, List.sum_cons, List.length_cons]
  omega

/-- One iteration of the carving loop from a non-empty stack preserves the
invariant and strictly decreases the termination measure. -/
theorem genInv_step {w h : Nat} {root : Nat × Nat} {maze : Grid}
    {x y q0 : Nat} {rest : List Frame} {r : Rng}
    (inv : GenInv w h root maze ((x, y, q0) :: rest)) :
    GenInv w h root (genStep w h ⟨maze, (x, y, q0) :: rest, r⟩).maze
        (genStep w h ⟨maze, (x, y, q0) :: rest, r⟩).stack ∧
      genMeasure w h (genStep w h ⟨maze, (x, y, q0) :: rest, r⟩).maze
          (genStep w h ⟨maze, (x, y, q0) :: rest, r⟩).stack <
        genMeasure w h maze ((x, y, q0) :: rest) := by
  have hq0le : q0 ≤ 15 := inv.stack_q_le (x, y, q0) (by simp)
  have hinb_xy : x < w ∧ y < h := inv.stack_inb (x, y, q0) (by simp)
  have hqsub : gen_restrict maze w h x y q0 &&& q0 =
      gen_restrict maze w h x y q0 := gen_restrict_sub maze w h x y q0
  have hqle : gen_restrict maze w h x y q0 ≤ 15 :=
    le_trans (sub_le_of_sub hqsub) hq0le
  have hcov := gen_restrict_covers inv.nopat (inv.qbits x y q0 (by simp))
  by_cases hq : gen_restrict maze w h x y q0 = 0
  · rw [genStep_eq_pop hq]
    show GenInv w h root maze rest ∧
      genMeasure w h maze rest < genMeasure w h maze ((x, y, q0) :: rest)
    constructor
    · refine ⟨inv.rect, inv.nopat, ?_, ?_, ?_, inv.edge_r, inv.edge_d,
        inv.count, inv.conn, ?_, ?_, inv.root_vis⟩
      · exact fun f hf => inv.stack_inb f (List.mem_cons_of_mem _ hf)
      · exact fun f hf => inv.stack_vis f (List.mem_cons_of_mem _ hf)
      · exact fun f hf => inv.stack_q_le f (List.mem_cons_of_mem _ hf)
      · exact fun a b qq hmem => inv.qbits a b qq (List.mem_cons_of_mem _ hmem)
      · -- closed: the popped frame has no carvable direction left, so its
        -- cell is fully explored
        intro a b hinb2 hvis hnot
        by_cases hab : a = x ∧ b = y
        · rw [hq] at hcov
          obtain ⟨e1, e2⟩ := hab
          subst e1
          subst e2
          refine ⟨?_, ?_, ?_, ?_⟩
          · intro hbnd
            by_contra hnv
            exact hcov.1 hbnd hnv (by decide)
          · intro hbnd
            by_contra hnv
            exact hcov.2.1 hbnd hnv (by decide)
          · intro hbnd
            by_contra hnv
            exact hcov.2.2.1 hbnd hnv (by decide)
          · intro hbnd
            by_contra hnv
            exact hcov.2.2.2 hbnd hnv (by decide)
        · refine inv.closed a b hinb2 hvis ?_
          intro qq hmem
          rcases List.mem_cons.mp hmem with he | hm
          · rw [Prod.mk.injEq, Prod.mk.injEq] at he
            exact hab ⟨he.1, he.2.1⟩
          · exact hnot qq hm
    · exact genMeasure_pop_lt w h maze x y q0 rest
  · have hmem := rchoice_mem (bit_candidates_ne_nil hqle hq) r
    rcases bit_candidates_cases hmem with ⟨hc, hb⟩ | ⟨hc, hb⟩ | ⟨hc, hb⟩ | ⟨hc, hb⟩
    · -- carve towards the top neighbour
      have hbit := hb
      rw [gen_restrict_bit1] at hbit
      have hcond : ¬(y = 0 ∨ gget maze (y - 1) x &&& 0x1c ≥ 0xc) := by
        intro hor
        rw [if_pos hor] at hbit
        exact hbit rfl
      push_neg at hcond
      have hnvis : ¬ visitedc maze (x, y - 1) := by
        intro hv
        have hbv : 0xc ≤ gget maze (y - 1) x &&& 0x1c := blocked_of_visited hv
        omega
      rw [genStep_eq_carve1 hq hc]
      show GenInv w h root (setVis (clearBit maze y x 0xfffe) (y - 1) x)
          ((x, y - 1, 0xf) ::
            (x, y, gen_restrict maze w h x y q0 &&& 0xe) :: rest) ∧
        genMeasure w h (setVis (clearBit maze y x 0xfffe) (y - 1) x)
          ((x, y - 1, 0xf) ::
            (x, y, gen_restrict maze w h x y q0 &&& 0xe) :: rest) <
        genMeasure w h maze ((x, y, q0) :: rest)
      have hmain : GenInv w h root (setVis (clearBit maze y x 0xfffe) (y - 1) x)
          ((x, y - 1, 0xf) ::
            (x, y, gen_restrict maze w h x y q0 &&& 0xe) :: rest) ∧
          visitedCount (setVis (clearBit maze y x 0xfffe) (y - 1) x) w h =
            visitedCount maze w h + 1 :=
        carve_inv_vert inv hinb_xy.1 (by omega) hinb_xy.2
          (Or.inl ⟨rfl, rfl⟩) hnvis hqle hcov
          (fun hh => absurd rfl hh) (fun _ => by decide)
          (fun _ => by decide) (fun _ => by decide)
      refine ⟨hmain.1, ?_⟩
      apply genMeasure_carve_lt x y q0 _ x (y - 1) rest hmain.2
        (visitedCount_le _ w h) ?_
      have hrem := qcount_remove1 (gen_restrict maze w h x y q0) (by omega) hb
      have hlq := qcount_le_of_sub (gen_restrict maze w h x y q0) (by omega)
        q0 (by omega) hqsub
      omega
    · -- carve towards the right neighbour
      have hbit := hb
      rw [gen_restrict_bit2] at hbit
      have hcond : ¬(x = w - 1 ∨ gget maze y (x + 1) &&& 0x1c ≥ 0xc) := by
        intro hor
        rw [if_pos hor] at hbit
        exact hbit rfl
      push_neg at hcond
      have hx1w : x + 1 < w := by omega
      have hnvis : ¬ visitedc maze (x + 1, y) := by
        intro hv
        have hbv : 0xc ≤ gget maze y (x + 1) &&& 0x1c := blocked_of_visited hv
        omega
      rw [genStep_eq_carve2 hq hc]
      show GenInv w h root (setVis (clearBit maze y x 0xfffd) y (x + 1))
          ((x + 1, y, 0xf) ::
            (x, y, gen_restrict maze w h x y q0 &&& 0xd) :: rest) ∧
        genMeasure w h (setVis (clearBit maze y x 0xfffd) y (x + 1))
          ((x + 1, y, 0xf) ::
            (x, y, gen_restrict maze w h x y q0 &&& 0xd) :: rest) <
        genMeasure w h maze ((x, y, q0) :: rest)
      have hmain : GenInv w h root (setVis (clearBit maze y x 0xfffd) y (x + 1))
          ((x + 1, y, 0xf) ::
            (x, y, gen_restrict maze w h x y q0 &&& 0xd) :: rest) ∧
          visitedCount (setVis (clearBit maze y x 0xfffd) y (x + 1)) w h =
            visitedCount maze w h + 1 :=
        carve_inv_hor inv hx1w hinb_xy.2
          (Or.inl ⟨rfl, rfl⟩) hnvis hqle hcov
          (fun _ => by decide) (fun hh => absurd rfl hh)
          (fun _ => by decide) (fun _ => by decide)
      refine ⟨hmain.1, ?_⟩
      apply genMeasure_carve_lt x y q0 _ (x + 1) y rest hmain.2
        (visitedCount_le _ w h) ?_
      have hrem := qcount_remove2 (gen_restrict maze w h x y q0) (by omega) hb
      have hlq := qcount_le_of_sub (gen_restrict maze w h x y q0) (by omega)
        q0 (by omega) hqsub
      omega
    · -- carve towards the bottom neighbour
      have hbit := hb
      rw [gen_restrict_bit4] at hbit
      have hcond : ¬(y = h - 1 ∨ gget maze (y + 1) x &&& 0x1c ≥ 0xc) := by
        intro hor
        rw [if_pos hor] at hbit
        exact hbit rfl
      push_neg at hcond
      have hy1h : y + 1 < h := by omega
      have hnvis : ¬ visitedc maze (x, y + 1) := by
        intro hv
        have hbv : 0xc ≤ gget maze (y + 1) x &&& 0x1c := blocked_of_visited hv
        omega
      rw [genStep_eq_carve4 hq hc]
      show GenInv w h root (setVis (clearBit maze (y + 1) x 0xfffe) (y + 1) x)
          ((x, y + 1, 0xf) ::
            (x, y, gen_restrict maze w h x y q0 &&& 0xb) :: rest) ∧
        genMeasure w h (setVis (clearBit maze (y + 1) x 0xfffe) (y + 1) x)
          ((x, y + 1, 0xf) ::
            (x, y, gen_restrict maze w h x y q0 &&& 0xb) :: rest) <
        genMeasure w h maze ((x, y, q0) :: rest)
      have hmain : GenInv w h root
          (setVis (clearBit maze (y + 1) x 0xfffe) (y + 1) x)
          ((x, y + 1, 0xf) ::
            (x, y, gen_restrict maze w h x y q0 &&& 0xb) :: rest) ∧
          visitedCount (setVis (clearBit maze (y + 1) x 0xfffe) (y + 1) x) w h =
            visitedCount maze w h + 1 :=
        carve_inv_vert inv hinb_xy.1 (by omega) hy1h
          (Or.inr ⟨by rw [Prod.mk.injEq]; exact ⟨rfl, by omega⟩, rfl⟩)
          hnvis hqle hcov
          (fun _ => by decide) (fun _ => by decide)
          (fun hh => absurd rfl hh) (fun _ => by decide)
      refine ⟨hmain.1, ?_⟩
      apply genMeasure_carve_lt x y q0 _ x (y + 1) rest hmain.2
        (visitedCount_le _ w h) ?_
      have hrem := qcount_remove4 (gen_restrict maze w h x y q0) (by omega) hb
      have hlq := qcount_le_of_sub (gen_restrict maze w h x y q0) (by omega)
        q0 (by omega) hqsub
      omega
    · -- carve towards the left neighbour
      have hbit := hb
      rw [gen_restrict_bit8] at hbit
      have hcond : ¬(x = 0 ∨ gget maze y (x - 1) &&& 0x1c ≥ 0xc) := by
        intro hor
        rw [if_pos hor] at hbit
        exact hbit rfl
      push_neg at hcond
      have hnvis : ¬ visitedc maze (x - 1, y) := by
        intro hv
        have hbv : 0xc ≤ gget maze y (x - 1) &&& 0x1c := blocked_of_visited hv
        omega
      rw [genStep_eq_carve8 hq hc]
      show GenInv w h root (setVis (clearBit maze y (x - 1) 0xfffd) y (x - 1))
          ((x - 1, y, 0xf) ::
            (x, y, gen_restrict maze w h x y q0 &&& 0x7) :: rest) ∧
        genMeasure w h (setVis (clearBit maze y (x - 1) 0xfffd) y (x - 1))
          ((x - 1, y, 0xf) ::
            (x, y, gen_restrict maze w h x y q0 &&& 0x7) :: rest) <
        genMeasure w h maze ((x, y, q0) :: rest)
      have hmain : GenInv w h root
          (setVis (clearBit maze y (x - 1) 0xfffd) y (x - 1))
          ((x - 1, y, 0xf) ::
            (x, y, gen_restrict maze w h x y q0 &&& 0x7) :: rest) ∧
          visitedCount (setVis (clearBit maze y (x - 1) 0xfffd) y (x - 1)) w h =
            visitedCount maze w h + 1 :=
        carve_inv_hor inv (show x - 1 + 1 < w by omega) hinb_xy.2
          (Or.inr ⟨by rw [Prod.mk.injEq]; exact ⟨by omega, rfl⟩, rfl⟩)
          hnvis hqle hcov
          (fun _ => by decide) (fun _ => by decide)
          (fun _ => by decide) (fun hh => absurd rfl hh)
      refine ⟨hmain.1, ?_⟩
      apply genMeasure_carve_lt x y q0 _ (x - 1) y rest hmain.2
        (visitedCount_le _ w h) ?_
      have hrem := qcount_remove8 (gen_restrict maze w h x y q0) (by omega) hb
      have hlq := qcount_le_of_sub (gen_restrict maze w h x y q0) (by omega)
        q0 (by omega) hqsub
      omega
theorem gget_replicate (w h c y x : Nat) (hy : y < h) (hx : x < w) :
    gget (List.replicate h (List.replicate w c)) y x = c := by
  have hrow : (List.replicate h (List.replicate w c)).getD y [] =
      List.replicate w c := by
    rw [List.getD_eq_getElem?_getD, List.getElem?_replicate, if_pos hy,
      Option.getD_some]
  unfold gget
  rw [hrow, List.getD_eq_getElem?_getD, List.getElem?_replicate, if_pos hx,
    Option.getD_some]

theorem Rect_replicate (w h c : Nat) :
    Rect (List.replicate h (List.replicate w c)) w h := by
  refine ⟨List.length_replicate _ _, ?_⟩
  intro r hr
  rw [List.eq_of_mem_replicate hr]
  exact List.length_replicate _ _

/-- Out-of-range reads return the Python default 0 of the embedding. -/
theorem gget_out {g : Grid} {w h : Nat} (hr : Rect g w h) {y x : Nat}
    (hout : ¬(y < h ∧ x < w)) : gget g y x = 0 := by
  by_cases hy : y < h
  · have hx : ¬ x < w := fun hx => hout ⟨hy, hx⟩
    unfold gget
    apply List.getD_eq_default
    rw [hr.row_len hy]
    omega
  · unfold gget
    have houter : List.getD g y [] = [] :=
      List.getD_eq_default _ _ (by rw [hr.1]; omega)
    rw [houter]
    rfl

theorem Rect_init_grid (p : CMazeParams) :
    Rect (init_grid p) p.width p.height :=
  ((Rect_replicate p.width p.height 3).setCell _ _ _).setCell _ _ _

/-- Cell values of the fresh grid: 11 at the exit, 7 at the entry, 3
everywhere else. -/
theorem gget_init_grid (p : CMazeParams) (y x : Nat)
    (hy : y < p.height) (hx : x < p.width) :
    gget (init_grid p) y x =
      if y = p.exit.2 ∧ x = p.exit.1 then 11
      else if y = p.entry.2 ∧ x = p.entry.1 then 7 else 3 := by
  unfold init_grid
  by_cases hex : y = p.exit.2 ∧ x = p.exit.1
  · rw [if_pos hex]
    obtain ⟨ey, ex⟩ := hex
    subst ey
    subst ex
    exact gget_setCell_self
      ((Rect_replicate p.width p.height 3).setCell _ _ _) hy hx 11
  · rw [if_neg hex, gget_setCell_ne _ _ _ _ _ (ne_split hex)]
    by_cases hen : y = p.entry.2 ∧ x = p.entry.1
    · rw [if_pos hen]
      obtain ⟨ey, ex⟩ := hen
      subst ey
      subst ex
      exact gget_setCell_self (Rect_replicate p.width p.height 3) hy hx 7
    · rw [if_neg hen, gget_setCell_ne _ _ _ _ _ (ne_split hen)]
      exact gget_replicate p.width p.height 3 y x hy hx

/-- Cell values of the seeded initial state of gen_DFS (exit marked
visited). -/
theorem gget_seed (p : CMazeParams) (y x : Nat)
    (he1 : p.exit.1 < p.width) (he2 : p.exit.2 < p.height) :
    gget (setVis (init_grid p) p.exit.2 p.exit.1) y x =
      if y < p.height ∧ x < p.width then
        if y = p.exit.2 ∧ x = p.exit.1 then 27
        else if y = p.entry.2 ∧ x = p.entry.1 then 7 else 3
      else 0 := by
  by_cases hin : y < p.height ∧ x < p.width
  · rw [if_pos hin]
    by_cases hex : y = p.exit.2 ∧ x = p.exit.1
    · rw [if_pos hex]
      obtain ⟨ey, ex⟩ := hex
      subst ey
      subst ex
      rw [gget_setVis_self (Rect_init_grid p) he2 he1,
        gget_init_grid p _ _ he2 he1, if_pos ⟨rfl, rfl⟩]
      decide
    · rw [if_neg hex, gget_setVis_ne (ne_split hex),
        gget_init_grid p y x hin.1 hin.2, if_neg hex]
  · rw [if_neg hin]
    exact gget_out ((Rect_init_grid p).setVis _ _) hin

theorem countGrid_false (w h : Nat) : countGrid w h (fun _ _ => false) = 0 := by
  simp [countGrid]
/-- Running the carving loop with fuel exceeding the measure empties the
stack while preserving the invariant. -/
theorem genInv_run {w h : Nat} {root : Nat × Nat} :
    ∀ (fuel : Nat) (s : GenState), GenInv w h root s.maze s.stack →
      genMeasure w h s.maze s.stack < fuel →
      (genDFSrun w h fuel s).stack = [] ∧
        GenInv w h root (genDFSrun w h fuel s).maze
          (genDFSrun w h fuel s).stack := by
  intro fuel
  induction fuel with
  | zero =>
    intro s _ hm
    exact absurd hm (Nat.not_lt_zero _)
  | succ fuel ih =>
    rintro ⟨m, st, r⟩ inv hm
    cases st with
    | nil => exact ⟨rfl, inv⟩
    | cons f rest =>
      obtain ⟨x, y, q0⟩ := f
      have hstep : GenInv w h root
            (genStep w h ⟨m, (x, y, q0) :: rest, r⟩).maze
            (genStep w h ⟨m, (x, y, q0) :: rest, r⟩).stack ∧
          genMeasure w h (genStep w h ⟨m, (x, y, q0) :: rest, r⟩).maze
            (genStep w h ⟨m, (x, y, q0) :: rest, r⟩).stack <
          genMeasure w h m ((x, y, q0) :: rest) := genInv_step inv
      have hm' : genMeasure w h m ((x, y, q0) :: rest) < fuel + 1 := hm
      exact ih (genStep w h ⟨m, (x, y, q0) :: rest, r⟩) hstep.1 (by omega)

/-- The carving invariant holds at the seeded initial state of gen_DFS,
rooted at the exit cell. -/
theorem initial_inv (p : CMazeParams)
    (he1 : p.exit.1 < p.width) (he2 : p.exit.2 < p.height) :
    GenInv p.width p.height p.exit
      (setVis (init_grid p) p.exit.2 p.exit.1)
      [(p.exit.1, p.exit.2, 0xf)] := by
  have hbit2 : ∀ x y, x < p.width → y < p.height →
      gget (setVis (init_grid p) p.exit.2 p.exit.1) y x &&& 2 ≠ 0 := by
    intro x y hx hy
    rw [gget_seed p y x he1 he2, if_pos ⟨hy, hx⟩]
    split_ifs <;> decide
  have hbit1 : ∀ x y, x < p.width → y < p.height →
      gget (setVis (init_grid p) p.exit.2 p.exit.1) y x &&& 1 ≠ 0 := by
    intro x y hx hy
    rw [gget_seed p y x he1 he2, if_pos ⟨hy, hx⟩]
    split_ifs <;> decide
  have hvis_exit : visitedc (setVis (init_grid p) p.exit.2 p.exit.1)
      (p.exit.1, p.exit.2) := by
    show gget (setVis (init_grid p) p.exit.2 p.exit.1)
      p.exit.2 p.exit.1 &&& 0x10 ≠ 0
    rw [gget_seed p p.exit.2 p.exit.1 he1 he2, if_pos ⟨he2, he1⟩,
      if_pos ⟨rfl, rfl⟩]
    decide
  have hvis_char : ∀ a b : Nat,
      visitedc (setVis (init_grid p) p.exit.2 p.exit.1) (a, b) →
      b = p.exit.2 ∧ a = p.exit.1 := by
    intro a b hvis
    by_contra hex
    have hv : gget (setVis (init_grid p) p.exit.2 p.exit.1) b a &&& 0x10 ≠ 0 :=
      hvis
    rw [gget_seed p b a he1 he2] at hv
    by_cases hin : b < p.height ∧ a < p.width
    · rw [if_pos hin, if_neg hex] at hv
      split_ifs at hv
      · exact absurd (by decide) hv
      · exact absurd (by decide) hv
    · rw [if_neg hin] at hv
      exact absurd (by decide) hv
  refine ⟨(Rect_init_grid p).setVis _ _, ?_, ?_, ?_, ?_, ?_, ?_, ?_, ?_, ?_,
    ?_, hvis_exit⟩
  · -- nopat
    intro y x
    rw [gget_seed p y x he1 he2]
    split_ifs <;> decide
  · -- stack_inb
    intro f hf
    rw [List.mem_singleton.mp hf]
    exact ⟨he1, he2⟩
  · -- stack_vis
    intro f hf
    rw [List.mem_singleton.mp hf]
    exact hvis_exit
  · -- stack_q_le
    intro f hf
    rw [List.mem_singleton.mp hf]
  · -- edge_r
    intro x y hx hy hopen
    exact absurd hopen (hbit2 x y (by omega) hy)
  · -- edge_d
    intro x y hx hy hopen
    exact absurd hopen (hbit1 x (y + 1) hx hy)
  · -- count
    have hvinit : visitedCount (init_grid p) p.width p.height = 0 := by
      unfold visitedCount
      have h1 : countGrid p.width p.height
          (fun x y => gget (init_grid p) y x &&& 0x10 != 0) =
          countGrid p.width p.height (fun _ _ => false) := by
        apply countGrid_congr
        intro x y hx hy
        rw [gget_init_grid p y x hy hx]
        split_ifs <;> decide
      rw [h1, countGrid_false]
    have hflip : visitedCount (setVis (init_grid p) p.exit.2 p.exit.1)
        p.width p.height =
        visitedCount (init_grid p) p.width p.height + 1 := by
      apply visitedCount_flip he1 he2
      · rw [gget_init_grid p p.exit.2 p.exit.1 he2 he1, if_pos ⟨rfl, rfl⟩]
        decide
      · rw [gget_seed p p.exit.2 p.exit.1 he1 he2, if_pos ⟨he2, he1⟩,
          if_pos ⟨rfl, rfl⟩]
        decide
      · intro x y hx hy hne
        rw [gget_setVis_ne (Or.symm (ne_split hne))]
    have hec : openEdgeCount (setVis (init_grid p) p.exit.2 p.exit.1)
        p.width p.height = 0 := by
      unfold openEdgeCount
      have h1 : countGrid (p.width - 1) p.height
          (fun x y => gget (setVis (init_grid p) p.exit.2 p.exit.1) y x &&&
            2 == 0) =
          countGrid (p.width - 1) p.height (fun _ _ => false) := by
        apply countGrid_congr
        intro x y hx hy
        exact beq_zero_of_ne (hbit2 x y (by omega) hy)
      have h2 : countGrid p.width (p.height - 1)
          (fun x y => gget (setVis (init_grid p) p.exit.2 p.exit.1) (y + 1)
            x &&& 1 == 0) =
          countGrid p.width (p.height - 1) (fun _ _ => false) := by
        apply countGrid_congr
        intro x y hx hy
        exact beq_zero_of_ne (hbit1 x (y + 1) hx (by omega))
      rw [h1, h2, countGrid_false, countGrid_false]
    rw [hec, hflip, hvinit]
  · -- conn
    rintro ⟨a, b⟩ hinb hvis
    obtain ⟨hb, ha⟩ := hvis_char a b hvis
    have heq : (a, b) = p.exit := by
      rw [ha, hb]
    rw [heq]
    exact Relation.ReflTransGen.refl
  · -- qbits
    intro a b qq hmem
    have he := List.mem_singleton.mp hmem
    rw [Prod.mk.injEq, Prod.mk.injEq] at he
    obtain ⟨e1, e2, e3⟩ := he
    subst e3
    exact ⟨fun _ _ => by decide, fun _ _ => by decide, fun _ _ => by decide,
      fun _ _ => by decide⟩
  · -- closed
    intro a b hinb hvis hnot
    exfalso
    obtain ⟨hb, ha⟩ := hvis_char a b hvis
    exact hnot 0xf (by rw [ha, hb]; exact List.mem_singleton.mpr rfl)
/-- On a grid whose closed-cell property holds everywhere (empty stack),
visitedness propagates from the root to the whole grid, by induction on
the taxicab distance to the root. -/
theorem all_visited_of_closed {w h : Nat} {root : Nat × Nat} {g : Grid}
    (hroot : inb w h root)
    (hclosed : ∀ x y, inb w h (x, y) → visitedc g (x, y) →
      (y ≠ 0 → visitedc g (x, y - 1)) ∧
      (x + 1 < w → visitedc g (x + 1, y)) ∧
      (y + 1 < h → visitedc g (x, y + 1)) ∧
      (x ≠ 0 → visitedc g (x - 1, y)))
    (hrv : visitedc g root) :
    ∀ x y, x < w → y < h → visitedc g (x, y) := by
  obtain ⟨rx, ry⟩ := root
  have hrx : rx < w := hroot.1
  have hry : ry < h := hroot.2
  have key : ∀ n x y, x < w → y < h →
      (x - rx) + (rx - x) + (y - ry) + (ry - y) ≤ n → visitedc g (x, y) := by
    intro n
    induction n with
    | zero =>
      intro x y hx hy hd
      have hxe : x = rx := by omega
      have hye : y = ry := by omega
      subst hxe
      subst hye
      exact hrv
    | succ n ih =>
      intro x y hx hy hd
      by_cases hd' : (x - rx) + (rx - x) + (y - ry) + (ry - y) ≤ n
      · exact ih x y hx hy hd'
      · rcases Nat.lt_trichotomy x rx with hlt | heq | hgt
        · have hx1 : x + 1 < w := by omega
          have hvn : visitedc g (x + 1, y) := ih (x + 1) y hx1 hy (by omega)
          have hstep := (hclosed (x + 1) y ⟨hx1, hy⟩ hvn).2.2.2
          have hxx : x + 1 - 1 = x := rfl
          rw [hxx] at hstep
          exact hstep (by omega)
        · rcases Nat.lt_trichotomy y ry with hylt | hyeq | hygt
          · have hy1 : y + 1 < h := by omega
            have hvn : visitedc g (x, y + 1) := ih x (y + 1) hx hy1 (by omega)
            have hstep := (hclosed x (y + 1) ⟨hx, hy1⟩ hvn).1
            have hyy : y + 1 - 1 = y := rfl
            rw [hyy] at hstep
            exact hstep (by omega)
          · exfalso
            omega
          · have hvn : visitedc g (x, y - 1) :=
              ih x (y - 1) hx (by omega) (by omega)
            have hstep := (hclosed x (y - 1) ⟨hx, by omega⟩ hvn).2.2.1
            have hyy : y - 1 + 1 = y := by omega
            rw [hyy] at hstep
            exact hstep hy
        · have hvn : visitedc g (x - 1, y) :=
            ih (x - 1) y (by omega) hy (by omega)
          have hstep := (hclosed (x - 1) y ⟨by omega, hy⟩ hvn).2.1
          have hxx : x - 1 + 1 = x := by omega
          rw [hxx] at hstep
          exact hstep hx
  intro x y hx hy
  exact key ((x - rx) + (rx - x) + (y - ry) + (ry - y)) x y hx hy le_rfl

/-- A grid with every cell visited has a full visited count. -/
theorem visitedCount_all {g : Grid} {w h : Nat}
    (hall : ∀ x y, x < w → y < h → gget g y x &&& 0x10 ≠ 0) :
    visitedCount g w h = w * h := by
  unfold visitedCount countGrid
  refine Eq.trans (List.countP_eq_length.mpr ?_) (List.length_range _)
  intro i hi
  rw [List.mem_range] at hi
  have hw : 0 < w := by
    rcases Nat.eq_zero_or_pos w with h0 | h0
    · subst h0
      simp at hi
    · exact h0
  have hi' : i < h * w := Nat.mul_comm w h ▸ hi
  show (gget g (i / w) (i % w) &&& 0x10 != 0) = true
  exact bne_zero_of_ne (hall (i % w) (i / w) (Nat.mod_lt _ hw)
    ((Nat.div_lt_iff_lt_mul hw).mpr hi'))

/-- C1, amended: the spec's spanning-tree property holds of generate once
the record also sets perfect = true (the counterexample shows the claim as
stated fails for imperfect records): with no pattern and the exit in
bounds, the generated grid's open edges number cells - 1 and every pair of
cells is connected. -/
theorem claim_C1_spanning_tree (p : CMazeParams) (r : Rng)
    (hw : 2 ≤ p.width) (hh : 2 ≤ p.height)
    (h42 : p.insert_42 = false) (hperf : p.perfect = true)
    (he1 : p.exit.1 < p.width) (he2 : p.exit.2 < p.height) :
    openEdgeCount (generate p r) p.width p.height =
        p.width * p.height - 1 ∧
      ∀ a b : Nat × Nat, a.1 < p.width → a.2 < p.height →
        b.1 < p.width → b.2 < p.height →
        Reach (generate p r) p.width p.height a b := by
  have hmain : ∀ r' : Rng,
      openEdgeCount (gen_DFS (init_grid p) p r').maze p.width p.height =
          p.width * p.height - 1 ∧
        ∀ a b : Nat × Nat, a.1 < p.width → a.2 < p.height →
          b.1 < p.width → b.2 < p.height →
          Reach (gen_DFS (init_grid p) p r').maze p.width p.height a b := by
    intro r'
    have hinv0 := initial_inv p he1 he2
    have hm0 : genMeasure p.width p.height
        (setVis (init_grid p) p.exit.2 p.exit.1)
        [(p.exit.1, p.exit.2, 0xf)] < genFuel p.width p.height := by
      have h15 : qcount 0xf = 4 := by decide
      have hsub : p.width * p.height -
          visitedCount (setVis (init_grid p) p.exit.2 p.exit.1)
            p.width p.height ≤ p.width * p.height := Nat.sub_le _ _
      simp only [genMeasure, genFuel, List.map_cons, List.sum_cons,
        List.length_cons, List.map_nil, List.sum_nil, List.length_nil]
      omega
    have hrun := genInv_run (genFuel p.width p.height)
      ⟨setVis (init_grid p) p.exit.2 p.exit.1,
        [(p.exit.1, p.exit.2, 0xf)], r'⟩ hinv0 hm0
    have hfin : GenInv p.width p.height p.exit
        (gen_DFS (init_grid p) p r').maze [] := by
      have h2 := hrun.2
      rw [hrun.1] at h2
      exact h2
    have hall : ∀ x y, x < p.width → y < p.height →
        visitedc (gen_DFS (init_grid p) p r').maze (x, y) :=
      all_visited_of_closed ⟨he1, he2⟩
        (fun x y hin hv => hfin.closed x y hin hv
          (fun q hq => List.not_mem_nil _ hq))
        hfin.root_vis
    have hvall : visitedCount (gen_DFS (init_grid p) p r').maze
        p.width p.height = p.width * p.height :=
      visitedCount_all (fun x y hx hy => hall x y hx hy)
    constructor
    · have hc := hfin.count
      omega
    · intro a b ha1 ha2 hb1 hb2
      obtain ⟨a1, a2⟩ := a
      obtain ⟨b1, b2⟩ := b
      have hra := hfin.conn (a1, a2) ⟨ha1, ha2⟩ (hall a1 a2 ha1 ha2)
      have hrb := hfin.conn (b1, b2) ⟨hb1, hb2⟩ (hall b1 b2 hb1 hb2)
      exact Relation.ReflTransGen.trans (Reach.symm hra) hrb
  cases hs : p.seed with
  | none =>
    have hg : generate p r = (gen_DFS (init_grid p) p r).maze := by
      simp [generate, h42, hs, hperf]
    rw [hg]
    exact hmain r
  | some s =>
    have hg : generate p r = (gen_DFS (init_grid p) p (seedRng s)).maze := by
      simp [generate, h42, hs, hperf]
    rw [hg]
    exact hmain (seedRng s)

/-- C1 witness: the amended statement applied to the concrete perfect
2-by-2 record. -/
theorem claim_C1_witness :
    (2 ≤ pPerfect22.width ∧ 2 ≤ pPerfect22.height ∧
      pPerfect22.insert_42 = false ∧ pPerfect22.perfect = true ∧
      pPerfect22.exit.1 < pPerfect22.width ∧
      pPerfect22.exit.2 < pPerfect22.height) ∧
    (openEdgeCount (generate pPerfect22 rng0) pPerfect22.width
          pPerfect22.height =
        pPerfect22.width * pPerfect22.height - 1 ∧
      ∀ a b : Nat × Nat, a.1 < pPerfect22.width → a.2 < pPerfect22.height →
        b.1 < pPerfect22.width → b.2 < pPerfect22.height →
        Reach (generate pPerfect22 rng0) pPerfect22.width pPerfect22.height
          a b) :=
  ⟨⟨by decide, by decide, by decide, by decide, by decide, by decide⟩,
    claim_C1_spanning_tree pPerfect22 rng0 (by decide) (by decide)
      (by decide) (by decide) (by decide) (by decide)⟩
/-! ## C7: the direction line of write_to_file -/

/-- One direction character of write_to_file's path serialization: the
source compares path[i] with path[i-1], in the order E, W, S, N, and falls
back to a dash for a null delta. -/
def dirChar (a b : Nat × Nat) : Char :=
  if a.1 < b.1 then 'E'
  else if b.1 < a.1 then 'W'
  else if a.2 < b.2 then 'S'
  else if b.2 < a.2 then 'N'
  else '-'

/-- The direction line written by write_to_file: one character per
consecutive pair of path points. -/
def dir_line (path : List (Nat × Nat)) : List Char :=
  List.zipWith dirChar path path.tail

/-- Spec-side replay of one direction character (N = (0,-1), S = (0,+1),
E = (+1,0), W = (-1,0)). -/
def applyDir (a : Nat × Nat) (c : Char) : Nat × Nat :=
  if c = 'E' then (a.1 + 1, a.2)
  else if c = 'W' then (a.1 - 1, a.2)
  else if c = 'S' then (a.1, a.2 + 1)
  else if c = 'N' then (a.1, a.2 - 1)
  else a

/-- Spec-side replay of a direction line from a starting coordinate. -/
def replay : (Nat × Nat) → List Char → List (Nat × Nat)
  | s, [] => [s]
  | s, c :: cs => s :: replay (applyDir s c) cs

/-- Two grid cells differing by exactly one in exactly one component. -/
def Adjacent (a b : Nat × Nat) : Prop :=
  (b.1 = a.1 + 1 ∧ b.2 = a.2) ∨ (a.1 = b.1 + 1 ∧ b.2 = a.2) ∨
    (b.2 = a.2 + 1 ∧ b.1 = a.1) ∨ (a.2 = b.2 + 1 ∧ b.1 = a.1)

instance (a b : Nat × Nat) : Decidable (Adjacent a b) := by
  unfold Adjacent
  infer_instance

/-- On an adjacent pair the serialized character is a cardinal direction
and replaying it recovers the second point. -/
theorem applyDir_dirChar {a b : Nat × Nat} (h : Adjacent a b) :
    applyDir a (dirChar a b) = b ∧
      (dirChar a b = 'N' ∨ dirChar a b = 'S' ∨ dirChar a b = 'E' ∨
        dirChar a b = 'W') := by
  obtain ⟨a1, a2⟩ := a
  obtain ⟨b1, b2⟩ := b
  rcases h with ⟨h1, h2⟩ | ⟨h1, h2⟩ | ⟨h1, h2⟩ | ⟨h1, h2⟩
  · have e1 : b1 = a1 + 1 := h1
    have e2 : a2 = b2 := h2.symm
    subst e1
    subst e2
    have hc : dirChar (a1, a2) (a1 + 1, a2) = 'E' := by
      unfold dirChar
      rw [if_pos (by simp)]
    rw [hc]
    exact ⟨rfl, Or.inr (Or.inr (Or.inl rfl))⟩
  · have e1 : a1 = b1 + 1 := h1
    have e2 : a2 = b2 := h2.symm
    subst e1
    subst e2
    have hc : dirChar (b1 + 1, a2) (b1, a2) = 'W' := by
      unfold dirChar
      rw [if_neg (by simp), if_pos (by simp)]
    rw [hc]
    refine ⟨?_, Or.inr (Or.inr (Or.inr rfl))⟩
    unfold applyDir
    rw [if_neg (by decide), if_pos rfl]
    rfl
  · have e1 : b2 = a2 + 1 := h1
    have e2 : a1 = b1 := h2.symm
    subst e1
    subst e2
    have hc : dirChar (a1, a2) (a1, a2 + 1) = 'S' := by
      unfold dirChar
      rw [if_neg (by simp), if_neg (by simp), if_pos (by simp)]
    rw [hc]
    refine ⟨?_, Or.inr (Or.inl rfl)⟩
    unfold applyDir
    rw [if_neg (by decide), if_neg (by decide), if_pos rfl]
  · have e1 : a2 = b2 + 1 := h1
    have e2 : a1 = b1 := h2.symm
    subst e1
    subst e2
    have hc : dirChar (a1, b2 + 1) (a1, b2) = 'N' := by
      unfold dirChar
      rw [if_neg (by simp), if_neg (by simp), if_neg (by simp),
        if_pos (by simp)]
    rw [hc]
    refine ⟨?_, Or.inl rfl⟩
    unfold applyDir
    rw [if_neg (by decide), if_neg (by decide), if_neg (by decide),
      if_pos rfl]
    rfl

/-- Replaying the direction line of an adjacent path from its head
reproduces the path, and every character is a cardinal direction. -/
theorem replay_dir_line : ∀ (t : List (Nat × Nat)) (a : Nat × Nat),
    (∀ i, i < (a :: t).length - 1 →
      Adjacent ((a :: t).getD i (0, 0)) ((a :: t).getD (i + 1) (0, 0))) →
    replay a (dir_line (a :: t)) = a :: t ∧
      ∀ c ∈ dir_line (a :: t),
        c = 'N' ∨ c = 'S' ∨ c = 'E' ∨ c = 'W' := by
  intro t
  induction t with
  | nil =>
    intro a _
    refine ⟨rfl, ?_⟩
    intro c hc
    simp [dir_line] at hc
  | cons b t ih =>
    intro a hadj
    have hab : Adjacent a b := hadj 0 (by simp)
    have hd := applyDir_dirChar hab
    have ht := ih b (fun i hi => hadj (i + 1)
      (by simp only [List.length_cons] at hi ⊢; omega))
    have hstep : dir_line (a :: b :: t) =
        dirChar a b :: dir_line (b :: t) := rfl
    rw [hstep]
    constructor
    · show a :: replay (applyDir a (dirChar a b)) (dir_line (b :: t)) = _
      rw [hd.1, ht.1]
    · intro c hc
      rcases List.mem_cons.mp hc with hc1 | hc2
      · rw [hc1]
        exact hd.2
      · exact ht.2 c hc2

/-- C7: for a supplied path of grid-adjacent coordinates starting at the
entry, the direction line of write_to_file has length path - 1, uses only
the characters N, S, E, W, and replaying its deltas from the entry
reproduces the path exactly. -/
theorem claim_C7_direction_round_trip (path : List (Nat × Nat))
    (entry : Nat × Nat) (hne : path ≠ [])
    (hhead : path.headD (0, 0) = entry)
    (hadj : ∀ i, i < path.length - 1 →
      Adjacent (path.getD i (0, 0)) (path.getD (i + 1) (0, 0))) :
    (dir_line path).length = path.length - 1 ∧
      (∀ c ∈ dir_line path, c = 'N' ∨ c = 'S' ∨ c = 'E' ∨ c = 'W') ∧
      replay entry (dir_line path) = path := by
  cases path with
  | nil => exact absurd rfl hne
  | cons a t =>
    have hx := replay_dir_line t a hadj
    have hhead' : a = entry := hhead
    subst hhead'
    refine ⟨?_, hx.2, hx.1⟩
    simp [dir_line]

/-- C7 witness: a concrete three-point staircase path. -/
theorem claim_C7_witness :
    (((0, 0) : Nat × Nat) :: [(1, 0), (1, 1)] ≠ [] ∧
      (((0, 0) : Nat × Nat) :: [(1, 0), (1, 1)]).headD (0, 0) = (0, 0) ∧
      (∀ i, i < (((0, 0) : Nat × Nat) :: [(1, 0), (1, 1)]).length - 1 →
        Adjacent ((((0, 0) : Nat × Nat) :: [(1, 0), (1, 1)]).getD i (0, 0))
          ((((0, 0) : Nat × Nat) :: [(1, 0), (1, 1)]).getD (i + 1) (0, 0)))) ∧
    ((dir_line (((0, 0) : Nat × Nat) :: [(1, 0), (1, 1)])).length =
        (((0, 0) : Nat × Nat) :: [(1, 0), (1, 1)]).length - 1 ∧
      (∀ c ∈ dir_line (((0, 0) : Nat × Nat) :: [(1, 0), (1, 1)]),
        c = 'N' ∨ c = 'S' ∨ c = 'E' ∨ c = 'W') ∧
      replay (0, 0) (dir_line (((0, 0) : Nat × Nat) :: [(1, 0), (1, 1)])) =
        ((0, 0) : Nat × Nat) :: [(1, 0), (1, 1)]) :=
  ⟨⟨by decide, by decide, by decide⟩,
    claim_C7_direction_round_trip _ _ (by decide) (by decide) (by decide)⟩
/-! ## C5: soundness of the imperfection injector -/

theorem lor_le15 {a b : Nat} (ha : a ≤ 15) (hb : b ≤ 15) : a ||| b ≤ 15 := by
  interval_cases a <;> interval_cases b <;> decide

theorem dnp_veff_le (g : Grid) (y x : Nat) : dnp_veff g y x ≤ 15 := by
  have hbase : gget g y x &&& 3 ≤ 15 := le_trans Nat.and_le_right (by decide)
  unfold dnp_veff
  split_ifs <;> (repeat apply lor_le15) <;> first | exact hbase | decide

theorem dnp_filter_top_other (g : Grid) (y x w b : Nat)
    (hb : 14 &&& b = b) : dnp_filter_top g y x w &&& b = w &&& b := by
  unfold dnp_filter_top
  split_ifs <;> simp [land_land w 14 b hb]

theorem dnp_filter_right_other (g : Grid) (y x w b : Nat)
    (hb : 13 &&& b = b) : dnp_filter_right g y x w &&& b = w &&& b := by
  unfold dnp_filter_right
  split_ifs <;> simp [land_land w 13 b hb]

theorem dnp_filter_bottom_other (g : Grid) (y x w b : Nat)
    (hb : 11 &&& b = b) : dnp_filter_bottom g y x w &&& b = w &&& b := by
  unfold dnp_filter_bottom
  split_ifs <;> simp [land_land w 11 b hb]

theorem dnp_filter_left_other (g : Grid) (y x w b : Nat)
    (hb : 7 &&& b = b) : dnp_filter_left g y x w &&& b = w &&& b := by
  unfold dnp_filter_left
  split_ifs <;> simp [land_land w 7 b hb]

theorem dnp_filter_top_bit (g : Grid) (y x w : Nat) :
    dnp_filter_top g y x w &&& 1 =
      if y = 0 ∨ gget g (y - 1) x &&& 0xc = 0xc then 0 else w &&& 1 := by
  have hz : w &&& 14 &&& 1 = 0 := land_land_zero w 14 1 (by decide)
  unfold dnp_filter_top
  split_ifs <;> omega

theorem dnp_filter_right_bit (g : Grid) (y x w : Nat) :
    dnp_filter_right g y x w &&& 2 =
      if x = (g.getD 0 []).length - 1 ∨ gget g y (x + 1) &&& 0xc = 0xc then 0
      else w &&& 2 := by
  have hz : w &&& 13 &&& 2 = 0 := land_land_zero w 13 2 (by decide)
  unfold dnp_filter_right
  split_ifs <;> omega

theorem dnp_filter_bottom_bit (g : Grid) (y x w : Nat) :
    dnp_filter_bottom g y x w &&& 4 =
      if y = g.length - 1 ∨ gget g (y + 1) x &&& 0xc = 0xc then 0
      else w &&& 4 := by
  have hz : w &&& 11 &&& 4 = 0 := land_land_zero w 11 4 (by decide)
  unfold dnp_filter_bottom
  split_ifs <;> omega

theorem dnp_filter_left_bit (g : Grid) (y x w : Nat) :
    dnp_filter_left g y x w &&& 8 =
      if x = 0 ∨ gget g y (x - 1) &&& 0xc = 0xc then 0 else w &&& 8 := by
  have hz : w &&& 7 &&& 8 = 0 := land_land_zero w 7 8 (by decide)
  unfold dnp_filter_left
  split_ifs <;> omega

theorem dnp_w_bit1 (g : Grid) (y x : Nat) :
    dnp_w g y x &&& 1 =
      if y = 0 ∨ gget g (y - 1) x &&& 0xc = 0xc then 0
      else dnp_veff g y x &&& 1 := by
  unfold dnp_w
  rw [dnp_filter_left_other _ _ _ _ 1 (by decide),
    dnp_filter_bottom_other _ _ _ _ 1 (by decide),
    dnp_filter_right_other _ _ _ _ 1 (by decide), dnp_filter_top_bit]

theorem dnp_w_bit2 (g : Grid) (y x : Nat) :
    dnp_w g y x &&& 2 =
      if x = (g.getD 0 []).length - 1 ∨ gget g y (x + 1) &&& 0xc = 0xc then 0
      else dnp_veff g y x &&& 2 := by
  unfold dnp_w
  rw [dnp_filter_left_other _ _ _ _ 2 (by decide),
    dnp_filter_bottom_other _ _ _ _ 2 (by decide), dnp_filter_right_bit,
    dnp_filter_top_other _ _ _ _ 2 (by decide)]

theorem dnp_w_bit4 (g : Grid) (y x : Nat) :
    dnp_w g y x &&& 4 =
      if y = g.length - 1 ∨ gget g (y + 1) x &&& 0xc = 0xc then 0
      else dnp_veff g y x &&& 4 := by
  unfold dnp_w
  rw [dnp_filter_left_other _ _ _ _ 4 (by decide), dnp_filter_bottom_bit,
    dnp_filter_right_other _ _ _ _ 4 (by decide),
    dnp_filter_top_other _ _ _ _ 4 (by decide)]

theorem dnp_w_bit8 (g : Grid) (y x : Nat) :
    dnp_w g y x &&& 8 =
      if x = 0 ∨ gget g y (x - 1) &&& 0xc = 0xc then 0
      else dnp_veff g y x &&& 8 := by
  unfold dnp_w
  rw [dnp_filter_left_bit, dnp_filter_bottom_other _ _ _ _ 8 (by decide),
    dnp_filter_right_other _ _ _ _ 8 (by decide),
    dnp_filter_top_other _ _ _ _ 8 (by decide)]

theorem dnp_filter_top_sub (g : Grid) (y x w : Nat) :
    dnp_filter_top g y x w &&& w = dnp_filter_top g y x w := by
  unfold dnp_filter_top
  split_ifs <;> first | exact land_left_self w _ | exact Nat.and_self w

theorem dnp_filter_right_sub (g : Grid) (y x w : Nat) :
    dnp_filter_right g y x w &&& w = dnp_filter_right g y x w := by
  unfold dnp_filter_right
  split_ifs <;> first | exact land_left_self w _ | exact Nat.and_self w

theorem dnp_filter_bottom_sub (g : Grid) (y x w : Nat) :
    dnp_filter_bottom g y x w &&& w = dnp_filter_bottom g y x w := by
  unfold dnp_filter_bottom
  split_ifs <;> first | exact land_left_self w _ | exact Nat.and_self w

theorem dnp_filter_left_sub (g : Grid) (y x w : Nat) :
    dnp_filter_left g y x w &&& w = dnp_filter_left g y x w := by
  unfold dnp_filter_left
  split_ifs <;> first | exact land_left_self w _ | exact Nat.and_self w

theorem dnp_w_sub (g : Grid) (y x : Nat) :
    dnp_w g y x &&& dnp_veff g y x = dnp_w g y x := by
  unfold dnp_w
  exact sub_trans (dnp_filter_left_sub _ _ _ _)
    (sub_trans (dnp_filter_bottom_sub _ _ _ _)
      (sub_trans (dnp_filter_right_sub _ _ _ _) (dnp_filter_top_sub _ _ _ _)))

theorem dnp_w_le (g : Grid) (y x : Nat) : dnp_w g y x ≤ 15 :=
  le_trans (sub_le_of_sub (dnp_w_sub g y x)) (dnp_veff_le g y x)
/-- A write lands (in range) or is a no-op (out of range). -/
theorem gget_setCell_cases (g : Grid) (y x v : Nat) :
    gget (setCell g y x v) y x = v ∨
      gget (setCell g y x v) y x = gget g y x := by
  by_cases hy : y < g.length
  · have hrow : (setCell g y x v).getD y [] = (g.getD y []).set x v := by
      simp [setCell, List.getD_eq_getElem?_getD, List.getElem?_set_self hy]
    by_cases hx : x < (g.getD y []).length
    · left
      rw [gget, hrow, List.getD_eq_getElem?_getD, List.getElem?_set_self hx,
        Option.getD_some]
    · right
      have hnop : (g.getD y []).set x v = g.getD y [] :=
        List.set_eq_of_length_le (by omega)
      rw [gget, hrow, hnop]
      rfl
  · right
    have hnop : setCell g y x v = g := by
      rw [setCell]
      exact List.set_eq_of_length_le (by omega)
    rw [hnop]

theorem length_row0_setCell (g : Grid) (y x v : Nat) :
    ((setCell g y x v).getD 0 []).length = (g.getD 0 []).length := by
  unfold setCell
  by_cases hy : y < g.length
  · by_cases h0 : y = 0
    · subst h0
      simp [List.getD_eq_getElem?_getD, List.getElem?_set_self hy,
        List.length_set]
    · simp [List.getD_eq_getElem?_getD, List.getElem?_set_ne h0]
  · rw [List.set_eq_of_length_le (by omega)]

/-- Soundness relation of the imperfection pass: the shape is kept, bits
above the wall bits are untouched, and each wall bit is unchanged or was
cleared on a non-boundary wall both of whose sides are pattern-free. -/
def DnpSound (g g' : Grid) : Prop :=
  g'.length = g.length ∧
    (g'.getD 0 []).length = (g.getD 0 []).length ∧
    ∀ y x,
      gget g' y x &&& 0xfffc = gget g y x &&& 0xfffc ∧
      (gget g' y x &&& 1 = gget g y x &&& 1 ∨
        (gget g' y x &&& 1 = 0 ∧ y ≠ 0 ∧ gget g y x &&& 0xc ≠ 0xc ∧
          gget g (y - 1) x &&& 0xc ≠ 0xc)) ∧
      (gget g' y x &&& 2 = gget g y x &&& 2 ∨
        (gget g' y x &&& 2 = 0 ∧ x ≠ (g.getD 0 []).length - 1 ∧
          gget g y x &&& 0xc ≠ 0xc ∧ gget g y (x + 1) &&& 0xc ≠ 0xc))

theorem DnpSound_refl (g : Grid) : DnpSound g g :=
  ⟨rfl, rfl, fun _ _ => ⟨rfl, Or.inl rfl, Or.inl rfl⟩⟩

theorem andc_of_fffc {a b : Nat} (h : a &&& 0xfffc = b &&& 0xfffc) :
    a &&& 0xc = b &&& 0xc := by
  have h1 := land_land a 0xfffc 0xc (by decide)
  have h2 := land_land b 0xfffc 0xc (by decide)
  rw [← h1, ← h2, h]

theorem DnpSound_trans {g1 g2 g3 : Grid} (h12 : DnpSound g1 g2)
    (h23 : DnpSound g2 g3) : DnpSound g1 g3 := by
  obtain ⟨hl12, hr12, hc12⟩ := h12
  obtain ⟨hl23, hr23, hc23⟩ := h23
  refine ⟨hl23.trans hl12, hr23.trans hr12, ?_⟩
  intro y x
  obtain ⟨hf12, h112, h212⟩ := hc12 y x
  obtain ⟨hf23, h123, h223⟩ := hc23 y x
  refine ⟨hf23.trans hf12, ?_, ?_⟩
  · rcases h123 with he | ⟨hz, hy0, hp1, hp2⟩
    · rcases h112 with he' | ⟨hz', hy0', hp1', hp2'⟩
      · exact Or.inl (he.trans he')
      · exact Or.inr ⟨by omega, hy0', hp1', hp2'⟩
    · refine Or.inr ⟨hz, hy0, ?_, ?_⟩
      · rw [← andc_of_fffc (hc12 y x).1]
        exact hp1
      · rw [← andc_of_fffc (hc12 (y - 1) x).1]
        exact hp2
  · rcases h223 with he | ⟨hz, hxw, hp1, hp2⟩
    · rcases h212 with he' | ⟨hz', hxw', hp1', hp2'⟩
      · exact Or.inl (he.trans he')
      · exact Or.inr ⟨by omega, hxw', hp1', hp2'⟩
    · refine Or.inr ⟨hz, by rw [← hr12]; exact hxw, ?_, ?_⟩
      · rw [← andc_of_fffc (hc12 y x).1]
        exact hp1
      · rw [← andc_of_fffc (hc12 y (x + 1)).1]
        exact hp2

theorem DnpSound_openLe {g g' : Grid} (h : DnpSound g g') : OpenLe g g' := by
  intro y x
  obtain ⟨-, h1, h2⟩ := h.2.2 y x
  constructor
  · intro hz
    rcases h1 with he | ⟨hz', _⟩
    · rw [he]
      exact hz
    · exact hz'
  · intro hz
    rcases h2 with he | ⟨hz', _⟩
    · rw [he]
      exact hz
    · exact hz'
/-- Exhaustive description of one dnpCell call: either the grid is
unchanged, or the scanned cell is unmarked and exactly one guarded wall
clear happened. -/
theorem dnpCell_cases (g : Grid) (pr : Nat) (r : Rng) (y x : Nat) :
    (dnpCell g pr r y x).1 = g ∨
      (gget g y x &&& 0xc = 0 ∧
        (((dnpCell g pr r y x).1 = clearBit g y x 0xfffe ∧ y ≠ 0 ∧
            gget g (y - 1) x &&& 0xc ≠ 0xc) ∨
          ((dnpCell g pr r y x).1 = clearBit g y x 0xfffd ∧
            x ≠ (g.getD 0 []).length - 1 ∧
            gget g y (x + 1) &&& 0xc ≠ 0xc) ∨
          ((dnpCell g pr r y x).1 = clearBit g (y + 1) x 0xfffe ∧
            y ≠ g.length - 1 ∧ gget g (y + 1) x &&& 0xc ≠ 0xc) ∨
          ((dnpCell g pr r y x).1 = clearBit g y (x - 1) 0xfffd ∧ x ≠ 0 ∧
            gget g y (x - 1) &&& 0xc ≠ 0xc))) := by
  by_cases h0 : gget g y x &&& 0xc ≠ 0
  · exact Or.inl (by simp [dnpCell, if_pos h0])
  · have h0' : gget g y x &&& 0xc = 0 := by omega
    by_cases h3 : (bit_candidates (dnp_veff g y x)).length = 3
    · by_cases hg : (if pr ≥ 100 then (true, r) else rbelow pr r).1 = true
      · by_cases hw : dnp_w g y x = 0
        · refine Or.inl ?_
          simp only [dnpCell, if_neg h0, if_pos h3, if_pos hg, if_pos hw]
        · have hle := dnp_w_le g y x
          have hmem := rchoice_mem (bit_candidates_ne_nil hle hw)
            (if pr ≥ 100 then (true, r) else rbelow pr r).2
          refine Or.inr ⟨h0', ?_⟩
          simp only [dnpCell, if_neg h0, if_pos h3, if_pos hg, if_neg hw]
          rcases bit_candidates_cases hmem with
            ⟨hc, hb⟩ | ⟨hc, hb⟩ | ⟨hc, hb⟩ | ⟨hc, hb⟩ <;> rw [hc]
          · rw [dnp_w_bit1] at hb
            have hcond : ¬(y = 0 ∨ gget g (y - 1) x &&& 0xc = 0xc) := by
              intro hor
              rw [if_pos hor] at hb
              exact hb rfl
            push_neg at hcond
            exact Or.inl ⟨rfl, hcond.1, hcond.2⟩
          · rw [dnp_w_bit2] at hb
            have hcond : ¬(x = (g.getD 0 []).length - 1 ∨
                gget g y (x + 1) &&& 0xc = 0xc) := by
              intro hor
              rw [if_pos hor] at hb
              exact hb rfl
            push_neg at hcond
            exact Or.inr (Or.inl ⟨rfl, hcond.1, hcond.2⟩)
          · rw [dnp_w_bit4] at hb
            have hcond : ¬(y = g.length - 1 ∨
                gget g (y + 1) x &&& 0xc = 0xc) := by
              intro hor
              rw [if_pos hor] at hb
              exact hb rfl
            push_neg at hcond
            exact Or.inr (Or.inr (Or.inl ⟨rfl, hcond.1, hcond.2⟩))
          · rw [dnp_w_bit8] at hb
            have hcond : ¬(x = 0 ∨ gget g y (x - 1) &&& 0xc = 0xc) := by
              intro hor
              rw [if_pos hor] at hb
              exact hb rfl
            push_neg at hcond
            exact Or.inr (Or.inr (Or.inr ⟨rfl, hcond.1, hcond.2⟩))
      · refine Or.inl ?_
        simp only [dnpCell, if_neg h0, if_pos h3, if_neg hg]
    · refine Or.inl ?_
      simp only [dnpCell, if_neg h0, if_neg h3]

theorem DnpSound_clearBit1 {g : Grid} {cy cx : Nat} (hy0 : cy ≠ 0)
    (hp1 : gget g cy cx &&& 0xc ≠ 0xc)
    (hp2 : gget g (cy - 1) cx &&& 0xc ≠ 0xc) :
    DnpSound g (clearBit g cy cx 0xfffe) := by
  refine ⟨length_setCell _ _ _ _, length_row0_setCell _ _ _ _, ?_⟩
  intro y' x'
  by_cases hpos : y' = cy ∧ x' = cx
  · obtain ⟨e1, e2⟩ := hpos
    subst e1
    subst e2
    rcases gget_setCell_cases g y' x' (gget g y' x' &&& 0xfffe) with hv | hv
    · rw [show gget (clearBit g y' x' 0xfffe) y' x' =
        gget g y' x' &&& 0xfffe from hv]
      refine ⟨land_land _ _ _ (by decide), ?_, ?_⟩
      · exact Or.inr ⟨land_land_zero _ _ _ (by decide), hy0, hp1, hp2⟩
      · exact Or.inl (land_land _ _ _ (by decide))
    · rw [show gget (clearBit g y' x' 0xfffe) y' x' = gget g y' x' from hv]
      exact ⟨rfl, Or.inl rfl, Or.inl rfl⟩
  · rw [show clearBit g cy cx 0xfffe =
      setCell g cy cx (gget g cy cx &&& 0xfffe) from rfl,
      gget_setCell_ne _ _ _ _ _ (ne_split hpos)]
    exact ⟨rfl, Or.inl rfl, Or.inl rfl⟩

theorem DnpSound_clearBit2 {g : Grid} {cy cx : Nat}
    (hxw : cx ≠ (g.getD 0 []).length - 1)
    (hp1 : gget g cy cx &&& 0xc ≠ 0xc)
    (hp2 : gget g cy (cx + 1) &&& 0xc ≠ 0xc) :
    DnpSound g (clearBit g cy cx 0xfffd) := by
  refine ⟨length_setCell _ _ _ _, length_row0_setCell _ _ _ _, ?_⟩
  intro y' x'
  by_cases hpos : y' = cy ∧ x' = cx
  · obtain ⟨e1, e2⟩ := hpos
    subst e1
    subst e2
    rcases gget_setCell_cases g y' x' (gget g y' x' &&& 0xfffd) with hv | hv
    · rw [show gget (clearBit g y' x' 0xfffd) y' x' =
        gget g y' x' &&& 0xfffd from hv]
      refine ⟨land_land _ _ _ (by decide), ?_, ?_⟩
      · exact Or.inl (land_land _ _ _ (by decide))
      · exact Or.inr ⟨land_land_zero _ _ _ (by decide), hxw, hp1, hp2⟩
    · rw [show gget (clearBit g y' x' 0xfffd) y' x' = gget g y' x' from hv]
      exact ⟨rfl, Or.inl rfl, Or.inl rfl⟩
  · rw [show clearBit g cy cx 0xfffd =
      setCell g cy cx (gget g cy cx &&& 0xfffd) from rfl,
      gget_setCell_ne _ _ _ _ _ (ne_split hpos)]
    exact ⟨rfl, Or.inl rfl, Or.inl rfl⟩

/-- One dnpCell application is sound with respect to its input grid. -/
theorem dnpCell_sound (g : Grid) (pr : Nat) (r : Rng) (y x : Nat)
    (hx : x < (g.getD 0 []).length) :
    DnpSound g (dnpCell g pr r y x).1 := by
  rcases dnpCell_cases g pr r y x with he | ⟨h0, hcase⟩
  · rw [he]
    exact DnpSound_refl g
  rcases hcase with ⟨he, hy0, hp⟩ | ⟨he, hxw, hp⟩ | ⟨he, hyh, hp⟩ |
    ⟨he, hx0, hp⟩ <;> rw [he]
  · exact DnpSound_clearBit1 hy0 (by omega) hp
  · exact DnpSound_clearBit2 hxw (by omega) hp
  · refine DnpSound_clearBit1 (by omega) hp ?_
    have hyy : y + 1 - 1 = y := rfl
    rw [hyy]
    omega
  · refine DnpSound_clearBit2 (by omega) hp ?_
    have hxx : x - 1 + 1 = x := by omega
    rw [hxx]
    omega
theorem dnp_inner_fold_sound (g0 : Grid) (pr y : Nat) :
    ∀ (xs : List Nat) (st : Grid × Rng),
      (∀ x ∈ xs, x < (g0.getD 0 []).length) →
      DnpSound g0 st.1 →
      DnpSound g0
        ((xs.foldl (fun st2 x => dnpCell st2.1 pr st2.2 y x) st)).1 := by
  intro xs
  induction xs with
  | nil =>
    intro st _ h
    exact h
  | cons a t ih =>
    intro st hxs h
    have hxa : a < (st.1.getD 0 []).length := by
      have := hxs a (List.mem_cons_self _ _)
      have := h.2.1
      omega
    have hstep := dnpCell_sound st.1 pr st.2 y a hxa
    exact ih (dnpCell st.1 pr st.2 y a)
      (fun x hx => hxs x (List.mem_cons_of_mem _ hx))
      (DnpSound_trans h hstep)

theorem dnp_outer_fold_sound (g0 : Grid) (pr : Nat) :
    ∀ (ys : List Nat) (st : Grid × Rng),
      DnpSound g0 st.1 →
      DnpSound g0
        ((ys.foldl (fun st y =>
          (List.range (g0.getD 0 []).length).foldl
            (fun st2 x => dnpCell st2.1 pr st2.2 y x) st) st)).1 := by
  intro ys
  induction ys with
  | nil =>
    intro st h
    exact h
  | cons a t ih =>
    intro st h
    exact ih _ (dnp_inner_fold_sound g0 pr a _ _
      (fun x hx => List.mem_range.mp hx) h)

/-- The whole imperfection pass is sound with respect to its input. -/
theorem do_not_prefect_sound (maze : Grid) (p : CMazeParams) (r : Rng) :
    DnpSound maze (do_not_prefect maze p r).1 := by
  simp only [do_not_prefect]
  split_ifs with hpr
  · exact DnpSound_refl maze
  · exact dnp_outer_fold_sound maze p.probability_to_del_dead_end
      (List.range maze.length) (maze, r) (DnpSound_refl maze)

/-! ## The animated injector -/

/-- One scanned cell of do_not_prefect_animated: the same body as dnpCell,
plus the yielded redraw box whenever a wall was chosen. -/
def dnpCell_animated (maze : Grid) (pr : Nat) (r : Rng) (y x : Nat) :
    (Grid × Rng) × Option Box :=
  if gget maze y x &&& 0xc ≠ 0 then ((maze, r), none)
  else if (bit_candidates (dnp_veff maze y x)).length = 3 then
    let gate := if pr ≥ 100 then (true, r) else rbelow pr r
    if gate.1 then
      let w4 := dnp_w maze y x
      if w4 = 0 then ((maze, gate.2), none)
      else
        let c := rchoice (bit_candidates w4) gate.2
        ((match c.1 with
          | 1 => (clearBit maze y x 0xfffe, c.2)
          | 2 => (clearBit maze y x 0xfffd, c.2)
          | 4 => (clearBit maze (y + 1) x 0xfffe, c.2)
          | 8 => (clearBit maze y (x - 1) 0xfffd, c.2)
          | _ => (maze, c.2)),
          some ((x : Int) - 1, (y : Int) - 1, (x : Int) + 1, (y : Int) + 1))
    else ((maze, gate.2), none)
  else ((maze, r), none)

/-- MazeGenerator.do_not_prefect_animated: the same pass, collecting the
yielded boxes, with the terminal None (absent when the pass is skipped, as
the source returns before any yield). -/
def do_not_prefect_animated (maze : Grid) (p : CMazeParams) (r : Rng) :
    (Grid × Rng) × List (Option Box) :=
  let pr := p.probability_to_del_dead_end
  if pr ≤ 0 then ((maze, r), [])
  else
    let res := (List.range maze.length).foldl
      (fun st y =>
        (List.range (maze.getD 0 []).length).foldl
          (fun st2 x =>
            let q := dnpCell_animated st2.1.1 pr st2.1.2 y x
            (q.1, match q.2 with
                  | some b => st2.2 ++ [some b]
                  | none => st2.2))
          st)
      ((maze, r), [])
    (res.1, res.2 ++ [none])

theorem dnpCell_animated_fst (g : Grid) (pr : Nat) (r : Rng) (y x : Nat) :
    (dnpCell_animated g pr r y x).1 = dnpCell g pr r y x := by
  simp only [dnpCell_animated, dnpCell]
  split_ifs <;> rfl

theorem dnp_anim_inner_fst (pr y : Nat) :
    ∀ (xs : List Nat) (st : (Grid × Rng) × List (Option Box)),
      (xs.foldl (fun st2 x =>
        ((dnpCell_animated st2.1.1 pr st2.1.2 y x).1,
          match (dnpCell_animated st2.1.1 pr st2.1.2 y x).2 with
          | some b => st2.2 ++ [some b]
          | none => st2.2)) st).1 =
      xs.foldl (fun st2 x => dnpCell st2.1 pr st2.2 y x) st.1 := by
  intro xs
  induction xs with
  | nil =>
    intro st
    rfl
  | cons a t ih =>
    intro st
    rw [List.foldl_cons, List.foldl_cons, ih, dnpCell_animated_fst]

theorem dnp_anim_outer_fst (g0 : Grid) (pr : Nat) :
    ∀ (ys : List Nat) (st : (Grid × Rng) × List (Option Box)),
      (ys.foldl (fun st y =>
        (List.range (g0.getD 0 []).length).foldl
          (fun st2 x =>
            ((dnpCell_animated st2.1.1 pr st2.1.2 y x).1,
              match (dnpCell_animated st2.1.1 pr st2.1.2 y x).2 with
              | some b => st2.2 ++ [some b]
              | none => st2.2)) st) st).1 =
      ys.foldl (fun st y =>
        (List.range (g0.getD 0 []).length).foldl
          (fun st2 x => dnpCell st2.1 pr st2.2 y x) st) st.1 := by
  intro ys
  induction ys with
  | nil =>
    intro st
    rfl
  | cons a t ih =>
    intro st
    rw [List.foldl_cons, List.foldl_cons, ih, dnp_anim_inner_fst]

/-- The animated injector modifies the grid exactly as the plain one. -/
theorem do_not_prefect_animated_fst (maze : Grid) (p : CMazeParams)
    (r : Rng) :
    (do_not_prefect_animated maze p r).1 = do_not_prefect maze p r := by
  simp only [do_not_prefect_animated, do_not_prefect]
  split_ifs with hpr
  · rfl
  · exact dnp_anim_outer_fst maze p.probability_to_del_dead_end
      (List.range maze.length) ((maze, r), [])

/-- C5: the imperfection injector only clears wall bits (shape and all
bits above the wall bits preserved; a changed wall bit is cleared, is not
a grid-boundary wall, and both sides of the opened passage are
pattern-free), so openness only grows and connectivity of the input is
preserved; the animated variant performs the identical grid updates. -/
theorem claim_C5_injector_sound (maze : Grid) (p : CMazeParams) (r : Rng) :
    DnpSound maze (do_not_prefect maze p r).1 ∧
      OpenLe maze (do_not_prefect maze p r).1 ∧
      (∀ w h a b, Reach maze w h a b →
        Reach (do_not_prefect maze p r).1 w h a b) ∧
      (do_not_prefect_animated maze p r).1 = do_not_prefect maze p r := by
  have hs := do_not_prefect_sound maze p r
  exact ⟨hs, DnpSound_openLe hs,
    fun w h a b hr => Reach_mono (DnpSound_openLe hs) hr,
    do_not_prefect_animated_fst maze p r⟩
/-! ## Path finder: find_path_BFS -/

/-- The search state of find_path_BFS: the grid (never written), the
double-ended queue (head = front), the visited set and the parent map
(new entries at the head; a key is inserted at most once). -/
structure BfsState where
  maze : Grid
  queue : List (Nat × Nat)
  visited : List (Nat × Nat)
  parent : List ((Nat × Nat) × (Nat × Nat))

/-- Parent-map lookup (Python dict indexing; keys are unique). -/
def plookup (ps : List ((Nat × Nat) × (Nat × Nat))) (c : Nat × Nat) :
    Nat × Nat :=
  match ps.find? (fun q => decide (q.1 = c)) with
  | some q => q.2
  | none => (0, 0)

/-- The path-reconstruction loop of find_path_BFS, fuel-bounded: walk up
the parent chain until the start (the source's while loop terminates
because every recorded parent was discovered strictly earlier). -/
def reconstruct (ps : List ((Nat × Nat) × (Nat × Nat)))
    (start : Nat × Nat) : Nat → (Nat × Nat) → List (Nat × Nat)
  | 0, _ => []
  | fuel + 1, c =>
    if c = start then [start]
    else c :: reconstruct ps start fuel (plookup ps c)

/-- The derived-left-wall test of find_path_BFS (cell |= 8). -/
def bfs_or8 (g : Grid) (x y c : Nat) : Nat :=
  if x = 0 ∨ gget g y (x - 1) &&& 2 ≠ 0 then c ||| 8 else c

/-- The derived-bottom-wall test of find_path_BFS (cell |= 4). -/
def bfs_or4 (g : Grid) (h x y c : Nat) : Nat :=
  if h - 1 ≤ y ∨ gget g (y + 1) x &&& 1 ≠ 0 then c ||| 4 else c

/-- The top-boundary test of find_path_BFS (cell |= 1). -/
def bfs_or1 (y c : Nat) : Nat := if y = 0 then c ||| 1 else c

/-- The right-boundary test of find_path_BFS (cell |= 2). -/
def bfs_or2 (w x c : Nat) : Nat := if w - 1 ≤ x then c ||| 2 else c

/-- The effective wall set computed for the popped cell, in source
order. -/
def bfs_cell (g : Grid) (w h x y : Nat) : Nat :=
  bfs_or2 w x (bfs_or1 y (bfs_or4 g h x y (bfs_or8 g x y
    (gget g y x &&& 3))))

/-- One neighbour attempt of find_path_BFS: when the wall is open, the
move stays in bounds and the neighbour is unvisited, mark it visited,
record its parent and enqueue it. -/
def bfs_push (ok : Prop) [Decidable ok] (st : BfsState)
    (cur n : Nat × Nat) : BfsState :=
  if ok ∧ n ∉ st.visited then
    { st with
      visited := n :: st.visited
      parent := (n, cur) :: st.parent
      queue := st.queue ++ [n] }
  else st

/-- One iteration of the find_path_BFS while loop: pop the front cell,
return the reconstructed path when it is the exit, otherwise enqueue the
unvisited reachable neighbours in the order top, right, bottom, left
(coordinates are naturals, so the source's 0 <= y-1 bound reads 1 <= y). -/
def bfs_step (width height : Nat) (start fin : Nat × Nat)
    (st : BfsState) : BfsState ⊕ List (Nat × Nat) :=
  match st.queue with
  | [] => Sum.inr []
  | (x, y) :: qrest =>
    if (x, y) = fin then
      Sum.inr (reconstruct st.parent start (st.parent.length + 1)
        (x, y)).reverse
    else
      let cell := bfs_cell st.maze width height x y
      Sum.inl
        (bfs_push (cell &&& 8 = 0 ∧ 1 ≤ x ∧ x - 1 < width)
          (bfs_push (cell &&& 4 = 0 ∧ y + 1 < height)
            (bfs_push (cell &&& 2 = 0 ∧ x + 1 < width)
              (bfs_push (cell &&& 1 = 0 ∧ 1 ≤ y ∧ y - 1 < height)
                { st with queue := qrest } (x, y) (x, y - 1))
              (x, y) (x + 1, y))
            (x, y) (x, y + 1))
          (x, y) (x - 1, y))

theorem bfs_push_maze (ok : Prop) [Decidable ok] (st : BfsState)
    (cur n : Nat × Nat) : (bfs_push ok st cur n).maze = st.maze := by
  unfold bfs_push
  split_ifs <;> rfl

/-- Run the find_path_BFS loop for at most fuel iterations, returning the
final state and the return value once the loop exits. -/
def find_path_BFS_run (width height : Nat) (start fin : Nat × Nat) :
    Nat → BfsState → BfsState × Option (List (Nat × Nat))
  | 0, st => (st, none)
  | fuel + 1, st =>
    match bfs_step width height start fin st with
    | Sum.inr path => (st, some path)
    | Sum.inl st' => find_path_BFS_run width height start fin fuel st'

/-- MazeGenerator.find_path_BFS: height and width from the grid, the
queue and visited set seeded with the entry, an empty parent map. -/
def find_path_BFS (maze : Grid) (p : CMazeParams) (fuel : Nat) :
    BfsState × Option (List (Nat × Nat)) :=
  find_path_BFS_run (maze.getD 0 []).length maze.length p.entry p.exit
    fuel ⟨maze, [p.entry], [p.entry], []⟩

theorem bfs_step_inl_maze {width height : Nat} {start fin : Nat × Nat}
    {st st' : BfsState}
    (h : bfs_step width height start fin st = Sum.inl st') :
    st'.maze = st.maze := by
  obtain ⟨m, q, v, ps⟩ := st
  cases q with
  | nil => cases h
  | cons c qrest =>
    obtain ⟨x, y⟩ := c
    simp only [bfs_step] at h
    split_ifs at h
    all_goals cases h <;> simp [bfs_push_maze]

theorem find_path_BFS_run_maze (width height : Nat)
    (start fin : Nat × Nat) :
    ∀ fuel st,
      (find_path_BFS_run width height start fin fuel st).1.maze =
        st.maze := by
  intro fuel
  induction fuel with
  | zero =>
    intro st
    rfl
  | succ fuel ih =>
    intro st
    unfold find_path_BFS_run
    cases hstep : bfs_step width height start fin st with
    | inr path => rfl
    | inl st' =>
      simp only [hstep]
      rw [ih st', bfs_step_inl_maze hstep]

/-- C10: find_path_BFS keeps every cell of the grid intact: the search
state's grid after any number of loop iterations is the input grid. -/
theorem claim_C10_bfs_grid_unchanged (maze : Grid) (p : CMazeParams)
    (fuel : Nat) : (find_path_BFS maze p fuel).1.maze = maze := by
  unfold find_path_BFS
  exact find_path_BFS_run_maze _ _ _ _ fuel _
/-! ## C2 helpers: validity of BFS results -/

/-- A valid finder result: starts at the entry, ends at the exit, and each
consecutive pair is one open move (grid-adjacent, distinct, and the wall
owning the edge between them is clear). -/
def ValidPath (g : Grid) (w h : Nat) (entry fin : Nat × Nat)
    (path : List (Nat × Nat)) : Prop :=
  path.head? = some entry ∧ path.getLast? = some fin ∧
    ∀ i, i < path.length - 1 →
      openStep g w h (path.getD i (0, 0)) (path.getD (i + 1) (0, 0))

/-- Consecutive elements are open moves. -/
def StepOk (g : Grid) (w h : Nat) : List (Nat × Nat) → Prop
  | [] => True
  | [_] => True
  | a :: b :: t => openStep g w h a b ∧ StepOk g w h (b :: t)

theorem StepOk_getD {g : Grid} {w h : Nat} :
    ∀ L, StepOk g w h L → ∀ i, i < L.length - 1 →
      openStep g w h (L.getD i (0, 0)) (L.getD (i + 1) (0, 0)) := by
  intro L
  induction L with
  | nil =>
    intro _ i hi
    simp at hi
  | cons a t ih =>
    intro hs i hi
    cases t with
    | nil => simp at hi
    | cons b t2 =>
      cases i with
      | zero => exact hs.1
      | succ j =>
        refine ih hs.2 j ?_
        simp only [List.length_cons] at hi ⊢
        omega

theorem StepOk_append_last {g : Grid} {w h : Nat} :
    ∀ (M : List (Nat × Nat)) (p c : Nat × Nat), StepOk g w h M →
      M.getLast? = some p → openStep g w h p c →
      StepOk g w h (M ++ [c]) := by
  intro M
  induction M with
  | nil =>
    intro p c _ hl _
    cases hl
  | cons a t ih =>
    intro p c hs hl hop
    cases t with
    | nil =>
      have hap : a = p := Option.some.inj hl
      exact ⟨hap ▸ hop, trivial⟩
    | cons b t2 =>
      refine ⟨hs.1, ih p c hs.2 ?_ hop⟩
      rw [← hl]
      exact (List.getLast?_cons_cons).symm

/-- A backward chain from a cell to the start along the parent map: each
element is the recorded parent of its predecessor and each recorded edge
is an open move from parent to child. -/
def IsChain (g : Grid) (w h : Nat) (start : Nat × Nat)
    (ps : List ((Nat × Nat) × (Nat × Nat))) :
    List (Nat × Nat) → Prop
  | [] => False
  | [c] => c = start
  | c :: p :: t => c ≠ start ∧ plookup ps c = p ∧ openStep g w h p c ∧
      IsChain g w h start ps (p :: t)

theorem IsChain_getLast {g : Grid} {w h : Nat} {start : Nat × Nat}
    {ps : List ((Nat × Nat) × (Nat × Nat))} :
    ∀ L, IsChain g w h start ps L → L.getLast? = some start := by
  intro L
  induction L with
  | nil =>
    intro hch
    exact absurd hch id
  | cons a t ih =>
    intro hch
    cases t with
    | nil =>
      have : a = start := hch
      rw [this]
      rfl
    | cons p t2 =>
      rw [List.getLast?_cons_cons]
      exact ih hch.2.2.2

theorem IsChain_reverse_stepok {g : Grid} {w h : Nat} {start : Nat × Nat}
    {ps : List ((Nat × Nat) × (Nat × Nat))} :
    ∀ L, IsChain g w h start ps L → StepOk g w h L.reverse := by
  intro L
  induction L with
  | nil =>
    intro hch
    exact absurd hch id
  | cons a t ih =>
    intro hch
    cases t with
    | nil => exact trivial
    | cons p t2 =>
      obtain ⟨hne, hlk, hop, hch2⟩ := hch
      rw [List.reverse_cons]
      refine StepOk_append_last _ p a (ih hch2) ?_ hop
      rw [List.getLast?_reverse]
      rfl

theorem plookup_cons_self (ps : List ((Nat × Nat) × (Nat × Nat)))
    (n p : Nat × Nat) : plookup ((n, p) :: ps) n = p := by
  unfold plookup
  rw [List.find?_cons_of_pos _ (by simp)]

theorem plookup_cons_ne (ps : List ((Nat × Nat) × (Nat × Nat)))
    (pr : (Nat × Nat) × (Nat × Nat)) (c : Nat × Nat) (hne : pr.1 ≠ c) :
    plookup (pr :: ps) c = plookup ps c := by
  unfold plookup
  rw [List.find?_cons_of_neg _ (by simpa using hne)]

/-- Chains are stable under recording a fresh key. -/
theorem IsChain_push {g : Grid} {w h : Nat} {start : Nat × Nat}
    {ps : List ((Nat × Nat) × (Nat × Nat))}
    (pr : (Nat × Nat) × (Nat × Nat)) :
    ∀ L, IsChain g w h start ps L → pr.1 ∉ L →
      IsChain g w h start (pr :: ps) L := by
  intro L
  induction L with
  | nil =>
    intro hch _
    exact hch
  | cons a t ih =>
    intro hch hnot
    cases t with
    | nil => exact hch
    | cons p t2 =>
      obtain ⟨hne, hlk, hop, hch2⟩ := hch
      refine ⟨hne, ?_, hop,
        ih hch2 (fun hm => hnot (List.mem_cons_of_mem _ hm))⟩
      rw [plookup_cons_ne ps pr a
        (fun he => hnot (he ▸ List.mem_cons_self _ _))]
      exact hlk

/-- A chain is exactly what the reconstruction loop rebuilds, given enough
fuel. -/
theorem reconstruct_of_chain {g : Grid} {w h : Nat} {start : Nat × Nat}
    {ps : List ((Nat × Nat) × (Nat × Nat))} :
    ∀ (L : List (Nat × Nat)) (c : Nat × Nat) (fuel : Nat),
      IsChain g w h start ps L → L.head? = some c → L.length ≤ fuel →
      reconstruct ps start fuel c = L := by
  intro L
  induction L with
  | nil =>
    intro c fuel hch
    exact absurd hch id
  | cons a t ih =>
    intro c fuel hch hhead hlen
    have hac : a = c := Option.some.inj hhead
    subst hac
    cases t with
    | nil =>
      have hstart : a = start := hch
      cases fuel with
      | zero => simp at hlen
      | succ f =>
        unfold reconstruct
        rw [if_pos hstart, hstart]
    | cons p t2 =>
      obtain ⟨hne, hlk, hop, hch2⟩ := hch
      cases fuel with
      | zero => simp at hlen
      | succ f =>
        unfold reconstruct
        rw [if_neg hne, hlk]
        rw [ih p f hch2 rfl (by
          simp only [List.length_cons] at hlen ⊢
          omega)]
theorem land_lor_self (a b : Nat) : a &&& (a ||| b) = a := by
  apply Nat.eq_of_testBit_eq
  intro i
  simp only [Nat.testBit_and, Nat.testBit_or]
  cases a.testBit i <;> cases b.testBit i <;> rfl

theorem lor_zero_right {a b : Nat} (h : a ||| b = 0) : b = 0 := by
  have hb : b &&& (b ||| a) = b := land_lor_self b a
  rw [Nat.or_comm] at h
  rw [h, Nat.and_zero] at hb
  exact hb.symm

theorem bfs_or8_other (g : Grid) (x y c m : Nat) (hm : 8 &&& m = 0) :
    bfs_or8 g x y c &&& m = c &&& m := by
  unfold bfs_or8
  split_ifs with hif
  · rw [lor_land, hm, Nat.or_zero]
  · rfl

theorem bfs_or4_other (g : Grid) (h x y c m : Nat) (hm : 4 &&& m = 0) :
    bfs_or4 g h x y c &&& m = c &&& m := by
  unfold bfs_or4
  split_ifs with hif
  · rw [lor_land, hm, Nat.or_zero]
  · rfl

theorem bfs_or1_other (y c m : Nat) (hm : 1 &&& m = 0) :
    bfs_or1 y c &&& m = c &&& m := by
  unfold bfs_or1
  split_ifs with hif
  · rw [lor_land, hm, Nat.or_zero]
  · rfl

theorem bfs_or2_other (w x c m : Nat) (hm : 2 &&& m = 0) :
    bfs_or2 w x c &&& m = c &&& m := by
  unfold bfs_or2
  split_ifs with hif
  · rw [lor_land, hm, Nat.or_zero]
  · rfl

/-- A clear top bit in the effective wall set means the cell's stored top
wall is open. -/
theorem bfs_cell_open_top {g : Grid} {w h x y : Nat}
    (hc : bfs_cell g w h x y &&& 1 = 0) : gget g y x &&& 1 = 0 := by
  unfold bfs_cell at hc
  rw [bfs_or2_other _ _ _ 1 (by decide)] at hc
  unfold bfs_or1 at hc
  split_ifs at hc with h0
  · rw [lor_land] at hc
    exact absurd (lor_zero_right hc) (by decide)
  · rw [bfs_or4_other _ _ _ _ _ 1 (by decide),
      bfs_or8_other _ _ _ _ 1 (by decide), Nat.and_assoc] at hc
    have h31 : (3 : Nat) &&& 1 = 1 := by decide
    rw [h31] at hc
    exact hc

/-- A clear right bit in the effective wall set means the cell's stored
right wall is open. -/
theorem bfs_cell_open_right {g : Grid} {w h x y : Nat}
    (hc : bfs_cell g w h x y &&& 2 = 0) : gget g y x &&& 2 = 0 := by
  unfold bfs_cell at hc
  unfold bfs_or2 at hc
  split_ifs at hc with h0
  · rw [lor_land] at hc
    exact absurd (lor_zero_right hc) (by decide)
  · rw [bfs_or1_other _ _ 2 (by decide), bfs_or4_other _ _ _ _ _ 2 (by decide),
      bfs_or8_other _ _ _ _ 2 (by decide), Nat.and_assoc] at hc
    have h32 : (3 : Nat) &&& 2 = 2 := by decide
    rw [h32] at hc
    exact hc

/-- A clear bottom bit means the lower neighbour's top wall is open. -/
theorem bfs_cell_open_bottom {g : Grid} {w h x y : Nat}
    (hc : bfs_cell g w h x y &&& 4 = 0) : gget g (y + 1) x &&& 1 = 0 := by
  unfold bfs_cell at hc
  rw [bfs_or2_other _ _ _ 4 (by decide), bfs_or1_other _ _ 4 (by decide)] at hc
  unfold bfs_or4 at hc
  split_ifs at hc with h0
  · rw [lor_land] at hc
    exact absurd (lor_zero_right hc) (by decide)
  · push_neg at h0
    exact h0.2

/-- A clear left bit means the left neighbour's right wall is open. -/
theorem bfs_cell_open_left {g : Grid} {w h x y : Nat}
    (hc : bfs_cell g w h x y &&& 8 = 0) : gget g y (x - 1) &&& 2 = 0 := by
  unfold bfs_cell at hc
  rw [bfs_or2_other _ _ _ 8 (by decide), bfs_or1_other _ _ 8 (by decide),
    bfs_or4_other _ _ _ _ _ 8 (by decide)] at hc
  unfold bfs_or8 at hc
  split_ifs at hc with h0
  · rw [lor_land] at hc
    exact absurd (lor_zero_right hc) (by decide)
  · push_neg at h0
    exact h0.2

/-- The find_path_BFS loop invariant: the grid is the input grid, the
start is visited, queued cells are visited, visited cells are in bounds,
and every visited cell has a recorded open backward chain to the start. -/
def BfsInv (g : Grid) (w h : Nat) (start : Nat × Nat) (st : BfsState) :
    Prop :=
  st.maze = g ∧ start ∈ st.visited ∧
    (∀ c ∈ st.queue, c ∈ st.visited) ∧
    (∀ c ∈ st.visited, c.1 < w ∧ c.2 < h) ∧
    (∀ c ∈ st.visited, ∃ L, L.head? = some c ∧
      IsChain g w h start st.parent L ∧ (∀ d ∈ L, d ∈ st.visited) ∧
      L.length ≤ st.parent.length + 1)

theorem bfs_push_vis_mono (ok : Prop) [Decidable ok] (st : BfsState)
    (cur n : Nat × Nat) {c : Nat × Nat} (hc : c ∈ st.visited) :
    c ∈ (bfs_push ok st cur n).visited := by
  unfold bfs_push
  split_ifs with hif
  · exact List.mem_cons_of_mem _ hc
  · exact hc

theorem bfs_push_inv {g : Grid} {w h : Nat} {start cur n : Nat × Nat}
    {st : BfsState} (ok : Prop) [Decidable ok]
    (hinv : BfsInv g w h start st)
    (hcur : cur ∈ st.visited)
    (hok : ok → n.1 < w ∧ n.2 < h ∧ openStep g w h cur n) :
    BfsInv g w h start (bfs_push ok st cur n) := by
  unfold bfs_push
  split_ifs with hif
  · obtain ⟨hok1, hnvis⟩ := hif
    obtain ⟨hn1, hn2, hop⟩ := hok hok1
    obtain ⟨hm, hstart, hq, hb, hch⟩ := hinv
    refine ⟨hm, List.mem_cons_of_mem _ hstart, ?_, ?_, ?_⟩
    · intro c hc
      rcases List.mem_append.mp hc with hc1 | hc2
      · exact List.mem_cons_of_mem _ (hq c hc1)
      · rw [List.mem_singleton.mp hc2]
        exact List.mem_cons_self _ _
    · intro c hc
      rcases List.mem_cons.mp hc with hc1 | hc2
      · rw [hc1]
        exact ⟨hn1, hn2⟩
      · exact hb c hc2
    · intro c hc
      rcases List.mem_cons.mp hc with hc1 | hc2
      · obtain ⟨Lc, hLhead, hLch, hLmem, hLlen⟩ := hch cur hcur
        refine ⟨n :: Lc, by rw [hc1]; rfl, ?_, ?_, ?_⟩
        · have hn_start : n ≠ start := fun he => hnvis (he ▸ hstart)
          have hLch2 : IsChain g w h start ((n, cur) :: st.parent) Lc :=
            IsChain_push _ Lc hLch (fun hm2 => hnvis (hLmem n hm2))
          cases Lc with
          | nil => exact absurd hLch id
          | cons a rest =>
            have hac : a = cur := Option.some.inj hLhead
            subst hac
            exact ⟨hn_start, plookup_cons_self _ _ _, hop, hLch2⟩
        · intro d hd
          rcases List.mem_cons.mp hd with hd1 | hd2
          · rw [hd1]
            exact List.mem_cons_self _ _
          · exact List.mem_cons_of_mem _ (hLmem d hd2)
        · simp only [List.length_cons]
          omega
      · obtain ⟨Lc, hLhead, hLch, hLmem, hLlen⟩ := hch c hc2
        refine ⟨Lc, hLhead, ?_, ?_, ?_⟩
        · exact IsChain_push _ Lc hLch (fun hm2 => hnvis (hLmem n hm2))
        · exact fun d hd => List.mem_cons_of_mem _ (hLmem d hd)
        · simp only [List.length_cons]
          omega
  · exact hinv
/-- One loop iteration preserves the invariant when it continues. -/
theorem bfs_step_inv {width height : Nat} {g : Grid}
    {start fin : Nat × Nat} {st st' : BfsState}
    (hinv : BfsInv g width height start st)
    (hstep : bfs_step width height start fin st = Sum.inl st') :
    BfsInv g width height start st' := by
  obtain ⟨m, q, v, ps⟩ := st
  cases q with
  | nil => cases hstep
  | cons c0 qrest =>
    obtain ⟨x, y⟩ := c0
    have hxy_vis : (x, y) ∈ v :=
      hinv.2.2.1 (x, y) (List.mem_cons_self _ _)
    have hxy_inb := hinv.2.2.2.1 (x, y) hxy_vis
    have hx : x < width := hxy_inb.1
    have hy : y < height := hxy_inb.2
    have hinv0 : BfsInv g width height start ⟨m, qrest, v, ps⟩ := by
      obtain ⟨h1, h2, h3, h4, h5⟩ := hinv
      exact ⟨h1, h2, fun c hc => h3 c (List.mem_cons_of_mem _ hc), h4, h5⟩
    have hmg : m = g := hinv.1
    subst hmg
    have htop : (bfs_cell m width height x y &&& 1 = 0 ∧ 1 ≤ y ∧
        y - 1 < height) → (x, y - 1).1 < width ∧ (x, y - 1).2 < height ∧
        openStep m width height (x, y) (x, y - 1) := by
      rintro ⟨hb1, hy1, hyh⟩
      exact ⟨hx, hyh, hx, hy, hx, hyh, Or.inr (Or.inr (Or.inr
        ⟨by show y = y - 1 + 1; omega, rfl, bfs_cell_open_top hb1⟩))⟩
    have hright : (bfs_cell m width height x y &&& 2 = 0 ∧
        x + 1 < width) → (x + 1, y).1 < width ∧ (x + 1, y).2 < height ∧
        openStep m width height (x, y) (x + 1, y) := by
      rintro ⟨hb2, hxw⟩
      exact ⟨hxw, hy, hx, hy, hxw, hy, Or.inl
        ⟨rfl, rfl, bfs_cell_open_right hb2⟩⟩
    have hbot : (bfs_cell m width height x y &&& 4 = 0 ∧
        y + 1 < height) → (x, y + 1).1 < width ∧ (x, y + 1).2 < height ∧
        openStep m width height (x, y) (x, y + 1) := by
      rintro ⟨hb4, hyh⟩
      exact ⟨hx, hyh, hx, hy, hx, hyh, Or.inr (Or.inr (Or.inl
        ⟨rfl, rfl, bfs_cell_open_bottom hb4⟩))⟩
    have hleft : (bfs_cell m width height x y &&& 8 = 0 ∧ 1 ≤ x ∧
        x - 1 < width) → (x - 1, y).1 < width ∧ (x - 1, y).2 < height ∧
        openStep m width height (x, y) (x - 1, y) := by
      rintro ⟨hb8, hx1, hxw⟩
      exact ⟨hxw, hy, hx, hy, hxw, hy, Or.inr (Or.inl
        ⟨by show x = x - 1 + 1; omega, rfl, bfs_cell_open_left hb8⟩)⟩
    have hinv1 := bfs_push_inv
      (bfs_cell m width height x y &&& 1 = 0 ∧ 1 ≤ y ∧ y - 1 < height)
      hinv0 hxy_vis htop
    have hinv2 := bfs_push_inv
      (bfs_cell m width height x y &&& 2 = 0 ∧ x + 1 < width)
      hinv1 (bfs_push_vis_mono _ _ _ _ hxy_vis) hright
    have hinv3 := bfs_push_inv
      (bfs_cell m width height x y &&& 4 = 0 ∧ y + 1 < height)
      hinv2 (bfs_push_vis_mono _ _ _ _ (bfs_push_vis_mono _ _ _ _ hxy_vis))
      hbot
    have hinv4 := bfs_push_inv
      (bfs_cell m width height x y &&& 8 = 0 ∧ 1 ≤ x ∧ x - 1 < width)
      hinv3 (bfs_push_vis_mono _ _ _ _ (bfs_push_vis_mono _ _ _ _
        (bfs_push_vis_mono _ _ _ _ hxy_vis))) hleft
    simp only [bfs_step] at hstep
    split_ifs at hstep
    all_goals cases hstep <;> exact hinv4

/-- The shape of a returned value of one loop iteration. -/
theorem bfs_step_inr {width height : Nat} {start fin : Nat × Nat}
    {st : BfsState} {p : List (Nat × Nat)}
    (h : bfs_step width height start fin st = Sum.inr p) :
    p = [] ∨
      (fin ∈ st.queue ∧
        p = (reconstruct st.parent start (st.parent.length + 1)
          fin).reverse) := by
  obtain ⟨m, q, v, ps⟩ := st
  cases q with
  | nil => exact Or.inl (Sum.inr.inj h).symm
  | cons c0 qrest =>
    obtain ⟨x, y⟩ := c0
    simp only [bfs_step] at h
    split_ifs at h with h1
    · refine Or.inr ⟨?_, ?_⟩
      · show fin ∈ (x, y) :: qrest
        rw [← h1]
        exact List.mem_cons_self _ _
      · rw [← Sum.inr.inj h, h1]

/-- Every path returned by the loop from an invariant state is empty or
valid. -/
theorem bfs_run_valid {width height : Nat} {g : Grid}
    {start fin : Nat × Nat} :
    ∀ (fuel : Nat) (st : BfsState) (path : List (Nat × Nat)),
      BfsInv g width height start st →
      (find_path_BFS_run width height start fin fuel st).2 = some path →
      path = [] ∨ ValidPath g width height start fin path := by
  intro fuel
  induction fuel with
  | zero =>
    intro st path _ hret
    cases hret
  | succ fuel ih =>
    intro st path hinv hret
    unfold find_path_BFS_run at hret
    cases hstep : bfs_step width height start fin st with
    | inl st' =>
      rw [hstep] at hret
      exact ih st' path (bfs_step_inv hinv hstep) hret
    | inr p =>
      rw [hstep] at hret
      have hp : p = path := Option.some.inj hret
      subst hp
      rcases bfs_step_inr hstep with hpe | ⟨hfq, hrec⟩
      · exact Or.inl hpe
      · right
        have hfin_vis : fin ∈ st.visited := hinv.2.2.1 fin hfq
        obtain ⟨L, hLhead, hLch, hLmem, hLlen⟩ :=
          hinv.2.2.2.2 fin hfin_vis
        have hrecon : reconstruct st.parent start
            (st.parent.length + 1) fin = L :=
          reconstruct_of_chain L fin _ hLch hLhead (by omega)
        rw [hrec, hrecon]
        refine ⟨?_, ?_, ?_⟩
        · rw [List.head?_reverse]
          exact IsChain_getLast L hLch
        · rw [List.getLast?_reverse]
          exact hLhead
        · exact StepOk_getD L.reverse (IsChain_reverse_stepok L hLch)

/-- C2, amended, first half: every non-empty path returned by
find_path_BFS starts at the entry, ends at the exit, and each consecutive
pair of coordinates is one open move of the grid (adjacent, distinct, and
the owning wall bit clear). -/
theorem claim_C2_bfs_path_valid (maze : Grid) (p : CMazeParams)
    (fuel : Nat) (path : List (Nat × Nat))
    (he1 : p.entry.1 < (maze.getD 0 []).length)
    (he2 : p.entry.2 < maze.length)
    (hret : (find_path_BFS maze p fuel).2 = some path)
    (hne : path ≠ []) :
    ValidPath maze (maze.getD 0 []).length maze.length p.entry p.exit
      path := by
  have hinv0 : BfsInv maze (maze.getD 0 []).length maze.length p.entry
      ⟨maze, [p.entry], [p.entry], []⟩ := by
    refine ⟨rfl, List.mem_singleton.mpr rfl, ?_, ?_, ?_⟩
    · intro c hc
      exact hc
    · intro c hc
      rw [List.mem_singleton.mp hc]
      exact ⟨he1, he2⟩
    · intro c hc
      refine ⟨[p.entry], ?_, ?_, ?_, ?_⟩
      · rw [List.mem_singleton.mp hc]
        rfl
      · show p.entry = p.entry
        rfl
      · intro d hd
        exact hd
      · exact Nat.le.refl
  rcases bfs_run_valid fuel _ path hinv0 hret with hpe | hvalid
  · exact absurd hpe hne
  · exact hvalid
/-! ## Path finder: find_path_DFS -/

/-- The monotonic clock, embedded as a deterministic stream of readings
consumed by each time.monotonic() call. -/
structure Clock where
  seq : Nat → Int
  idx : Nat

/-- One clock reading. -/
def Clock.take (c : Clock) : Int × Clock := (c.seq c.idx, ⟨c.seq, c.idx + 1⟩)

/-- MazeGenerator.check_point_in_path: one-based index of the first path
element with the given coordinates, 0 when absent. -/
def check_point_in_path (path : List (Nat × Nat × Nat)) (x y : Nat) :
    Nat :=
  match path.findIdx? (fun f => decide (f.1 = x ∧ f.2.1 = y)) with
  | some i => i + 1
  | none => 0

/-- The state of the find_path_DFS loop. -/
structure DfsState where
  maze : Grid
  c_path : List (Nat × Nat × Nat)
  best_path : List (Nat × Nat × Nat)
  paths_q : Nat
  start : Int
  clock : Clock

/-- The passage checks of one find_path_DFS iteration, in source order:
a direction survives only if the move stays on the grid and the target is
not a pattern cell, not behind a wall, not a marked dead end and not
already on the current path. -/
def dfs_filter (maze : Grid) (width height : Nat)
    (c_path : List (Nat × Nat × Nat)) (x y q0 : Nat) : Nat :=
  let q1 :=
    if y = 0 then q0 &&& 14
    else if (gget maze (y - 1) x &&& 0xc = 0xc) ∨
        gget maze y x &&& 1 ≠ 0 ∨ gget maze (y - 1) x &&& 0x20 ≠ 0 ∨
        0 < check_point_in_path c_path x (y - 1) then q0 &&& 14
    else q0
  let q2 :=
    if x = width - 1 then q1 &&& 13
    else if (gget maze y (x + 1) &&& 0xc = 0xc) ∨
        gget maze y x &&& 2 ≠ 0 ∨ gget maze y (x + 1) &&& 0x20 ≠ 0 ∨
        0 < check_point_in_path c_path (x + 1) y then q1 &&& 13
    else q1
  let q3 :=
    if q2 &&& 4 ≠ 0 then
      if y = height - 1 then q2 &&& 11
      else if (gget maze (y + 1) x &&& 0xc = 0xc) ∨
          gget maze (y + 1) x &&& 0x21 ≠ 0 ∨
          0 < check_point_in_path c_path x (y + 1) then q2 &&& 11
      else q2
    else q2
  if q3 &&& 8 ≠ 0 then
    if x = 0 then q3 &&& 7
    else if (gget maze y (x - 1) &&& 0xc = 0xc) ∨
        gget maze y (x - 1) &&& 0x22 ≠ 0 ∨
        0 < check_point_in_path c_path (x - 1) y then q3 &&& 7
    else q3
  else q3

/-- One step taken: the top frame keeps the remaining directions and the
neighbour is pushed with all four directions. -/
def dfs_try (c_path : List (Nat × Nat × Nat)) (x y q qm nx ny : Nat) :
    List (Nat × Nat × Nat) :=
  c_path.dropLast ++ [(x, y, q &&& qm), (nx, ny, 0xf)]

/-- The direction choice of find_path_DFS: exit-directed moves first (by
the larger coordinate gap), then the fixed fallback order top, right,
bottom, left; an exhausted frame is popped. -/
def dfs_choose (out_x out_y x y q : Nat)
    (c_path : List (Nat × Nat × Nat)) : List (Nat × Nat × Nat) :=
  let fallback :=
    if q &&& 1 ≠ 0 then dfs_try c_path x y q 0xe x (y - 1)
    else if q &&& 2 ≠ 0 then dfs_try c_path x y q 0xd (x + 1) y
    else if q &&& 4 ≠ 0 then dfs_try c_path x y q 0xb x (y + 1)
    else if q &&& 8 ≠ 0 then dfs_try c_path x y q 0x7 (x - 1) y
    else c_path.dropLast
  if (out_y - y) + (y - out_y) < (out_x - x) + (x - out_x) then
    if x < out_x ∧ q &&& 2 ≠ 0 then dfs_try c_path x y q 0xd (x + 1) y
    else if out_x < x ∧ q &&& 8 ≠ 0 then dfs_try c_path x y q 0x7 (x - 1) y
    else if y < out_y ∧ q &&& 4 ≠ 0 then dfs_try c_path x y q 0xb x (y + 1)
    else if out_y < y ∧ q &&& 1 ≠ 0 then dfs_try c_path x y q 0xe x (y - 1)
    else fallback
  else
    if y < out_y ∧ q &&& 4 ≠ 0 then dfs_try c_path x y q 0xb x (y + 1)
    else if out_y < y ∧ q &&& 1 ≠ 0 then dfs_try c_path x y q 0xe x (y - 1)
    else if x < out_x ∧ q &&& 2 ≠ 0 then dfs_try c_path x y q 0xd (x + 1) y
    else if out_x < x ∧ q &&& 8 ≠ 0 then dfs_try c_path x y q 0x7 (x - 1) y
    else fallback

/-- The passage checks plus the direction choice, on the current (possibly
just stamped) grid. -/
def dfs_walk (p : CMazeParams) (s : DfsState) : DfsState :=
  let f := s.c_path.getLastD (0, 0, 0)
  let x := f.1
  let y := f.2.1
  let q := dfs_filter s.maze p.width p.height s.c_path x y f.2.2
  if q = 0 then { s with c_path := s.c_path.dropLast }
  else { s with c_path := dfs_choose p.exit.1 p.exit.2 x y q s.c_path }

/-- The restamping loop run after a best-path improvement: rewrite the
depth stamp of every element of the stitched path beyond the current
one. -/
def dfs_restamp (best : List (Nat × Nat × Nat)) (start_i : Nat)
    (m : Grid) : Grid :=
  (List.range (best.length - start_i)).foldl
    (fun g k =>
      let f := best.getD (start_i + k) (0, 0, 0)
      setCell g f.2.1 f.1 ((gget g f.2.1 f.1 &&& 0xff) |||
        ((start_i + k) <<< 8)))
    m

/-- The body of one find_path_DFS iteration (the loop condition already
passed): prune against the best path, handle a found exit, stamp the
search depth and possibly stitch a shorter best path, then walk. -/
def dfs_body (p : CMazeParams) (s : DfsState) : DfsState :=
  let out_x := p.exit.1
  let out_y := p.exit.2
  let i := s.c_path.length - 1
  let f := s.c_path.getLastD (0, 0, 0)
  let x := f.1
  let y := f.2.1
  let q0 := f.2.2
  if 0 < s.best_path.length ∧
      (s.best_path.length < s.c_path.length +
          ((out_x - x) + (x - out_x) + (out_y - y) + (y - out_y)) ∨
        s.best_path.length ≤ s.c_path.length) then
    { s with c_path := s.c_path.dropLast }
  else if x = out_x ∧ out_y = y then
    let pq := s.paths_q + 1
    let best := if s.best_path.length = 0 ∨
        s.c_path.length < s.best_path.length then s.c_path
      else s.best_path
    let s1 := { s with
      paths_q := pq
      best_path := best
      c_path := s.c_path.dropLast }
    if pq = 1 then
      let t := s1.clock.take
      if 15 < t.1 - s1.start then
        let t2 := t.2.take
        { s1 with clock := t2.2, start := t2.1 - 15 }
      else { s1 with clock := t.2 }
    else s1
  else
    let old_ := (gget s.maze y x &&& 0xffffff00) >>> 8
    if 0 < i ∧ (old_ = 0 ∨ i < old_) then
      let m1 := setCell s.maze y x ((gget s.maze y x &&& 0xff) |||
        (i <<< 8))
      if 0 < old_ ∧ 0 < check_point_in_path s.best_path x y then
        let l := check_point_in_path s.best_path x y
        let best := s.c_path ++ s.best_path.drop l
        { s with
          maze := dfs_restamp best (i + 1) m1
          best_path := best
          c_path := s.c_path.dropLast }
      else dfs_walk p { s with maze := m1 }
    else if 0 < i ∧ 0 < old_ ∧ (old_ < i ∨ (q0 = 0xf ∧ old_ = i)) then
      { s with c_path := s.c_path.dropLast }
    else dfs_walk p s

/-- One evaluation of the find_path_DFS loop condition plus, when it
holds, one body iteration; the condition reads the clock only when a best
path exists. -/
def dfs_step (p : CMazeParams) (s : DfsState) :
    DfsState ⊕ (Grid × List (Nat × Nat × Nat)) :=
  match s.c_path with
  | [] => Sum.inr (s.maze, s.best_path)
  | _ :: _ =>
    if s.best_path.length = 0 then Sum.inl (dfs_body p s)
    else
      let t := s.clock.take
      if t.1 - s.start < 20 then Sum.inl (dfs_body p { s with clock := t.2 })
      else Sum.inr (s.maze, s.best_path)

/-- Run the find_path_DFS loop for at most fuel iterations. -/
def dfs_run (p : CMazeParams) :
    Nat → DfsState → Grid × List (Nat × Nat × Nat)
  | 0, s => (s.maze, s.best_path)
  | fuel + 1, s =>
    match dfs_step p s with
    | Sum.inr res => res
    | Sum.inl s' => dfs_run p fuel s'

/-- MazeGenerator.find_path_DFS: seed the current path with the entry (or
with the supplied best path when it has more than one element), read the
start time and run the loop; the grid (with its depth stamps) and the
best path are returned. -/
def find_path_DFS (maze : Grid) (p : CMazeParams)
    (best_path : List (Nat × Nat × Nat)) (cl : Clock) (fuel : Nat) :
    Grid × List (Nat × Nat × Nat) :=
  let c0 : List (Nat × Nat × Nat) := [(p.entry.1, p.entry.2, 0xf)]
  let c1 := if 1 < best_path.length then
      best_path.map (fun f => (f.1, f.2.1, 0xf))
    else c0
  let t := cl.take
  dfs_run p fuel ⟨maze, c1, best_path, 0, t.1, t.2⟩

/-- The all-zero clock stream. -/
def clock0 : Clock := ⟨fun _ => 0, 0⟩

/-- A 2-by-2 grid: entry cell open to the right, exit cell open above. -/
def mazeBfsW : Grid := [[1, 3], [3, 2]]

instance (g : Grid) (w h : Nat) (e f : Nat × Nat)
    (path : List (Nat × Nat)) : Decidable (ValidPath g w h e f path) := by
  unfold ValidPath
  infer_instance

/-- C2 counterexample: called with a caller-supplied best_path that is not
a path at all, find_path_DFS prunes every frame of the current path and
returns the supplied list unchanged, so its result does not start at the
entry. -/
theorem claim_C2_counterexample :
    (find_path_DFS mazeBfsW pPerfect22 [(5, 5, 0), (9, 9, 0)]
        clock0 10).2 = [(5, 5, 0), (9, 9, 0)] ∧
      ¬ ValidPath mazeBfsW 2 2 pPerfect22.entry pPerfect22.exit
        (((find_path_DFS mazeBfsW pPerfect22 [(5, 5, 0), (9, 9, 0)]
          clock0 10).2).map (fun f => (f.1, f.2.1))) := by
  constructor
  · decide
  · decide

/-- C2 witness: a concrete BFS run on a 2-by-2 grid with an L-shaped open
corridor. -/
theorem claim_C2_witness :
    (pPerfect22.entry.1 < (mazeBfsW.getD 0 []).length ∧
      pPerfect22.entry.2 < mazeBfsW.length ∧
      (find_path_BFS mazeBfsW pPerfect22 10).2 =
        some [(0, 0), (1, 0), (1, 1)] ∧
      ([(0, 0), (1, 0), (1, 1)] : List (Nat × Nat)) ≠ []) ∧
      ValidPath mazeBfsW (mazeBfsW.getD 0 []).length mazeBfsW.length
        pPerfect22.entry pPerfect22.exit [(0, 0), (1, 0), (1, 1)] :=
  ⟨⟨by decide, by decide, by decide, by decide⟩,
    claim_C2_bfs_path_valid _ _ 10 _ (by decide) (by decide) (by decide)
      (by decide)⟩
end AMaze
